import Mathlib

/-!
Verification of the subtitle alignment / phrase-grouping core of the
Whisper-TikTok repository, shallowly embedded from
`src/whisper_tiktok/services/transcription_service.py`.

Conventions of the embedding:
* Python `float` seconds are modelled as exact rationals `ℚ` (float rounding
  is outside the shallow embedding).
* A Whisper `WordTiming` object is modelled by `TimedWord`; the Python
  attribute `end` is called `stop` here (`end` is a Lean keyword).
* Python's default object equality is identity; where the source relies on
  it (`w in segment.words`, `all_words.index(w)`), the embedding works with
  the word's global position in the flattened transcript, which is in
  bijection with the distinct `WordTiming` objects.
* `difflib.SequenceMatcher(None, a, b)` is embedded operationally, including
  the `autojunk` purge of popular elements (`len(b) >= 200`); `isjunk` is
  `None` in the source, so the junk set is empty and the two junk-extension
  loops of `find_longest_match` never fire.
-/

namespace WhisperTikTok

/-- A recognized word with its timing, as produced by the transcription
engine (`WordTiming` in stable-whisper): `{word, start, end}`.  `end` is
named `stop`. -/
structure TimedWord where
  word : String
  start : ℚ
  stop : ℚ
deriving DecidableEq, Repr, Inhabited

/-- A display phrase as built by `_group_words_into_phrases`:
`{'start': .., 'end': .., 'words': [..], 'text': ..}`. -/
structure Phrase where
  start : ℚ
  stop : ℚ
  words : List TimedWord
  text : String
deriving DecidableEq, Repr, Inhabited

/-- `any(punct in prev_word for punct in ['.', ',', '!', '?', ';', ':'])` -/
def hasBreakPunct (s : String) : Bool :=
  s.contains '.' || s.contains ',' || s.contains '!' ||
  s.contains '?' || s.contains ';' || s.contains ':'

/-- The `should_break` condition of `_group_words_into_phrases`, evaluated
against the phrase built so far and the incoming word. -/
def shouldBreak (cur : Phrase) (w : TimedWord) : Bool :=
  hasBreakPunct (((cur.words.getLast?).map TimedWord.word).getD "") ||
  decide (1 < w.start - cur.stop) ||
  decide (10 ≤ cur.words.length)

/-- One iteration of the `for i in range(1, len(word_timings))` loop of
`_group_words_into_phrases`. -/
def groupStep (st : List Phrase × Phrase) (w : TimedWord) : List Phrase × Phrase :=
  if shouldBreak st.2 w then
    (st.1 ++ [st.2], ⟨w.start, w.stop, [w], w.word⟩)
  else
    (st.1, ⟨st.2.start, w.stop, st.2.words ++ [w], st.2.text ++ " " ++ w.word⟩)

/-- `_group_words_into_phrases`: `[]` for empty input, otherwise fold the
remaining words into an open phrase seeded with the first word, and always
emit the final open phrase. -/
def groupWordsIntoPhrases : List TimedWord → List Phrase
  | [] => []
  | w :: ws =>
    let st := ws.foldl groupStep ([], ⟨w.start, w.stop, [w], w.word⟩)
    st.1 ++ [st.2]

/-- Python `%` (modulo) on rationals, for a positive modulus. -/
def pyMod (x y : ℚ) : ℚ := x - y * ⌊x / y⌋

/-- Python `//` (floor division) on rationals. -/
def pyFloorDiv (x y : ℚ) : ℚ := (⌊x / y⌋ : ℚ)

/-- Python `int()` applied to a rational: truncation toward zero. -/
def intTrunc (x : ℚ) : ℤ := if x < 0 then -⌊-x⌋ else ⌊x⌋

/-- `f"{n:02d}"` for an integer. -/
def pad2 (n : ℤ) : String :=
  if 0 ≤ n ∧ n < 10 then "0" ++ toString n else toString n

/-- `f"{n:03d}"` for an integer. -/
def pad3 (n : ℤ) : String :=
  if 0 ≤ n ∧ n < 10 then "00" ++ toString n
  else if 0 ≤ n ∧ n < 100 then "0" ++ toString n
  else toString n

/-- `_format_srt_time` (the `formatCaptionTime` of the spec):
`HH:MM:SS,mmm` with truncating conversions, computed exactly as the source
does (`int(seconds // 3600)`, `int((seconds % 3600) // 60)`,
`int(seconds % 60)`, `int((seconds % 1) * 1000)`). -/
def formatSrtTime (s : ℚ) : String :=
  let hours := intTrunc (pyFloorDiv s 3600)
  let minutes := intTrunc (pyFloorDiv (pyMod s 3600) 60)
  let secs := intTrunc (pyMod s 60)
  let millis := intTrunc (pyMod s 1 * 1000)
  pad2 hours ++ ":" ++ pad2 minutes ++ ":" ++ pad2 secs ++ "," ++ pad3 millis

/-- `_format_ass_time` (the `formatStyledTime` of the spec): `H:MM:SS.cc`.
The seconds field is `f"{secs:05.2f}"`; the 2-decimal formatting is
modelled as rounding `secs * 100` to an integer number of centiseconds. -/
def formatAssTime (s : ℚ) : String :=
  let hours := intTrunc (pyFloorDiv s 3600)
  let minutes := intTrunc (pyFloorDiv (pyMod s 3600) 60)
  let cents := round (pyMod s 60 * 100)
  toString hours ++ ":" ++ pad2 minutes ++ ":" ++ pad2 (cents / 100) ++ "." ++ pad2 (cents % 100)

/-- The list of strings passed to `f.write` by `_generate_srt`: three writes
per word timing, 1-indexed. -/
def generateSrtWrites (timings : List TimedWord) : List String :=
  (timings.enum.map (fun p =>
    [toString (p.1 + 1) ++ "\n",
     formatSrtTime p.2.start ++ " --> " ++ formatSrtTime p.2.stop ++ "\n",
     p.2.word ++ "\n\n"])).flatten

/-- The character-level core of Python `str.rstrip()`. -/
def rstripData (l : List Char) : List Char :=
  (l.reverse.dropWhile Char.isWhitespace).reverse

/-- Python `str.rstrip()` (strip trailing whitespace). -/
def pyRstrip (s : String) : String :=
  String.mk (rstripData s.data)

/-- The centisecond value the source embeds in a karaoke tag:
`int((word_data['end'] - word_data['start']) * 100)`. -/
def karaokeCs (w : TimedWord) : ℤ := intTrunc ((w.stop - w.start) * 100)

/-- One karaoke block `f"{{\\k{duration_cs}}}{word} "` (braces written with
escapes). -/
def karaokeBlock (w : TimedWord) : String :=
  "\x7b\\k" ++ toString (karaokeCs w) ++ "\x7d" ++ w.word ++ " "

/-- The karaoke text of one phrase: concatenation of the per-word blocks,
right-stripped before being written (`karaoke_text.rstrip()`). -/
def karaokeText (ws : List TimedWord) : String :=
  pyRstrip (String.join (ws.map karaokeBlock))

/-- The style options consumed by `_generate_ass` through `options.get`. -/
structure AssOptions where
  font : Option String := none
  fontSize : Option ℤ := none
  fontColor : Option String := none
deriving DecidableEq, Repr, Inhabited

/-- The colour fix-up of `_generate_ass`: wrap a hex string into `&H...`
unless it is falsy or already starts with `&H`. -/
def assColor (c : Option String) : String :=
  let fc := c.getD "FFFFFF"
  if fc ≠ "" ∧ ¬ fc.startsWith "&H" then "&H" ++ fc else fc

/-- The single `Style:` line written by `_generate_ass`. -/
def styleLine (opts : AssOptions) : String :=
  "Style: Default," ++ opts.font.getD "Impact" ++ "," ++
  toString (opts.fontSize.getD 28) ++ "," ++ assColor opts.fontColor ++
  ",&Hffffff,&H000000,&H80000000,-1,0,0,0,100,100,0,0,1,3,3,5,0,0,10,0\n\n"

/-- One `Dialogue:` write of `_generate_ass`. -/
def dialogueWrite (idx : Nat) (p : Phrase) : String :=
  "Dialogue: " ++ toString idx ++ "," ++ formatAssTime p.start ++ "," ++
  formatAssTime p.stop ++ ",Default,,0,0,0,," ++ karaokeText p.words ++ "\n"

/-- The list of strings passed to `f.write` by `_generate_ass`: the fixed
header, the style section, the events header, then one dialogue write per
phrase produced by `_group_words_into_phrases`. -/
def generateAssWrites (timings : List TimedWord) (opts : AssOptions) : List String :=
  ["[Script Info]\n",
   "ScriptType: v4.00+\n",
   "PlayResX: 384\n",
   "PlayResY: 288\n",
   "ScaledBorderAndShadow: yes\n\n",
   "[V4+ Styles]\n",
   "Format: Name, Fontname, Fontsize, PrimaryColour, SecondaryColour, OutlineColour, BackColour, Bold, Italic, Underline, StrikeOut, ScaleX, ScaleY, Spacing, Angle, BorderStyle, Outline, Shadow, Alignment, MarginL, MarginR, MarginV, Encoding\n",
   styleLine opts,
   "[Events]\n",
   "Format: Layer, Start, End, Style, Name, MarginL, MarginR, MarginV, Effect, Text\n\n"]
  ++ ((groupWordsIntoPhrases timings).enum.map (fun p => dialogueWrite p.1 p.2))

/-- `True` on a write that opens a dialogue line. -/
def isDialogueWrite (s : String) : Bool :=
  decide (s.data.take 9 = "Dialogue:".data)

/-- `True` on a write that opens a style line. -/
def isStyleWrite (s : String) : Bool :=
  decide (s.data.take 6 = "Style:".data)

/-! ## The embedding of `difflib.SequenceMatcher(None, a, b)`

Elements are the punctuation-stripped lower-cased tokens (`String`).
`isjunk` is `None` in `_align_with_original_text`, so `bjunk = ∅` and the
two junk-extension loops of `find_longest_match` never fire; `autojunk`
stays at its default `True`. -/

/-- The ascending list of positions of `x` in `b`, as collected by
`SequenceMatcher.__chain_b` before the purges. -/
def posList (b : List String) (x : String) : List Nat :=
  (List.range b.length).filter (fun j => b.getD j "" = x)

/-- `ntest = n // 100 + 1` of the autojunk purge. -/
def autojunkNtest (b : List String) : Nat := b.length / 100 + 1

/-- Whether `x` is purged from `b2j` as a popular element
(`autojunk and n >= 200 and len(idxs) > ntest`). -/
def isPopular (b : List String) (x : String) : Bool :=
  decide (200 ≤ b.length) && decide (autojunkNtest b < (posList b x).length)

/-- `b2j.get(x, [])` after the junk purge (empty, `isjunk=None`) and the
autojunk popular purge. -/
def b2jGet (b : List String) (x : String) : List Nat :=
  if isPopular b x then [] else posList b x

/-- The inner `for j in b2j.get(a[i], nothing)` loop of
`find_longest_match`, over one row `i`.  State: the row's `newj2len`
(as a total function, 0 where unset) and the running
`(besti, bestj, bestsize)`. -/
def flmInner (j2lenOld : Nat → Nat) (i : Nat) :
    ((Nat → Nat) × Nat × Nat × Nat) → List Nat → ((Nat → Nat) × Nat × Nat × Nat)
  | st, [] => st
  | st, j :: js =>
    let k := (if j = 0 then 0 else j2lenOld (j - 1)) + 1
    let nj : Nat → Nat := fun j' => if j' = j then k else st.1 j'
    if st.2.2.2 < k then
      flmInner j2lenOld i (nj, i + 1 - k, j + 1 - k, k) js
    else
      flmInner j2lenOld i (nj, st.2.1, st.2.2.1, st.2.2.2) js

/-- The row scan of `find_longest_match` over `i in range(alo, ahi)`.
The `continue`/`break` filtering of the inner loop (`j < blo` skipped,
`j >= bhi` stops) is `dropWhile`/`takeWhile` on the ascending position
list.  Returns the final `j2len` and `(besti, bestj, bestsize)`. -/
def flmScan (a b : List String) (alo ahi blo bhi : Nat) :
    (Nat → Nat) × Nat × Nat × Nat :=
  (List.range' alo (ahi - alo)).foldl
    (fun st i =>
      let js := ((b2jGet b (a.getD i "")).dropWhile (fun j => decide (j < blo))).takeWhile
        (fun j => decide (j < bhi))
      flmInner st.1 i ((fun _ => 0), st.2.1, st.2.2.1, st.2.2.2) js)
    ((fun _ => 0), alo, blo, 0)

/-- The backward non-junk extension loop of `find_longest_match`
(`while besti > alo and bestj > blo and a[besti-1] == b[bestj-1]`).
Structural fuel; `fuel = besti` always suffices. -/
def extBack (a b : List String) (alo blo : Nat) :
    Nat → Nat × Nat × Nat → Nat × Nat × Nat
  | 0, st => st
  | fuel + 1, st =>
    if alo < st.1 ∧ blo < st.2.1 ∧ a.getD (st.1 - 1) "" = b.getD (st.2.1 - 1) "" then
      extBack a b alo blo fuel (st.1 - 1, st.2.1 - 1, st.2.2 + 1)
    else st

/-- The forward non-junk extension loop of `find_longest_match`
(`while besti+bestsize < ahi and bestj+bestsize < bhi and
a[besti+bestsize] == b[bestj+bestsize]`).  `fuel = ahi` always
suffices. -/
def extFwd (a b : List String) (ahi bhi : Nat) :
    Nat → Nat × Nat × Nat → Nat × Nat × Nat
  | 0, st => st
  | fuel + 1, st =>
    if st.1 + st.2.2 < ahi ∧ st.2.1 + st.2.2 < bhi ∧
        a.getD (st.1 + st.2.2) "" = b.getD (st.2.1 + st.2.2) "" then
      extFwd a b ahi bhi fuel (st.1, st.2.1, st.2.2 + 1)
    else st

/-- `find_longest_match(alo, ahi, blo, bhi)`: row scan, then backward and
forward extensions (the junk extensions are no-ops since `bjunk = ∅`). -/
def findLongestMatch (a b : List String) (alo ahi blo bhi : Nat) : Nat × Nat × Nat :=
  let s := flmScan a b alo ahi blo bhi
  let e := extBack a b alo blo s.2.1 (s.2.1, s.2.2.1, s.2.2.2)
  extFwd a b ahi bhi ahi e

/-- The queue loop of `get_matching_blocks`.  Python pops from the end of
the list and appends the low rectangle then the high rectangle; the queue
is modelled reversed (head = next pop), so the high rectangle is consed
first.  Structural fuel; `2*len(a)+2` suffices (cf. `gmbMeasure`). -/
def gmbLoop (a b : List String) :
    Nat → List (Nat × Nat × Nat × Nat) → List (Nat × Nat × Nat) → List (Nat × Nat × Nat)
  | 0, _, acc => acc
  | _ + 1, [], acc => acc
  | fuel + 1, r :: rest, acc =>
    let alo := r.1
    let ahi := r.2.1
    let blo := r.2.2.1
    let bhi := r.2.2.2
    let m := findLongestMatch a b alo ahi blo bhi
    if m.2.2 = 0 then gmbLoop a b fuel rest acc
    else
      gmbLoop a b fuel
        ((if m.1 + m.2.2 < ahi ∧ m.2.1 + m.2.2 < bhi then
            [(m.1 + m.2.2, ahi, m.2.1 + m.2.2, bhi)] else [])
          ++ (if alo < m.1 ∧ blo < m.2.1 then [(alo, m.1, blo, m.2.1)] else [])
          ++ rest)
        (acc ++ [m])

/-- The unsorted block list collected by `get_matching_blocks`. -/
def matchingBlocksRaw (a b : List String) : List (Nat × Nat × Nat) :=
  gmbLoop a b (2 * a.length + 2) [(0, a.length, 0, b.length)] []

/-- Lexicographic order on `(i, j, k)` triples: `matching_blocks.sort()`. -/
def blockLe (x y : Nat × Nat × Nat) : Prop :=
  x.1 < y.1 ∨ (x.1 = y.1 ∧ (x.2.1 < y.2.1 ∨ (x.2.1 = y.2.1 ∧ x.2.2 ≤ y.2.2)))

instance : DecidableRel blockLe := fun x y => by unfold blockLe; exact inferInstance

instance : IsTotal (Nat × Nat × Nat) blockLe := ⟨by intro x y; unfold blockLe; omega⟩

instance : IsTrans (Nat × Nat × Nat) blockLe := ⟨by intro x y z; unfold blockLe; omega⟩

/-- `matching_blocks.sort()`.  All collected blocks are distinct, and
`blockLe` is total and antisymmetric, so any sorting algorithm produces
the same list as Python's sort. -/
def sortedBlocks (a b : List String) : List (Nat × Nat × Nat) :=
  List.insertionSort blockLe (matchingBlocksRaw a b)

/-- The adjacent-block merging loop of `get_matching_blocks`
(`i1, j1, k1` accumulator starting at `(0,0,0)`). -/
def nonAdjacent (bs : List (Nat × Nat × Nat)) : List (Nat × Nat × Nat) :=
  let st := bs.foldl
    (fun (st : List (Nat × Nat × Nat) × Nat × Nat × Nat) blk =>
      if st.2.1 + st.2.2.2 = blk.1 ∧ st.2.2.1 + st.2.2.2 = blk.2.1 then
        (st.1, st.2.1, st.2.2.1, st.2.2.2 + blk.2.2)
      else
        ((if st.2.2.2 ≠ 0 then st.1 ++ [st.2] else st.1), blk))
    ([], 0, 0, 0)
  if st.2.2.2 ≠ 0 then st.1 ++ [st.2] else st.1

/-- `get_matching_blocks()`: sorted, merged, with the `(la, lb, 0)`
sentinel appended. -/
def matchingBlocks (a b : List String) : List (Nat × Nat × Nat) :=
  nonAdjacent (sortedBlocks a b) ++ [(a.length, b.length, 0)]

/-- Opcode tags of `get_opcodes()`. -/
inductive OpTag
  | eq | rep | del | ins
deriving DecidableEq, Repr

/-- `get_opcodes()`: walk the matching blocks, emitting a gap opcode
(`replace`/`delete`/`insert`) before each block and an `equal` opcode for
each block of nonzero size. -/
def getOpcodes (blocks : List (Nat × Nat × Nat)) : List (OpTag × Nat × Nat × Nat × Nat) :=
  (blocks.foldl
    (fun (st : Nat × Nat × List (OpTag × Nat × Nat × Nat × Nat)) blk =>
      let i := st.1
      let j := st.2.1
      let withGap :=
        if i < blk.1 ∧ j < blk.2.1 then st.2.2 ++ [(OpTag.rep, i, blk.1, j, blk.2.1)]
        else if i < blk.1 then st.2.2 ++ [(OpTag.del, i, blk.1, j, blk.2.1)]
        else if j < blk.2.1 then st.2.2 ++ [(OpTag.ins, i, blk.1, j, blk.2.1)]
        else st.2.2
      (blk.1 + blk.2.2, blk.2.1 + blk.2.2,
        if blk.2.2 ≠ 0 then
          withGap ++ [(OpTag.eq, blk.1, blk.1 + blk.2.2, blk.2.1, blk.2.1 + blk.2.2)]
        else withGap))
    (0, 0, [])).2.2

/-- The 1:1 pairs `zip(range(i1, i2), range(j1, j2))` of one opcode. -/
def opPairs (op : OpTag × Nat × Nat × Nat × Nat) : List (Nat × Nat) :=
  (List.range' op.2.1 (op.2.2.1 - op.2.1)).zip
    (List.range' op.2.2.2.1 (op.2.2.2.2 - op.2.2.2.1))

/-- The alignment-building loop of `_align_with_original_text`: for
`equal` and `replace` opcodes pair positions 1:1, guarding each
transcribed index with `used_trans_indices`. -/
def buildAlignment (ops : List (OpTag × Nat × Nat × Nat × Nat)) : List (Nat × Nat) :=
  (ops.foldl
    (fun (st : List (Nat × Nat) × List Nat) op =>
      if op.1 = OpTag.eq ∨ op.1 = OpTag.rep then
        (opPairs op).foldl
          (fun st2 p =>
            if st2.2.contains p.1 then st2 else (st2.1 ++ [p], st2.2 ++ [p.1]))
          st
      else st)
    ([], [])).1

/-- The full Sequence Aligner on a pair of already-normalized token
sequences: `SequenceMatcher(None, tclean, oclean).get_opcodes()` fed to
the alignment-building loop. -/
def alignmentFor (tclean oclean : List String) : List (Nat × Nat) :=
  buildAlignment (getOpcodes (matchingBlocks tclean oclean))

/-! ## The URL preprocessing of `_preprocess_text_for_wrapping`

`re.sub(r'\b(?:https?://)?(?:www\.)?[a-z0-9][a-z0-9-]*(?:\.[a-z0-9-]+)+'
`r'\.(?:com|org|net|edu|gov)\b', split_url_at_dots, text, flags=re.IGNORECASE)`
is embedded as a left-to-right scan with a backtracking matcher
specialized to this pattern (ASCII alphabet). -/

/-- Python `\w` for the ASCII range (used for `\b` boundaries and for the
normalization `re.sub(r'[^\w]', '', w)`). -/
def wordCh (c : Char) : Bool := c.isAlphanum || c = '_'

/-- `[a-z0-9]` under `re.IGNORECASE`. -/
def isDomHead (c : Char) : Bool :=
  ('a' ≤ c && c ≤ 'z') || ('A' ≤ c && c ≤ 'Z') || ('0' ≤ c && c ≤ '9')

/-- `[a-z0-9-]` under `re.IGNORECASE`. -/
def isDomRun (c : Char) : Bool := isDomHead c || c = '-'

/-- Consume a fixed lowercase literal case-insensitively; return the rest. -/
def ciStrip : List Char → List Char → Option (List Char)
  | [], cs => some cs
  | _ :: _, [] => none
  | p :: ps, c :: cs => if c.toLower = p then ciStrip ps cs else none

/-- The five TLD alternatives, in the pattern's alternation order (their
first letters are distinct, so at most one is a prefix of a given run). -/
def tldList : List (List Char) :=
  [['c', 'o', 'm'], ['o', 'r', 'g'], ['n', 'e', 't'], ['e', 'd', 'u'], ['g', 'o', 'v']]

/-- Greedily collect the `(?:\.[a-z0-9-]+)` groups: each is a dot followed
by a maximal nonempty run.  Returns the runs and the rest of the input.
Fuel is structural; the input length suffices. -/
def collectGroups : Nat → List Char → List (List Char) × List Char
  | 0, cs => ([], cs)
  | fuel + 1, cs =>
    match cs with
    | '.' :: cs' =>
      let run := cs'.takeWhile isDomRun
      if run.isEmpty then ([], cs)
      else
        let r := collectGroups fuel (cs'.drop run.length)
        (run :: r.1, r.2)
    | _ => ([], cs)

/-- Try `\.(?:com|org|net|edu|gov)\b` against a group run: if some TLD is a
case-insensitive prefix of `run` and the following character (within the
run, or `next?` after it) is a non-word boundary, return the TLD length. -/
def tldAt (run : List Char) (next? : Option Char) : Option Nat :=
  match tldList.find? (fun tld =>
    decide ((run.take tld.length).map Char.toLower = tld) &&
    (match run.drop tld.length with
     | c :: _ => ! wordCh c
     | [] =>
       match next? with
       | none => true
       | some c => ! wordCh c)) with
  | some tld => some tld.length
  | none => none

/-- Total length of a list of groups as they appear in the text
(one dot plus the run, each). -/
def groupsLen (runs : List (List Char)) : Nat :=
  (runs.map (fun r => r.length + 1)).sum

/-- Backtracking search over how many greedy groups the `+` keeps: try the
largest group index as the TLD position first (regex greediness), needing
at least one `+` group before it. -/
def tailSearchAux (runs : List (List Char)) (rest : List Char) : Nat → Option Nat
  | 0 => none
  | jj + 1 =>
    if jj + 1 < 2 then none
    else
      let run := runs.getD jj []
      let next? : Option Char := if jj + 1 < runs.length then some '.' else rest.head?
      match tldAt run next? with
      | some tl => some (groupsLen (runs.take jj) + 1 + tl)
      | none => tailSearchAux runs rest jj

/-- The number of characters `(?:\.[a-z0-9-]+)+\.(?:com|..)\b` consumes
after the head run, if the tail matches. -/
def tailSearch (runs : List (List Char)) (rest : List Char) : Option Nat :=
  tailSearchAux runs rest runs.length

/-- `[a-z0-9][a-z0-9-]*(?:\.[a-z0-9-]+)+\.(?:com|org|net|edu|gov)\b`:
the match length, if any. -/
def coreMatch (cs : List Char) : Option Nat :=
  match cs with
  | [] => none
  | c :: cs' =>
    if isDomHead c then
      let run := cs'.takeWhile isDomRun
      let afterHead := cs'.drop run.length
      let g := collectGroups afterHead.length afterHead
      match tailSearch g.1 g.2 with
      | some n => some (1 + run.length + n)
      | none => none
    else none

/-- The alternatives of `(?:https?://)?` in backtracking order
(`https://` first, then `http://`, then nothing), as
(consumed length, rest) candidates. -/
def schemeSplit (cs : List Char) : List (Nat × List Char) :=
  (match ciStrip ['h', 't', 't', 'p', 's', ':', '/', '/'] cs with
   | some r => [(8, r)]
   | none => []) ++
  (match ciStrip ['h', 't', 't', 'p', ':', '/', '/'] cs with
   | some r => [(7, r)]
   | none => []) ++ [(0, cs)]

/-- The alternatives of `(?:www\.)?` in backtracking order. -/
def wwwSplit (cs : List Char) : List (Nat × List Char) :=
  (match ciStrip ['w', 'w', 'w', '.'] cs with
   | some r => [(4, r)]
   | none => []) ++ [(0, cs)]

/-- First successful alternative. -/
def firstSome : List (Nat × List Char) → Option Nat
  | [] => none
  | c :: more =>
    match coreMatch c.2 with
    | some m => some (c.1 + m)
    | none => firstSome more

/-- The whole pattern (minus the leading `\b`, checked by the caller)
anchored at the start of `cs`: the consumed length, if it matches. -/
def matchUrlAt (cs : List Char) : Option Nat :=
  firstSome ((schemeSplit cs).flatMap (fun sc =>
    (wwwSplit sc.2).map (fun ww => (sc.1 + ww.1, ww.2))))

/-- The `\b` before a match: every alternative of the pattern starts with a
word character, so the boundary holds iff the previous character is absent
or not a word character. -/
def boundaryBefore (prev : Option Char) : Bool :=
  match prev with
  | none => true
  | some pc => ! wordCh pc

/-- `split_url_at_dots`: the matched text with every `.` replaced by `. `. -/
def urlReplace (matched : List Char) : List Char :=
  matched.flatMap (fun c => if c = '.' then ['.', ' '] else [c])

/-- The left-to-right scan of `re.sub`: at each position with a `\b`
boundary, take the leftmost match and continue after it, else copy one
character.  Fuel decreases by one per step while at least one character is
consumed, so `fuel = length` suffices. -/
def subScan (fuel : Nat) (prev : Option Char) (cs : List Char) : List Char :=
  match fuel, cs with
  | 0, rest => rest
  | _ + 1, [] => []
  | fuel + 1, c :: cs' =>
    match (if boundaryBefore prev then matchUrlAt (c :: cs') else none) with
    | some l =>
      urlReplace ((c :: cs').take l) ++
        subScan fuel (((c :: cs').take l).getLast?) ((c :: cs').drop l)
    | none => c :: subScan fuel (some c) cs'

/-- `_preprocess_text_for_wrapping`. -/
def preprocessTextForWrapping (text : String) : String :=
  String.mk (subScan text.data.length none text.data)

/-! ## `_align_with_original_text` -/

/-- `re.sub(r'[^\w]', '', w).lower()`. -/
def cleanToken (s : String) : String :=
  String.mk ((s.data.filter wordCh).map Char.toLower)

/-- Helper for `pySplit`: splits a character list at whitespace runs,
accumulating the current (reversed) token. -/
def pySplitAux : List Char → List Char → List String
  | [], acc => if acc = [] then [] else [String.mk acc.reverse]
  | c :: cs, acc =>
    if c.isWhitespace then
      (if acc = [] then [] else [String.mk acc.reverse]) ++ pySplitAux cs []
    else pySplitAux cs (c :: acc)

/-- Python `str.split()` (split on whitespace runs, no empty tokens). -/
def pySplit (s : String) : List String :=
  pySplitAux s.data []

/-- The authoritative token list used by the aligner: whitespace
tokenization of the preprocessed text (`original_text.split()` after
`_preprocess_text_for_wrapping`). -/
def originalWordsOf (text : String) : List String :=
  pySplit (preprocessTextForWrapping text)

/-- The rewriting loop: for each aligned pair (guarded by the source's
bounds check), overwrite the recognized word's text with the authoritative
token, prefixing a single space for every pair after the first applied
one; `start`/`end` are untouched. -/
def rewriteWords (allWords : List TimedWord) (originalWords : List String)
    (algn : List (Nat × Nat)) : List TimedWord :=
  (algn.foldl
    (fun (st : List TimedWord × Nat) p =>
      if p.1 < allWords.length ∧ p.2 < originalWords.length then
        (st.1.set p.1
          { st.1.getD p.1 default with
            word := (if st.2 = 0 then "" else " ") ++ originalWords.getD p.2 "" },
         st.2 + 1)
      else st)
    (allWords, 0)).1

/-- Global index of the first word of segment `σ` in the flattened word
list. -/
def segmentOffset (segs : List (List TimedWord)) (σ : Nat) : Nat :=
  ((segs.take σ).map List.length).sum

/-- `_align_with_original_text` on the transcript's segments.  The final
per-segment filter `[w for i, w in enumerate(all_words) if w in
segment.words and all_words.index(w) in aligned_indices]` compares
distinct `WordTiming` objects by identity, so membership in
`segment.words` is "global index in the segment's range" and
`all_words.index(w)` is the word's global index. -/
def alignWithOriginalText (segs : List (List TimedWord)) (text : String) :
    List (List TimedWord) :=
  let originalWords := originalWordsOf text
  let allWords := segs.flatten
  let tclean := allWords.map (fun w => cleanToken w.word)
  let oclean := originalWords.map cleanToken
  let algn := alignmentFor tclean oclean
  let allW := rewriteWords allWords originalWords algn
  let alignedIdx := algn.map Prod.fst
  (List.range segs.length).map (fun σ =>
    allW.enum.filterMap (fun p =>
      if segmentOffset segs σ ≤ p.1 ∧ p.1 < segmentOffset segs σ + (segs.getD σ []).length
          ∧ alignedIdx.contains p.1
      then some p.2 else none))

/-- The `alignment` list built by `_align_with_original_text` for a given
transcript and authoritative text: sequence matching on the cleaned word
sequences. -/
def alignedPairsOf (segs : List (List TimedWord)) (text : String) :
    List (Nat × Nat) :=
  alignmentFor (segs.flatten.map (fun w => cleanToken w.word))
    ((originalWordsOf text).map cleanToken)

/-- The flattened word list after the rewriting loop (`all_words` at the
point the per-segment prune runs). -/
def rewrittenAll (segs : List (List TimedWord)) (text : String) :
    List TimedWord :=
  rewriteWords segs.flatten (originalWordsOf text) (alignedPairsOf segs text)

/-! ## Relations used by the alignment invariants -/

/-- Strict increase in both coordinates. -/
def lt2 (p q : Nat × Nat) : Prop := p.1 < q.1 ∧ p.2 < q.2

/-- The rectangle `[i, i+k) × [j, j+k)` spanned by a matching block. -/
def blockRect (m : Nat × Nat × Nat) : Nat × Nat × Nat × Nat :=
  (m.1, m.1 + m.2.2, m.2.1, m.2.1 + m.2.2)

/-- Rectangle `r` lies strictly below-left of rectangle `s` (staircase
order); rectangles are `(lo1, hi1, lo2, hi2)`. -/
def rectBefore (r s : Nat × Nat × Nat × Nat) : Prop :=
  r.2.1 ≤ s.1 ∧ r.2.2.2 ≤ s.2.2.1

/-- Two rectangles are staircase-comparable. -/
def rectCompat (r s : Nat × Nat × Nat × Nat) : Prop :=
  rectBefore r s ∨ rectBefore s r

/-- A well-formed rectangle. -/
def rectWf (r : Nat × Nat × Nat × Nat) : Prop :=
  r.1 ≤ r.2.1 ∧ r.2.2.1 ≤ r.2.2.2

/-- `inner` is contained in `outer`. -/
def rectSub (outer inner : Nat × Nat × Nat × Nat) : Prop :=
  outer.1 ≤ inner.1 ∧ inner.2.1 ≤ outer.2.1 ∧
  outer.2.2.1 ≤ inner.2.2.1 ∧ inner.2.2.2 ≤ outer.2.2.2

/-- Matching block `m` ends at or before block `m'` begins, in both
coordinates. -/
def blockBefore (m m' : Nat × Nat × Nat) : Prop :=
  m.1 + m.2.2 ≤ m'.1 ∧ m.2.1 + m.2.2 ≤ m'.2.1

/-- A matching block lies within `[0, la] × [0, lb]`. -/
def blockBound (la lb : Nat) (m : Nat × Nat × Nat) : Prop :=
  m.1 + m.2.2 ≤ la ∧ m.2.1 + m.2.2 ≤ lb

/-- An opcode's interval is well-formed and ends within `(la, lb)`. -/
def opWf (la lb : Nat) (op : OpTag × Nat × Nat × Nat × Nat) : Prop :=
  op.2.1 ≤ op.2.2.1 ∧ op.2.2.2.1 ≤ op.2.2.2.2 ∧ op.2.2.1 ≤ la ∧ op.2.2.2.2 ≤ lb

/-- Opcode `op` ends at or before opcode `op'` begins, in both
coordinates. -/
def opBefore (op op' : OpTag × Nat × Nat × Nat × Nat) : Prop :=
  op.2.2.1 ≤ op'.2.1 ∧ op.2.2.2.2 ≤ op'.2.2.2.1

/-- The invariant of the `find_longest_match` row scan: every recorded
chain length and the running best block stay within the scanned
rectangle.  `bound` is one past the highest processed row. -/
def scanInv (alo blo bhi bound : Nat) (st : (Nat → Nat) × Nat × Nat × Nat) : Prop :=
  (∀ j, st.1 j = 0 ∨ (alo + st.1 j ≤ bound ∧ blo + st.1 j ≤ j + 1)) ∧
  alo ≤ st.2.1 ∧ blo ≤ st.2.2.1 ∧ st.2.1 + st.2.2.2 ≤ bound ∧
  st.2.2.1 + st.2.2.2 ≤ bhi ∧
  (st.2.2.2 = 0 → st.2.1 = alo ∧ st.2.2.1 = blo)

/-- The invariant of the `get_matching_blocks` queue loop: pending
rectangles and collected blocks are pairwise staircase-comparable,
rectangles are well-formed inside the global rectangle, and collected
blocks are nonempty and inside the global rectangle. -/
def gmbInv (la lb : Nat) (queue : List (Nat × Nat × Nat × Nat))
    (acc : List (Nat × Nat × Nat)) : Prop :=
  List.Pairwise rectCompat queue ∧
  List.Pairwise rectCompat (acc.map blockRect) ∧
  (∀ q ∈ queue, ∀ m ∈ acc, rectCompat q (blockRect m)) ∧
  (∀ q ∈ queue, rectWf q ∧ rectSub (0, la, 0, lb) q) ∧
  (∀ m ∈ acc, 1 ≤ m.2.2 ∧ rectSub (0, la, 0, lb) (blockRect m))

/-- A `b2j` position is kept for the window `[blo, bhi)`: it lies in the
window and survives the autojunk purge for its own value.  (Used to state
the diagonal-scan invariants for the equal-sequences case.) -/
def keptPos (b : List String) (blo bhi j : Nat) : Prop :=
  blo ≤ j ∧ j < bhi ∧ j ∈ b2jGet b (b.getD j "")

instance (b : List String) (blo bhi j : Nat) : Decidable (keptPos b blo bhi j) := by
  unfold keptPos; exact inferInstance

/-- Length of the maximal run of kept positions ending at `j` (0 when `j`
itself is not kept). -/
def keptRun (b : List String) (blo bhi : Nat) : Nat → Nat
  | 0 => if keptPos b blo bhi 0 then 1 else 0
  | j + 1 => if keptPos b blo bhi (j + 1) then keptRun b blo bhi j + 1 else 0

/-- The opcodes `get_opcodes` emits for a run of diagonal blocks starting
at position `i` (describes the equal-sequences case). -/
def diagOps : Nat → List (Nat × Nat × Nat) → List (OpTag × Nat × Nat × Nat × Nat)
  | _, [] => []
  | i, blk :: bs =>
    ((if i < blk.1 then [(OpTag.rep, i, blk.1, i, blk.1)] else [])
      ++ (if blk.2.2 ≠ 0 then
            [(OpTag.eq, blk.1, blk.1 + blk.2.2, blk.1, blk.1 + blk.2.2)] else []))
      ++ diagOps (blk.1 + blk.2.2) bs

/-- The end position after walking a block list diagonally. -/
def diagEnd : Nat → List (Nat × Nat × Nat) → Nat
  | i, [] => i
  | _, blk :: bs => diagEnd (blk.1 + blk.2.2) bs

/-- The `prev` character after scanning past a character list (used to
state how `subScan` walks over a region without matches). -/
def prevAfter (prev : Option Char) : List Char → Option Char
  | [] => prev
  | c :: cs => prevAfter (some c) cs

/-! # Theorems -/

/-! ## Phrase grouping (claims C4, C5, C9) -/

theorem groupStep_break (ph : List Phrase) (cur : Phrase) {w : TimedWord}
    (h : shouldBreak cur w = true) :
    groupStep (ph, cur) w = (ph ++ [cur], ⟨w.start, w.stop, [w], w.word⟩) := by
  simp [groupStep, h]

theorem groupStep_extend (ph : List Phrase) (cur : Phrase) {w : TimedWord}
    (h : ¬ shouldBreak cur w = true) :
    groupStep (ph, cur) w =
      (ph, ⟨cur.start, w.stop, cur.words ++ [w], cur.text ++ " " ++ w.word⟩) := by
  simp [groupStep, h]

theorem groupFold_words (ws : List TimedWord) (ph : List Phrase) (cur : Phrase) :
    (((ws.foldl groupStep (ph, cur)).1.map Phrase.words).flatten
        ++ ((ws.foldl groupStep (ph, cur)).2).words)
      = ((ph.map Phrase.words).flatten ++ cur.words) ++ ws := by
  induction ws generalizing ph cur with
  | nil => simp
  | cons w ws ih =>
    simp only [List.foldl_cons]
    by_cases h : shouldBreak cur w = true
    · rw [groupStep_break ph cur h, ih]
      simp
    · rw [groupStep_extend ph cur h, ih]
      simp

theorem groupWords_flatten (ws : List TimedWord) :
    ((groupWordsIntoPhrases ws).map Phrase.words).flatten = ws := by
  cases ws with
  | nil => rfl
  | cons w ws =>
    unfold groupWordsIntoPhrases
    have h := groupFold_words ws [] ⟨w.start, w.stop, [w], w.word⟩
    simpa using h

theorem mem_of_mem_phrase_words {ws : List TimedWord} {p : Phrase} {w : TimedWord}
    (hp : p ∈ groupWordsIntoPhrases ws) (hw : w ∈ p.words) : w ∈ ws := by
  rw [← groupWords_flatten ws]
  exact List.mem_flatten.mpr ⟨p.words, List.mem_map_of_mem _ hp, hw⟩

/-- Phrase coverage (claim C4): the concatenation of the `words` lists of
the output phrases is exactly the input word list — nothing added,
dropped, duplicated or reordered, and the final open phrase is always
emitted.  (The source's claim is for non-empty inputs; it holds for all
inputs.) -/
theorem claim_C4_phrase_coverage (ws : List TimedWord) :
    ((groupWordsIntoPhrases ws).map Phrase.words).flatten = ws :=
  groupWords_flatten ws

theorem groupFold_cap (ws : List TimedWord) (ph : List Phrase) (cur : Phrase)
    (hph : ∀ p ∈ ph, p.words.length ≤ 10) (hcur : cur.words.length ≤ 10) :
    (∀ p ∈ (ws.foldl groupStep (ph, cur)).1, p.words.length ≤ 10) ∧
      ((ws.foldl groupStep (ph, cur)).2).words.length ≤ 10 := by
  induction ws generalizing ph cur with
  | nil => exact ⟨hph, hcur⟩
  | cons w ws ih =>
    simp only [List.foldl_cons]
    by_cases h : shouldBreak cur w = true
    · rw [groupStep_break ph cur h]
      refine ih _ _ (fun p hp => ?_) (by simp)
      rcases List.mem_append.mp hp with hp | hp
      · exact hph p hp
      · simp at hp; subst hp; exact hcur
    · rw [groupStep_extend ph cur h]
      refine ih _ _ hph ?_
      have hlt : ¬ (10 ≤ cur.words.length) := by
        intro hle
        apply h
        unfold shouldBreak
        simp [hle]
      simp only [List.length_append, List.length_cons, List.length_nil]
      omega

/-- Phrase cap (claim C5): no output phrase holds more than 10 words; a
phrase holding 10 words is closed before the next word is added. -/
theorem claim_C5_phrase_cap (ws : List TimedWord) :
    ∀ p ∈ groupWordsIntoPhrases ws, p.words.length ≤ 10 := by
  cases ws with
  | nil => simp [groupWordsIntoPhrases]
  | cons w ws =>
    unfold groupWordsIntoPhrases
    have h := groupFold_cap ws [] ⟨w.start, w.stop, [w], w.word⟩ (by simp) (by simp)
    intro p hp
    simp only [List.mem_append, List.mem_singleton] at hp
    rcases hp with hp | hp
    · exact h.1 p hp
    · subst hp; exact h.2

theorem claim_C5_phrase_cap_witness :
    (⟨0, 1, [⟨"hi", 0, 1⟩], "hi"⟩ : Phrase).words.length ≤ 10 :=
  claim_C5_phrase_cap [⟨"hi", 0, 1⟩] ⟨0, 1, [⟨"hi", 0, 1⟩], "hi"⟩ (by decide)

theorem groupFold_edges (ws : List TimedWord) (ph : List Phrase) (cur : Phrase)
    (hph : ∀ p ∈ ph, p.words.head?.map TimedWord.start = some p.start ∧
      p.words.getLast?.map TimedWord.stop = some p.stop)
    (hcur : cur.words.head?.map TimedWord.start = some cur.start ∧
      cur.words.getLast?.map TimedWord.stop = some cur.stop) :
    (∀ p ∈ (ws.foldl groupStep (ph, cur)).1,
        p.words.head?.map TimedWord.start = some p.start ∧
        p.words.getLast?.map TimedWord.stop = some p.stop) ∧
      (((ws.foldl groupStep (ph, cur)).2).words.head?.map TimedWord.start
          = some ((ws.foldl groupStep (ph, cur)).2).start ∧
        ((ws.foldl groupStep (ph, cur)).2).words.getLast?.map TimedWord.stop
          = some ((ws.foldl groupStep (ph, cur)).2).stop) := by
  induction ws generalizing ph cur with
  | nil => exact ⟨hph, hcur⟩
  | cons w ws ih =>
    simp only [List.foldl_cons]
    by_cases h : shouldBreak cur w = true
    · rw [groupStep_break ph cur h]
      refine ih _ _ (fun p hp => ?_) (by simp)
      rcases List.mem_append.mp hp with hp | hp
      · exact hph p hp
      · simp at hp; subst hp; exact hcur
    · rw [groupStep_extend ph cur h]
      refine ih _ _ hph ?_
      obtain ⟨h1, h2⟩ := hcur
      constructor
      · cases hw : cur.words with
        | nil => simp [hw] at h1
        | cons x xs => simp only [hw] at h1 ⊢; simpa using h1
      · simp

/-- Phrase boundary times (claim C9): every output phrase's `start` is the
start time of its first word and its `stop` is the end time of its last
word. -/
theorem claim_C9_phrase_edge_times (ws : List TimedWord) :
    ∀ p ∈ groupWordsIntoPhrases ws,
      p.words.head?.map TimedWord.start = some p.start ∧
      p.words.getLast?.map TimedWord.stop = some p.stop := by
  cases ws with
  | nil => simp [groupWordsIntoPhrases]
  | cons w ws =>
    unfold groupWordsIntoPhrases
    have h := groupFold_edges ws [] ⟨w.start, w.stop, [w], w.word⟩ (by simp) (by simp)
    intro p hp
    simp only [List.mem_append, List.mem_singleton] at hp
    rcases hp with hp | hp
    · exact h.1 p hp
    · subst hp; exact h.2

/-! ## Time formatting (claim C7) -/

theorem intTrunc_intCast (n : ℤ) : intTrunc (n : ℚ) = n := by
  unfold intTrunc
  by_cases h : (n : ℚ) < 0
  · rw [if_pos h]
    rw [show (-(n : ℚ)) = ((-n : ℤ) : ℚ) by push_cast; ring, Int.floor_intCast]
    ring
  · rw [if_neg h, Int.floor_intCast]

theorem intTrunc_of_nonneg {x : ℚ} (h : 0 ≤ x) : intTrunc x = ⌊x⌋ := by
  unfold intTrunc
  rw [if_neg (by exact not_lt.mpr h)]

theorem pyMod_nonneg (s y : ℚ) (hy : 0 < y) : 0 ≤ pyMod s y := by
  unfold pyMod
  have h1 : (⌊s / y⌋ : ℚ) ≤ s / y := Int.floor_le _
  have h2 : y * (⌊s / y⌋ : ℚ) ≤ y * (s / y) := by
    exact mul_le_mul_of_nonneg_left h1 (le_of_lt hy)
  have h3 : y * (s / y) = s := by field_simp
  linarith

theorem floor_rat_div_nat (a : ℚ) (n : ℕ) (hn : 0 < n) :
    ⌊a / (n : ℚ)⌋ = ⌊a⌋ / (n : ℤ) := by
  have hn' : (0 : ℚ) < (n : ℚ) := by exact_mod_cast hn
  have hnz : (n : ℤ) ≠ 0 := by exact_mod_cast hn.ne'
  have hqr : (n : ℤ) * (⌊a⌋ / (n : ℤ)) + ⌊a⌋ % (n : ℤ) = ⌊a⌋ :=
    Int.ediv_add_emod ⌊a⌋ (n : ℤ)
  have hr0 : 0 ≤ ⌊a⌋ % (n : ℤ) := Int.emod_nonneg _ hnz
  have hrn : ⌊a⌋ % (n : ℤ) < (n : ℤ) := Int.emod_lt_of_pos _ (by exact_mod_cast hn)
  rw [Int.floor_eq_iff]
  constructor
  · rw [le_div_iff₀ hn']
    have h1 : (n : ℤ) * (⌊a⌋ / (n : ℤ)) ≤ ⌊a⌋ := by omega
    calc ((⌊a⌋ / (n : ℤ) : ℤ) : ℚ) * (n : ℚ)
        = (((n : ℤ) * (⌊a⌋ / (n : ℤ)) : ℤ) : ℚ) := by push_cast; ring
      _ ≤ ((⌊a⌋ : ℤ) : ℚ) := by exact_mod_cast h1
      _ ≤ a := Int.floor_le a
  · rw [div_lt_iff₀ hn']
    have h2 : ⌊a⌋ + 1 ≤ (n : ℤ) * (⌊a⌋ / (n : ℤ) + 1) := by
      have := hqr
      nlinarith [hrn, hr0]
    calc a < ((⌊a⌋ : ℤ) : ℚ) + 1 := Int.lt_floor_add_one a
      _ = ((⌊a⌋ + 1 : ℤ) : ℚ) := by push_cast; ring
      _ ≤ (((n : ℤ) * (⌊a⌋ / (n : ℤ) + 1) : ℤ) : ℚ) := by exact_mod_cast h2
      _ = (((⌊a⌋ / (n : ℤ) : ℤ) : ℚ) + 1) * (n : ℚ) := by push_cast; ring

theorem pyMod_eq (s y : ℚ) : pyMod s y = s - y * ⌊s / y⌋ := rfl

theorem formatSrtTime_char (s : ℚ) (_hs : 0 ≤ s) :
    formatSrtTime s =
      pad2 ⌊s / 3600⌋ ++ ":" ++ pad2 (⌊s / 60⌋ % 60) ++ ":" ++
        pad2 (⌊s⌋ % 60) ++ "," ++ pad3 ⌊(s - ⌊s⌋) * 1000⌋ := by
  have h60 : (0 : ℚ) < 60 := by norm_num
  have hfd60 : ⌊s / 60⌋ = ⌊s⌋ / (60 : ℤ) := by
    have := floor_rat_div_nat s 60 (by norm_num)
    simpa using this
  have hfd3600 : ⌊s / 3600⌋ = ⌊s / 60⌋ / (60 : ℤ) := by
    have h1 : s / 3600 = (s / 60) / (60 : ℚ) := by ring
    have h2 := floor_rat_div_nat (s / 60) 60 (by norm_num)
    rw [h1]
    simpa using h2
  unfold formatSrtTime
  have hhours : intTrunc (pyFloorDiv s 3600) = ⌊s / 3600⌋ := by
    unfold pyFloorDiv; exact intTrunc_intCast _
  have hminutes : intTrunc (pyFloorDiv (pyMod s 3600) 60) = ⌊s / 60⌋ % 60 := by
    unfold pyFloorDiv
    rw [intTrunc_intCast]
    have h1 : pyMod s 3600 / 60 = s / 60 - ((60 * ⌊s / 3600⌋ : ℤ) : ℚ) := by
      rw [pyMod_eq]; push_cast; ring
    rw [h1, Int.floor_sub_int, hfd3600, Int.emod_def]
  have hsecs : intTrunc (pyMod s 60) = ⌊s⌋ % 60 := by
    rw [intTrunc_of_nonneg (pyMod_nonneg s 60 h60)]
    have h1 : pyMod s 60 = s - ((60 * ⌊s / 60⌋ : ℤ) : ℚ) := by
      rw [pyMod_eq]; push_cast; ring
    rw [h1, Int.floor_sub_int, hfd60, Int.emod_def]
  have hmillis : intTrunc (pyMod s 1 * 1000) = ⌊(s - ⌊s⌋) * 1000⌋ := by
    have h1 : pyMod s 1 = s - ⌊s⌋ := by
      rw [pyMod_eq]
      norm_num
    have h2 : (0 : ℚ) ≤ (s - ⌊s⌋) * 1000 := by
      have := Int.floor_le s
      nlinarith
    rw [h1, intTrunc_of_nonneg h2]
  rw [hhours, hminutes, hsecs, hmillis]

/-- formatCaptionTime (claim C7): for every non-negative seconds value the
caption time is `HH:MM:SS,mmm` with hours `⌊s/3600⌋`, minutes
`⌊s/60⌋ mod 60`, seconds `⌊s⌋ mod 60` (the integer truncations of the
respective divisions), milliseconds `⌊(s mod 1) * 1000⌋`, each zero-padded
(2/2/2/3 digits); in particular `formatCaptionTime(3661.005) =
"01:01:01,005"` (in the exact arithmetic of this embedding; Python's
binary floats can land one millisecond lower on such inputs). -/
theorem claim_C7_caption_time :
    (∀ s : ℚ, 0 ≤ s →
      formatSrtTime s =
        pad2 ⌊s / 3600⌋ ++ ":" ++ pad2 (⌊s / 60⌋ % 60) ++ ":" ++
          pad2 (⌊s⌋ % 60) ++ "," ++ pad3 ⌊(s - ⌊s⌋) * 1000⌋) ∧
    formatSrtTime ((3661005 : ℚ) / 1000) = "01:01:01,005" := by
  refine ⟨formatSrtTime_char, ?_⟩
  rw [formatSrtTime_char ((3661005 : ℚ) / 1000) (by norm_num)]
  have h3 : ⌊(3661005 : ℚ) / 1000⌋ = 3661 := by norm_num
  have h1 : ⌊(3661005 : ℚ) / 1000 / 3600⌋ = 1 := by norm_num
  have h2 : ⌊(3661005 : ℚ) / 1000 / 60⌋ = 61 := by norm_num
  rw [h1, h2, h3]
  have h4 : ⌊((3661005 : ℚ) / 1000 - ((3661 : ℤ) : ℚ)) * 1000⌋ = 5 := by norm_num
  rw [h4]
  decide

theorem claim_C7_caption_time_witness :
    (0 : ℚ) ≤ (3661005 : ℚ) / 1000 ∧
      formatSrtTime ((3661005 : ℚ) / 1000) =
        pad2 ⌊((3661005 : ℚ) / 1000) / 3600⌋ ++ ":" ++
          pad2 (⌊((3661005 : ℚ) / 1000) / 60⌋ % 60) ++ ":" ++
          pad2 (⌊((3661005 : ℚ) / 1000)⌋ % 60) ++ "," ++
          pad3 ⌊(((3661005 : ℚ) / 1000) - ⌊((3661005 : ℚ) / 1000)⌋) * 1000⌋ :=
  ⟨by norm_num, claim_C7_caption_time.1 ((3661005 : ℚ) / 1000) (by norm_num)⟩

theorem claim_C9_phrase_edge_times_witness :
    (⟨0, 1, [⟨"hi", 0, 1⟩], "hi"⟩ : Phrase).words.head?.map TimedWord.start
        = some (0 : ℚ) ∧
      (⟨0, 1, [⟨"hi", 0, 1⟩], "hi"⟩ : Phrase).words.getLast?.map TimedWord.stop
        = some (1 : ℚ) :=
  claim_C9_phrase_edge_times [⟨"hi", 0, 1⟩] ⟨0, 1, [⟨"hi", 0, 1⟩], "hi"⟩ (by decide)

/-! ## Karaoke tags (claim C6) -/

theorem rstripData_append_space (l : List Char) :
    rstripData (l ++ [' ']) = rstripData l := by
  unfold rstripData
  have h1 : (l ++ [' ']).reverse = ' ' :: l.reverse := by simp
  rw [h1, List.dropWhile_cons_of_pos (by decide)]

theorem rstripData_of_ends_nonws (l : List Char)
    (h : (l.getLast?.map Char.isWhitespace).getD false = false) (hne : l ≠ []) :
    rstripData l = l := by
  unfold rstripData
  cases hrev : l.reverse with
  | nil =>
    exact absurd (by simpa using congrArg List.reverse hrev) hne
  | cons c rest =>
    have hc : l.getLast? = some c := by
      rw [← List.head?_reverse, hrev]
      rfl
    rw [hc] at h
    simp at h
    rw [List.dropWhile_cons_of_neg (by simp [h]), ← hrev, List.reverse_reverse]

theorem foldl_append_data (l : List String) (acc : String) :
    (l.foldl (fun r s => r ++ s) acc).data = acc.data ++ (l.map String.data).flatten := by
  induction l generalizing acc with
  | nil => simp
  | cons b bs ih =>
    simp only [List.foldl_cons, List.map_cons, List.flatten_cons]
    rw [ih]
    simp

theorem join_data (l : List String) :
    (String.join l).data = (l.map String.data).flatten := by
  unfold String.join
  rw [foldl_append_data]
  rfl

theorem intercalate_go_data (acc : String) (bs : List String) :
    (String.intercalate.go acc " " bs).data
      = acc.data ++ (bs.map (fun x => ' ' :: x.data)).flatten := by
  induction bs generalizing acc with
  | nil => simp [String.intercalate.go]
  | cons b bs ih =>
    rw [String.intercalate.go, ih]
    simp

theorem intercalate_space_data (b : String) (bs : List String) :
    (String.intercalate " " (b :: bs)).data
      = b.data ++ (bs.map (fun x => ' ' :: x.data)).flatten := by
  rw [String.intercalate, intercalate_go_data]

theorem flatten_cons_spaces (b : List Char) (bs : List (List Char)) :
    (((b ++ [' ']) :: bs.map (fun x => x ++ [' '])).flatten)
      = (b ++ (bs.map (fun x => ' ' :: x)).flatten) ++ [' '] := by
  induction bs generalizing b with
  | nil => simp
  | cons c cs ih =>
    simp only [List.map_cons, List.flatten_cons] at ih ⊢
    have h := ih c
    rw [h]
    simp

theorem ends_nonws_append (a b : List Char)
    (hb : b = [] ∨ ((b.getLast?.map Char.isWhitespace).getD false = false ∧ b ≠ []))
    (ha : a ≠ [] ∧ (a.getLast?.map Char.isWhitespace).getD false = false) :
    (a ++ b) ≠ [] ∧ (((a ++ b).getLast?.map Char.isWhitespace).getD false = false) := by
  rcases hb with rfl | ⟨hb1, hb2⟩
  · simpa using ha
  · refine ⟨by simp [hb2], ?_⟩
    rw [List.getLast?_append_of_ne_nil _ hb2]
    exact hb1

theorem ical_ends_nonws (b : List Char) (rest : List (List Char))
    (hb : b ≠ [] ∧ (b.getLast?.map Char.isWhitespace).getD false = false)
    (hrest : ∀ x ∈ rest, x ≠ [] ∧ (x.getLast?.map Char.isWhitespace).getD false = false) :
    (b ++ (rest.map (fun x => ' ' :: x)).flatten) ≠ [] ∧
      (((b ++ (rest.map (fun x => ' ' :: x)).flatten).getLast?.map
        Char.isWhitespace).getD false = false) := by
  induction rest generalizing b with
  | nil => simpa using hb
  | cons x xs ih =>
    have hx := hrest x (by simp)
    have hx' : (' ' :: x) ≠ [] ∧
        (((' ' :: x).getLast?.map Char.isWhitespace).getD false = false) := by
      refine ⟨by simp, ?_⟩
      have : (' ' :: x).getLast? = x.getLast? := by
        cases x with
        | nil => exact absurd rfl hx.1
        | cons y ys => rw [List.getLast?_cons_cons]
      rw [this]
      exact hx.2
    have hbx : (b ++ (' ' :: x)) ≠ [] ∧
        (((b ++ (' ' :: x)).getLast?.map Char.isWhitespace).getD false = false) := by
      refine ⟨by simp, ?_⟩
      rw [List.getLast?_append_of_ne_nil _ (by simp)]
      exact hx'.2
    have := ih (b ++ (' ' :: x)) hbx (fun y hy => hrest y (by simp [hy]))
    simpa using this

/-- The body of one karaoke block, before the separating space. -/
theorem karaokeBlock_data (w : TimedWord) :
    (karaokeBlock w).data =
      (("\x7b\\k" ++ toString (karaokeCs w) ++ "\x7d" ++ w.word).data) ++ [' '] := by
  unfold karaokeBlock
  simp

theorem karaokeBody_ends_nonws (w : TimedWord)
    (h : (w.word.data.getLast?.map Char.isWhitespace).getD false = false) :
    (("\x7b\\k" ++ toString (karaokeCs w) ++ "\x7d" ++ w.word).data) ≠ [] ∧
      ((("\x7b\\k" ++ toString (karaokeCs w) ++ "\x7d" ++ w.word).data).getLast?.map
        Char.isWhitespace).getD false = false := by
  have hsplit : ("\x7b\\k" ++ toString (karaokeCs w) ++ "\x7d" ++ w.word).data
      = (("\x7b\\k" ++ toString (karaokeCs w)).data ++ ['\x7d']) ++ w.word.data := by
    simp
  rw [hsplit]
  apply ends_nonws_append
  · by_cases hw : w.word.data = []
    · exact Or.inl hw
    · exact Or.inr ⟨h, hw⟩
  · constructor
    · simp
    · rw [List.getLast?_append_of_ne_nil _ (by simp)]
      rfl

theorem karaokeText_eq_intercalate (ws : List TimedWord)
    (h : ∀ w ∈ ws, (w.word.data.getLast?.map Char.isWhitespace).getD false = false) :
    karaokeText ws = String.intercalate " " (ws.map (fun w =>
      "\x7b\\k" ++ toString (karaokeCs w) ++ "\x7d" ++ w.word)) := by
  cases ws with
  | nil => rfl
  | cons w ws' =>
    apply String.ext
    show (rstripData (String.join ((w :: ws').map karaokeBlock)).data) = _
    have hjoin : (String.join ((w :: ws').map karaokeBlock)).data
        = (((w :: ws').map (fun v =>
              ("\x7b\\k" ++ toString (karaokeCs v) ++ "\x7d" ++ v.word).data)).map
            (fun x => x ++ [' '])).flatten := by
      rw [join_data]
      congr 1
      rw [List.map_map, List.map_map]
      apply List.map_congr_left
      intro v _
      show (karaokeBlock v).data = _
      exact karaokeBlock_data v
    rw [hjoin]
    simp only [List.map_cons]
    rw [flatten_cons_spaces, rstripData_append_space]
    have hb := karaokeBody_ends_nonws w (h w (by simp))
    have hrest : ∀ x ∈ ws'.map (fun v =>
        ("\x7b\\k" ++ toString (karaokeCs v) ++ "\x7d" ++ v.word).data),
        x ≠ [] ∧ (x.getLast?.map Char.isWhitespace).getD false = false := by
      intro x hx
      simp only [List.mem_map] at hx
      obtain ⟨v, hv, rfl⟩ := hx
      exact karaokeBody_ends_nonws v (h v (by simp [hv]))
    have hok := ical_ends_nonws _ _ ⟨hb.1, hb.2⟩ hrest
    rw [rstripData_of_ends_nonws _ hok.2 hok.1]
    rw [intercalate_space_data]
    simp only [List.map_map]
    rfl

/-- Claim C6 fails on the code: for the single word `("hi", 0, 0.497)` the
emitted karaoke tag is `{\k49}` — `int()` truncation of `49.7` — while the
claim's formula `round((end-start)*100)` gives `50`. -/
theorem claim_C6_counterexample :
    groupWordsIntoPhrases [⟨"hi", 0, (497 : ℚ)/1000⟩]
        = [⟨0, (497 : ℚ)/1000, [⟨"hi", 0, (497 : ℚ)/1000⟩], "hi"⟩] ∧
      karaokeText [⟨"hi", 0, (497 : ℚ)/1000⟩] = "\x7b\\k49\x7dhi" ∧
      round ((((497 : ℚ)/1000) - 0) * 100) = 50 ∧
      (49 : ℤ) ≠ 50 := by
  have hcs : karaokeCs ⟨"hi", 0, (497 : ℚ)/1000⟩ = 49 := by
    show intTrunc (((497 : ℚ)/1000 - 0) * 100) = 49
    unfold intTrunc
    rw [if_neg (by norm_num)]
    norm_num
  refine ⟨rfl, ?_, ?_, by decide⟩
  · show pyRstrip (String.join ([⟨"hi", 0, (497 : ℚ)/1000⟩].map karaokeBlock)) = _
    simp only [List.map_cons, List.map_nil, karaokeBlock, hcs]
    decide
  · rw [round_eq]
    norm_num

/-- Claim C6, amended: each dialogue line's payload is the phrase's words
each preceded by `{\k<cs>}` and separated by single spaces (the final
word's trailing space is stripped), where `<cs>` is the `int()`
TRUNCATION of `(word.end - word.start) * 100` — not `round` as the spec
states.  (Stated for word texts that do not end in whitespace, as the
trailing `rstrip` would otherwise also eat characters of the last
word.) -/
theorem claim_C6_karaoke_amended (timings : List TimedWord) (opts : AssOptions)
    (h : ∀ w ∈ timings, (w.word.data.getLast?.map Char.isWhitespace).getD false = false) :
    (generateAssWrites timings opts).drop 10 =
      (groupWordsIntoPhrases timings).enum.map (fun p =>
        "Dialogue: " ++ toString p.1 ++ "," ++ formatAssTime p.2.start ++ "," ++
        formatAssTime p.2.stop ++ ",Default,,0,0,0,," ++
        String.intercalate " " (p.2.words.map (fun w =>
          "\x7b\\k" ++ toString (intTrunc ((w.stop - w.start) * 100)) ++ "\x7d" ++ w.word))
        ++ "\n") := by
  have hdrop : (generateAssWrites timings opts).drop 10 =
      (groupWordsIntoPhrases timings).enum.map (fun p => dialogueWrite p.1 p.2) := rfl
  rw [hdrop]
  apply List.map_congr_left
  intro p hp
  have hp2 : p.2 ∈ groupWordsIntoPhrases timings := by
    have h1 := List.mem_map_of_mem Prod.snd hp
    rwa [List.enum, List.enumFrom_map_snd] at h1
  unfold dialogueWrite
  rw [karaokeText_eq_intercalate _
    (fun w hw => h w (mem_of_mem_phrase_words hp2 hw))]
  rfl

theorem claim_C6_karaoke_amended_witness :
    (generateAssWrites [⟨"hi", 0, 1⟩] {}).drop 10 =
      (groupWordsIntoPhrases [(⟨"hi", 0, 1⟩ : TimedWord)]).enum.map (fun p =>
        "Dialogue: " ++ toString p.1 ++ "," ++ formatAssTime p.2.start ++ "," ++
        formatAssTime p.2.stop ++ ",Default,,0,0,0,," ++
        String.intercalate " " (p.2.words.map (fun w =>
          "\x7b\\k" ++ toString (intTrunc ((w.stop - w.start) * 100)) ++ "\x7d" ++ w.word))
        ++ "\n") :=
  claim_C6_karaoke_amended [⟨"hi", 0, 1⟩] {} (by decide)

/-! ## Empty input (claim C8) -/

theorem styleLine_not_dialogue (opts : AssOptions) :
    isDialogueWrite (styleLine opts) = false := by
  unfold styleLine isDialogueWrite
  have h : ("Style: Default," ++ opts.font.getD "Impact" ++ "," ++
      toString (opts.fontSize.getD 28) ++ "," ++ assColor opts.fontColor ++
      ",&Hffffff,&H000000,&H80000000,-1,0,0,0,100,100,0,0,1,3,3,5,0,0,10,0\n\n").data.take 9
      = "Style: De".data := by
    have h2 : ("Style: Default," ++ opts.font.getD "Impact" ++ "," ++
        toString (opts.fontSize.getD 28) ++ "," ++ assColor opts.fontColor ++
        ",&Hffffff,&H000000,&H80000000,-1,0,0,0,100,100,0,0,1,3,3,5,0,0,10,0\n\n").data
        = "Style: Default,".data ++ ((opts.font.getD "Impact").data ++ ",".data ++
          (toString (opts.fontSize.getD 28)).data ++ ",".data ++ (assColor opts.fontColor).data ++
          ",&Hffffff,&H000000,&H80000000,-1,0,0,0,100,100,0,0,1,3,3,5,0,0,10,0\n\n".data) := by
      simp
    rw [h2, List.take_append_of_le_length
      (show (9 : ℕ) ≤ "Style: Default,".data.length by decide)]
    decide
  rw [h]
  decide

theorem styleLine_is_style (opts : AssOptions) :
    isStyleWrite (styleLine opts) = true := by
  unfold styleLine isStyleWrite
  have h : ("Style: Default," ++ opts.font.getD "Impact" ++ "," ++
      toString (opts.fontSize.getD 28) ++ "," ++ assColor opts.fontColor ++
      ",&Hffffff,&H000000,&H80000000,-1,0,0,0,100,100,0,0,1,3,3,5,0,0,10,0\n\n").data.take 6
      = "Style:".data := by
    have h2 : ("Style: Default," ++ opts.font.getD "Impact" ++ "," ++
        toString (opts.fontSize.getD 28) ++ "," ++ assColor opts.fontColor ++
        ",&Hffffff,&H000000,&H80000000,-1,0,0,0,100,100,0,0,1,3,3,5,0,0,10,0\n\n").data
        = "Style: Default,".data ++ ((opts.font.getD "Impact").data ++ ",".data ++
          (toString (opts.fontSize.getD 28)).data ++ ",".data ++ (assColor opts.fontColor).data ++
          ",&Hffffff,&H000000,&H80000000,-1,0,0,0,100,100,0,0,1,3,3,5,0,0,10,0\n\n".data) := by
      simp
    rw [h2, List.take_append_of_le_length
      (show (6 : ℕ) ≤ "Style: Default,".data.length by decide)]
    decide
  rw [h]
  decide

/-- Empty input (claim C8): on zero timed words the phrase grouper returns
zero phrases, the styled-caption emitter writes exactly the well-formed
header — `[Script Info]` block, one style line, `[Events]` section — and
zero `Dialogue:` writes, and the sequential-caption emitter writes
nothing.  All the involved functions are total, so no error is raised. -/
theorem claim_C8_empty_input (opts : AssOptions) :
    groupWordsIntoPhrases [] = [] ∧
    generateSrtWrites [] = [] ∧
    generateAssWrites [] opts =
      ["[Script Info]\n",
       "ScriptType: v4.00+\n",
       "PlayResX: 384\n",
       "PlayResY: 288\n",
       "ScaledBorderAndShadow: yes\n\n",
       "[V4+ Styles]\n",
       "Format: Name, Fontname, Fontsize, PrimaryColour, SecondaryColour, OutlineColour, BackColour, Bold, Italic, Underline, StrikeOut, ScaleX, ScaleY, Spacing, Angle, BorderStyle, Outline, Shadow, Alignment, MarginL, MarginR, MarginV, Encoding\n",
       styleLine opts,
       "[Events]\n",
       "Format: Layer, Start, End, Style, Name, MarginL, MarginR, MarginV, Effect, Text\n\n"] ∧
    (generateAssWrites [] opts).countP isDialogueWrite = 0 ∧
    (generateAssWrites [] opts).countP isStyleWrite = 1 ∧
    "[Script Info]\n" ∈ generateAssWrites [] opts ∧
    "[Events]\n" ∈ generateAssWrites [] opts := by
  have hlist : generateAssWrites [] opts =
      ["[Script Info]\n",
       "ScriptType: v4.00+\n",
       "PlayResX: 384\n",
       "PlayResY: 288\n",
       "ScaledBorderAndShadow: yes\n\n",
       "[V4+ Styles]\n",
       "Format: Name, Fontname, Fontsize, PrimaryColour, SecondaryColour, OutlineColour, BackColour, Bold, Italic, Underline, StrikeOut, ScaleX, ScaleY, Spacing, Angle, BorderStyle, Outline, Shadow, Alignment, MarginL, MarginR, MarginV, Encoding\n",
       styleLine opts,
       "[Events]\n",
       "Format: Layer, Start, End, Style, Name, MarginL, MarginR, MarginV, Effect, Text\n\n"] := rfl
  refine ⟨rfl, rfl, hlist, ?_, ?_, ?_, ?_⟩
  · rw [hlist]
    simp only [List.countP_cons, List.countP_nil, styleLine_not_dialogue opts]
    decide
  · rw [hlist]
    simp only [List.countP_cons, List.countP_nil, styleLine_is_style opts]
    decide
  · rw [hlist]
    exact List.mem_cons_self _ _
  · rw [hlist]
    simp

/-! ## Bounds of `find_longest_match` (towards claims C1, C2, C3) -/

theorem scanInv_mono {alo blo bhi b1 b2 : Nat} {st} (h : b1 ≤ b2)
    (hs : scanInv alo blo bhi b1 st) : scanInv alo blo bhi b2 st := by
  obtain ⟨h1, h2, h3, h4, h5, h6⟩ := hs
  refine ⟨fun j => ?_, h2, h3, by omega, h5, h6⟩
  rcases h1 j with hj | hj
  · exact Or.inl hj
  · exact Or.inr ⟨by omega, hj.2⟩

theorem flmInner_inv (j2lenOld : Nat → Nat) (i alo blo bhi : Nat)
    (hold : ∀ j, j2lenOld j = 0 ∨ (alo + j2lenOld j ≤ i ∧ blo + j2lenOld j ≤ j + 1))
    (hi : alo ≤ i) :
    ∀ (js : List Nat) (st : (Nat → Nat) × Nat × Nat × Nat),
      (∀ j ∈ js, blo ≤ j ∧ j < bhi) →
      scanInv alo blo bhi (i + 1) st →
      scanInv alo blo bhi (i + 1) (flmInner j2lenOld i st js) := by
  intro js
  induction js with
  | nil => intro st _ hst; exact hst
  | cons j js ih =>
    intro st hjs hst
    have hj := hjs j (by simp)
    obtain ⟨hst1, hst2, hst3, hst4, hst5, hst6⟩ := hst
    have hk1 : alo + ((if j = 0 then 0 else j2lenOld (j - 1)) + 1) ≤ i + 1 := by
      by_cases h0 : j = 0
      · simp [h0]; omega
      · simp only [h0, if_false]
        rcases hold (j - 1) with he | he
        · rw [he]; omega
        · omega
    have hk2 : blo + ((if j = 0 then 0 else j2lenOld (j - 1)) + 1) ≤ j + 1 := by
      by_cases h0 : j = 0
      · simp [h0]; omega
      · simp only [h0, if_false]
        rcases hold (j - 1) with he | he
        · rw [he]; omega
        · have := he.2; omega
    show scanInv alo blo bhi (i + 1) (flmInner j2lenOld i _ (j :: js))
    rw [flmInner]
    set k := (if j = 0 then 0 else j2lenOld (j - 1)) + 1 with hkdef
    have hnj : ∀ j', (fun j' => if j' = j then k else st.1 j') j' = 0 ∨
        (alo + (fun j' => if j' = j then k else st.1 j') j' ≤ i + 1 ∧
          blo + (fun j' => if j' = j then k else st.1 j') j' ≤ j' + 1) := by
      intro j'
      by_cases hj' : j' = j
      · subst hj'
        simp only [if_pos rfl]
        exact Or.inr ⟨hk1, hk2⟩
      · simp only [if_neg hj']
        exact hst1 j'
    by_cases hcmp : st.2.2.2 < k
    · rw [if_pos hcmp]
      apply ih
      · intro x hx; exact hjs x (by simp [hx])
      · refine ⟨hnj, ?_, ?_, ?_, ?_, ?_⟩
        · show alo ≤ i + 1 - k
          omega
        · show blo ≤ j + 1 - k
          omega
        · show (i + 1 - k) + k ≤ i + 1
          omega
        · show (j + 1 - k) + k ≤ bhi
          have := hj.2
          omega
        · intro h0
          have hk0 : k = 0 := h0
          omega
    · rw [if_neg hcmp]
      apply ih
      · intro x hx; exact hjs x (by simp [hx])
      · exact ⟨hnj, hst2, hst3, hst4, hst5, hst6⟩

theorem posList_sorted (b : List String) (x : String) :
    List.Pairwise (· < ·) (posList b x) :=
  (List.pairwise_lt_range _).filter _

theorem b2jGet_sorted (b : List String) (x : String) :
    List.Pairwise (· < ·) (b2jGet b x) := by
  unfold b2jGet
  by_cases h : isPopular b x = true
  · simp [h]
  · simp only [h]
    simpa using posList_sorted b x

theorem mem_dropWhile_lt {blo : Nat} :
    ∀ (l : List Nat), List.Pairwise (· < ·) l →
      ∀ x ∈ l.dropWhile (fun j => decide (j < blo)), blo ≤ x := by
  intro l
  induction l with
  | nil => intro _ x hx; simp at hx
  | cons j rest ih =>
    intro hp x hx
    by_cases hj : j < blo
    · rw [List.dropWhile_cons_of_pos (by simpa using hj)] at hx
      exact ih hp.of_cons x hx
    · rw [List.dropWhile_cons_of_neg (by simpa using hj)] at hx
      rcases List.mem_cons.mp hx with rfl | hx
      · omega
      · have := List.rel_of_pairwise_cons hp hx
        omega

theorem flmScan_rows_inv (a b : List String) (alo blo bhi : Nat) :
    ∀ (cnt start : Nat) (st : (Nat → Nat) × Nat × Nat × Nat),
      alo ≤ start →
      scanInv alo blo bhi start st →
      scanInv alo blo bhi (start + cnt)
        ((List.range' start cnt).foldl
          (fun st i =>
            let js := ((b2jGet b (a.getD i "")).dropWhile
              (fun j => decide (j < blo))).takeWhile (fun j => decide (j < bhi))
            flmInner st.1 i ((fun _ => 0), st.2.1, st.2.2.1, st.2.2.2) js)
          st) := by
  intro cnt
  induction cnt with
  | zero => intro start st _ hst; simpa using hst
  | succ n ih =>
    intro start st hstart hst
    rw [List.range'_succ, List.foldl_cons]
    have hstep : scanInv alo blo bhi (start + 1)
        (flmInner st.1 start ((fun _ => 0), st.2.1, st.2.2.1, st.2.2.2)
          (((b2jGet b (a.getD start "")).dropWhile
            (fun j => decide (j < blo))).takeWhile (fun j => decide (j < bhi)))) := by
      obtain ⟨hst1, hst2, hst3, hst4, hst5, hst6⟩ := hst
      apply flmInner_inv
      · intro j
        rcases hst1 j with hj | hj
        · exact Or.inl hj
        · exact Or.inr ⟨by omega, hj.2⟩
      · exact hstart
      · intro j hj
        constructor
        · exact mem_dropWhile_lt _ (b2jGet_sorted b (a.getD start "")) j
            ((List.takeWhile_sublist _).subset hj)
        · have := List.mem_takeWhile_imp hj
          simpa using this
      · refine ⟨fun j => Or.inl rfl, ?_, ?_, ?_, ?_, ?_⟩
        · exact hst2
        · exact hst3
        · show st.2.1 + st.2.2.2 ≤ start + 1
          omega
        · exact hst5
        · exact hst6
    have := ih (start + 1) _ (by omega) hstep
    have harith : start + 1 + n = start + (n + 1) := by omega
    rw [harith] at this
    exact this

theorem flmScan_inv (a b : List String) (alo ahi blo bhi : Nat) (h : alo ≤ ahi)
    (hb : blo ≤ bhi) :
    scanInv alo blo bhi ahi (flmScan a b alo ahi blo bhi) := by
  unfold flmScan
  have h0 : scanInv alo blo bhi alo ((fun _ => 0), alo, blo, 0) := by
    refine ⟨fun j => Or.inl rfl, le_refl _, le_refl _, ?_, ?_, fun _ => ⟨rfl, rfl⟩⟩
    · show alo + 0 ≤ alo
      omega
    · show blo + 0 ≤ bhi
      omega
  have := flmScan_rows_inv a b alo blo bhi (ahi - alo) alo _ (le_refl _) h0
  have harith : alo + (ahi - alo) = ahi := by omega
  rw [harith] at this
  exact this

/-- The post-scan state bounds, preserved by both extension loops. -/
def extInv (alo ahi blo bhi : Nat) (st : Nat × Nat × Nat) : Prop :=
  alo ≤ st.1 ∧ blo ≤ st.2.1 ∧ st.1 + st.2.2 ≤ ahi ∧ st.2.1 + st.2.2 ≤ bhi ∧
  (st.2.2 = 0 → st.1 = alo ∧ st.2.1 = blo)

theorem extBack_inv (a b : List String) (alo blo ahi bhi : Nat) :
    ∀ (fuel : Nat) (st : Nat × Nat × Nat),
      extInv alo ahi blo bhi st →
      extInv alo ahi blo bhi (extBack a b alo blo fuel st) := by
  intro fuel
  induction fuel with
  | zero => intro st hst; exact hst
  | succ n ih =>
    intro st hst
    rw [extBack]
    by_cases hc : alo < st.1 ∧ blo < st.2.1 ∧
        a.getD (st.1 - 1) "" = b.getD (st.2.1 - 1) ""
    · rw [if_pos hc]
      apply ih
      obtain ⟨h1, h2, h3, h4, h5⟩ := hst
      refine ⟨?_, ?_, ?_, ?_, ?_⟩
      · show alo ≤ st.1 - 1
        omega
      · show blo ≤ st.2.1 - 1
        omega
      · show st.1 - 1 + (st.2.2 + 1) ≤ ahi
        omega
      · show st.2.1 - 1 + (st.2.2 + 1) ≤ bhi
        omega
      · intro h0
        have h0' : st.2.2 + 1 = 0 := h0
        omega
    · rw [if_neg hc]
      exact hst

theorem extFwd_inv (a b : List String) (alo blo ahi bhi : Nat) :
    ∀ (fuel : Nat) (st : Nat × Nat × Nat),
      extInv alo ahi blo bhi st →
      extInv alo ahi blo bhi (extFwd a b ahi bhi fuel st) := by
  intro fuel
  induction fuel with
  | zero => intro st hst; exact hst
  | succ n ih =>
    intro st hst
    rw [extFwd]
    by_cases hc : st.1 + st.2.2 < ahi ∧ st.2.1 + st.2.2 < bhi ∧
        a.getD (st.1 + st.2.2) "" = b.getD (st.2.1 + st.2.2) ""
    · rw [if_pos hc]
      apply ih
      obtain ⟨h1, h2, h3, h4, h5⟩ := hst
      refine ⟨h1, h2, ?_, ?_, ?_⟩
      · show st.1 + (st.2.2 + 1) ≤ ahi
        omega
      · show st.2.1 + (st.2.2 + 1) ≤ bhi
        omega
      · intro h0
        have h0' : st.2.2 + 1 = 0 := h0
        omega
    · rw [if_neg hc]
      exact hst

theorem findLongestMatch_inv (a b : List String) (alo ahi blo bhi : Nat)
    (h : alo ≤ ahi) (hb : blo ≤ bhi) :
    extInv alo ahi blo bhi (findLongestMatch a b alo ahi blo bhi) := by
  unfold findLongestMatch
  have hs := flmScan_inv a b alo ahi blo bhi h hb
  obtain ⟨_, h2, h3, h4, h5, h6⟩ := hs
  apply extFwd_inv
  apply extBack_inv
  exact ⟨h2, h3, h4, h5, h6⟩

/-! ## The staircase property of the matching blocks -/

theorem rectCompat_symm {r s : Nat × Nat × Nat × Nat} (h : rectCompat r s) :
    rectCompat s r := h.symm

theorem rectSub_trans {r s t : Nat × Nat × Nat × Nat}
    (h1 : rectSub r s) (h2 : rectSub s t) : rectSub r t := by
  unfold rectSub at *
  omega

theorem rectCompat_of_sub {r c x : Nat × Nat × Nat × Nat}
    (hsub : rectSub r c) (hc : rectCompat r x) : rectCompat c x := by
  unfold rectCompat rectBefore rectSub at *
  omega

theorem gmbLoop_inv (a b : List String) (la lb : Nat) :
    ∀ (fuel : Nat) (queue : List (Nat × Nat × Nat × Nat))
      (acc : List (Nat × Nat × Nat)),
      gmbInv la lb queue acc →
      List.Pairwise rectCompat ((gmbLoop a b fuel queue acc).map blockRect) ∧
        ∀ m ∈ gmbLoop a b fuel queue acc,
          1 ≤ m.2.2 ∧ rectSub (0, la, 0, lb) (blockRect m) := by
  intro fuel
  induction fuel with
  | zero =>
    intro queue acc hinv
    exact ⟨hinv.2.1, hinv.2.2.2.2⟩
  | succ n ih =>
    intro queue acc hinv
    obtain ⟨hq, hacc, hqa, hqwf, haccb⟩ := hinv
    cases queue with
    | nil => exact ⟨hacc, haccb⟩
    | cons r rest =>
      rw [gmbLoop]
      have hrwf := hqwf r (by simp)
      have hm := findLongestMatch_inv a b r.1 r.2.1 r.2.2.1 r.2.2.2
        hrwf.1.1 hrwf.1.2
      set m := findLongestMatch a b r.1 r.2.1 r.2.2.1 r.2.2.2 with hmdef
      obtain ⟨hm1, hm2, hm3, hm4, _⟩ := hm
      by_cases hk : m.2.2 = 0
      · rw [if_pos hk]
        apply ih
        exact ⟨hq.of_cons, hacc, fun q hq' => hqa q (by simp [hq']),
          fun q hq' => hqwf q (by simp [hq']), haccb⟩
      · rw [if_neg hk]
        have hk1 : 1 ≤ m.2.2 := by omega
        -- facts about the block rectangle and the two children
        have hsubB : rectSub r (blockRect m) := by
          unfold blockRect rectSub
          refine ⟨hm1, hm3, hm2, hm4⟩
        have hsubL : rectSub r (r.1, m.1, r.2.2.1, m.2.1) := by
          unfold rectSub
          exact ⟨le_refl _, by show m.1 ≤ r.2.1; omega, le_refl _,
            by show m.2.1 ≤ r.2.2.2; omega⟩
        have hsubR : rectSub r (m.1 + m.2.2, r.2.1, m.2.1 + m.2.2, r.2.2.2) := by
          unfold rectSub
          exact ⟨by show r.1 ≤ m.1 + m.2.2; omega, le_refl _,
            by show r.2.2.1 ≤ m.2.1 + m.2.2; omega, le_refl _⟩
        have hLB : rectBefore (r.1, m.1, r.2.2.1, m.2.1) (blockRect m) := by
          unfold rectBefore blockRect
          exact ⟨le_refl _, le_refl _⟩
        have hBR : rectBefore (blockRect m)
            (m.1 + m.2.2, r.2.1, m.2.1 + m.2.2, r.2.2.2) := by
          unfold rectBefore blockRect
          exact ⟨le_refl _, le_refl _⟩
        have hLR : rectBefore (r.1, m.1, r.2.2.1, m.2.1)
            (m.1 + m.2.2, r.2.1, m.2.1 + m.2.2, r.2.2.2) := by
          unfold rectBefore
          exact ⟨by show m.1 ≤ m.1 + m.2.2; omega,
            by show m.2.1 ≤ m.2.1 + m.2.2; omega⟩
        have hrestCompat : ∀ q ∈ rest, rectCompat r q :=
          fun q hq' => List.rel_of_pairwise_cons hq hq'
        -- membership in the new queue
        have hnewmem : ∀ q ∈ ((if m.1 + m.2.2 < r.2.1 ∧ m.2.1 + m.2.2 < r.2.2.2 then
              [(m.1 + m.2.2, r.2.1, m.2.1 + m.2.2, r.2.2.2)] else [])
            ++ (if r.1 < m.1 ∧ r.2.2.1 < m.2.1 then
              [(r.1, m.1, r.2.2.1, m.2.1)] else []) ++ rest),
            q ∈ rest ∨ q = (m.1 + m.2.2, r.2.1, m.2.1 + m.2.2, r.2.2.2) ∨
              q = (r.1, m.1, r.2.2.1, m.2.1) := by
          intro q hq'
          rcases List.mem_append.mp hq' with hq' | hq'
          · rcases List.mem_append.mp hq' with hq' | hq'
            · by_cases hc : m.1 + m.2.2 < r.2.1 ∧ m.2.1 + m.2.2 < r.2.2.2
              · rw [if_pos hc] at hq'
                exact Or.inr (Or.inl (by simpa using hq'))
              · rw [if_neg hc] at hq'; simp at hq'
            · by_cases hc : r.1 < m.1 ∧ r.2.2.1 < m.2.1
              · rw [if_pos hc] at hq'
                exact Or.inr (Or.inr (by simpa using hq'))
              · rw [if_neg hc] at hq'; simp at hq'
          · exact Or.inl hq'
        have hnewsub : ∀ q ∈ ((if m.1 + m.2.2 < r.2.1 ∧ m.2.1 + m.2.2 < r.2.2.2 then
              [(m.1 + m.2.2, r.2.1, m.2.1 + m.2.2, r.2.2.2)] else [])
            ++ (if r.1 < m.1 ∧ r.2.2.1 < m.2.1 then
              [(r.1, m.1, r.2.2.1, m.2.1)] else []) ++ rest),
            q ∈ rest ∨ rectSub r q := by
          intro q hq'
          rcases hnewmem q hq' with h | h | h
          · exact Or.inl h
          · subst h; exact Or.inr hsubR
          · subst h; exact Or.inr hsubL
        apply ih
        refine ⟨?_, ?_, ?_, ?_, ?_⟩
        · -- Pairwise rectCompat on the new queue
          rw [List.pairwise_append]
          refine ⟨?_, hq.of_cons, ?_⟩
          · rw [List.pairwise_append]
            refine ⟨?_, ?_, ?_⟩
            · by_cases hc : m.1 + m.2.2 < r.2.1 ∧ m.2.1 + m.2.2 < r.2.2.2 <;>
                simp [hc]
            · by_cases hc : r.1 < m.1 ∧ r.2.2.1 < m.2.1 <;> simp [hc]
            · intro x hx y hy
              by_cases hc1 : m.1 + m.2.2 < r.2.1 ∧ m.2.1 + m.2.2 < r.2.2.2
              · rw [if_pos hc1] at hx
                simp only [List.mem_singleton] at hx
                subst hx
                by_cases hc2 : r.1 < m.1 ∧ r.2.2.1 < m.2.1
                · rw [if_pos hc2] at hy
                  simp only [List.mem_singleton] at hy
                  subst hy
                  exact Or.inr hLR
                · rw [if_neg hc2] at hy; simp at hy
              · rw [if_neg hc1] at hx; simp at hx
          · intro x hx q hq'
            rcases List.mem_append.mp hx with hx | hx
            · by_cases hc : m.1 + m.2.2 < r.2.1 ∧ m.2.1 + m.2.2 < r.2.2.2
              · rw [if_pos hc] at hx
                simp only [List.mem_singleton] at hx
                subst hx
                exact rectCompat_of_sub hsubR (hrestCompat q hq')
              · rw [if_neg hc] at hx; simp at hx
            · by_cases hc : r.1 < m.1 ∧ r.2.2.1 < m.2.1
              · rw [if_pos hc] at hx
                simp only [List.mem_singleton] at hx
                subst hx
                exact rectCompat_of_sub hsubL (hrestCompat q hq')
              · rw [if_neg hc] at hx; simp at hx
        · -- Pairwise on acc ++ [m] block rects
          rw [List.map_append]
          rw [List.pairwise_append]
          refine ⟨hacc, by simp, ?_⟩
          intro x hx y hy
          simp only [List.map_cons, List.map_nil, List.mem_singleton] at hy
          subst hy
          simp only [List.mem_map] at hx
          obtain ⟨m0, hm0, rfl⟩ := hx
          exact rectCompat_symm
            (rectCompat_of_sub hsubB (hqa r (by simp) m0 hm0))
        · -- cross: new queue vs acc ++ [m]
          intro q hq' m0 hm0
          rcases List.mem_append.mp hm0 with hm0 | hm0
          · rcases hnewsub q hq' with h | h
            · exact hqa q (by simp [h]) m0 hm0
            · exact rectCompat_of_sub h (hqa r (by simp) m0 hm0)
          · simp only [List.mem_singleton] at hm0
            subst hm0
            rcases hnewmem q hq' with h | h | h
            · exact rectCompat_symm
                (rectCompat_of_sub hsubB (hrestCompat q h))
            · subst h; exact Or.inr hBR
            · subst h; exact Or.inl hLB
        · -- wf and global containment of the new queue
          intro q hq'
          rcases hnewmem q hq' with h | h | h
          · exact hqwf q (by simp [h])
          · subst h
            constructor
            · unfold rectWf
              exact ⟨by show m.1 + m.2.2 ≤ r.2.1; omega,
                by show m.2.1 + m.2.2 ≤ r.2.2.2; omega⟩
            · exact rectSub_trans (hqwf r (by simp)).2 hsubR
          · subst h
            constructor
            · unfold rectWf
              exact ⟨hm1, hm2⟩
            · exact rectSub_trans (hqwf r (by simp)).2 hsubL
        · -- blocks: sizes and containment
          intro m0 hm0
          rcases List.mem_append.mp hm0 with hm0 | hm0
          · exact haccb m0 hm0
          · simp only [List.mem_singleton] at hm0
            subst hm0
            exact ⟨hk1, rectSub_trans (hqwf r (by simp)).2 hsubB⟩

theorem matchingBlocksRaw_props (a b : List String) :
    List.Pairwise rectCompat ((matchingBlocksRaw a b).map blockRect) ∧
      ∀ m ∈ matchingBlocksRaw a b,
        1 ≤ m.2.2 ∧ rectSub (0, a.length, 0, b.length) (blockRect m) := by
  apply gmbLoop_inv
  refine ⟨by simp, by simp, by simp, ?_, by simp⟩
  intro q hq
  simp only [List.mem_singleton] at hq
  subst hq
  constructor
  · exact ⟨Nat.zero_le _, Nat.zero_le _⟩
  · exact ⟨le_refl _, le_refl _, le_refl _, le_refl _⟩

theorem sortedBlocks_perm (a b : List String) :
    (sortedBlocks a b).Perm (matchingBlocksRaw a b) :=
  List.perm_insertionSort blockLe (matchingBlocksRaw a b)

theorem sortedBlocks_props (a b : List String) :
    List.Pairwise blockBefore (sortedBlocks a b) ∧
      ∀ m ∈ sortedBlocks a b, blockBound a.length b.length m := by
  obtain ⟨hpw, hmem⟩ := matchingBlocksRaw_props a b
  have hperm := sortedBlocks_perm a b
  have hsorted : List.Pairwise blockLe (sortedBlocks a b) :=
    List.sorted_insertionSort blockLe (matchingBlocksRaw a b)
  have hsym : Symmetric (fun m m' : Nat × Nat × Nat =>
      rectCompat (blockRect m) (blockRect m')) := by
    intro x y h
    exact rectCompat_symm h
  have hcompat : List.Pairwise (fun m m' =>
      rectCompat (blockRect m) (blockRect m')) (sortedBlocks a b) := by
    have h1 : List.Pairwise (fun m m' =>
        rectCompat (blockRect m) (blockRect m')) (matchingBlocksRaw a b) := by
      rw [← List.pairwise_map]
      exact hpw
    exact (List.Perm.pairwise_iff (fun h => rectCompat_symm h) hperm).mpr h1
  have hmem' : ∀ m ∈ sortedBlocks a b,
      1 ≤ m.2.2 ∧ rectSub (0, a.length, 0, b.length) (blockRect m) :=
    fun m hm => hmem m (hperm.mem_iff.mp hm)
  constructor
  · have hand := hsorted.and hcompat
    apply hand.imp_of_mem
    intro x y hx hy hxy
    obtain ⟨hle, hcomp⟩ := hxy
    have hky := (hmem' y hy).1
    unfold blockLe at hle
    unfold rectCompat rectBefore blockRect at hcomp
    unfold blockBefore
    rcases hcomp with h | h
    · exact h
    · exfalso
      simp only at h
      omega
  · intro m hm
    have := (hmem' m hm).2
    unfold rectSub blockRect at this
    unfold blockBound
    simp only at this
    exact ⟨this.2.1, this.2.2.2⟩

theorem nonAdj_fold (la lb : Nat) :
    ∀ (bs : List (Nat × Nat × Nat)) (acc : List (Nat × Nat × Nat))
      (cur : Nat × Nat × Nat),
      List.Pairwise blockBefore bs →
      (∀ y ∈ bs, cur.1 + cur.2.2 ≤ y.1 ∧ cur.2.1 + cur.2.2 ≤ y.2.1) →
      (∀ y ∈ bs, blockBound la lb y) →
      List.Pairwise blockBefore acc →
      (∀ x ∈ acc, blockBefore x cur) →
      (∀ x ∈ acc, blockBound la lb x) →
      blockBound la lb cur →
      List.Pairwise blockBefore
        (if (bs.foldl (fun (st : List (Nat × Nat × Nat) × Nat × Nat × Nat) blk =>
            if st.2.1 + st.2.2.2 = blk.1 ∧ st.2.2.1 + st.2.2.2 = blk.2.1 then
              (st.1, st.2.1, st.2.2.1, st.2.2.2 + blk.2.2)
            else
              ((if st.2.2.2 ≠ 0 then st.1 ++ [st.2] else st.1), blk))
          (acc, cur)).2.2.2 ≠ 0 then
          (bs.foldl (fun (st : List (Nat × Nat × Nat) × Nat × Nat × Nat) blk =>
            if st.2.1 + st.2.2.2 = blk.1 ∧ st.2.2.1 + st.2.2.2 = blk.2.1 then
              (st.1, st.2.1, st.2.2.1, st.2.2.2 + blk.2.2)
            else
              ((if st.2.2.2 ≠ 0 then st.1 ++ [st.2] else st.1), blk))
          (acc, cur)).1 ++ [(bs.foldl (fun (st : List (Nat × Nat × Nat) × Nat × Nat × Nat) blk =>
            if st.2.1 + st.2.2.2 = blk.1 ∧ st.2.2.1 + st.2.2.2 = blk.2.1 then
              (st.1, st.2.1, st.2.2.1, st.2.2.2 + blk.2.2)
            else
              ((if st.2.2.2 ≠ 0 then st.1 ++ [st.2] else st.1), blk))
          (acc, cur)).2]
        else
          (bs.foldl (fun (st : List (Nat × Nat × Nat) × Nat × Nat × Nat) blk =>
            if st.2.1 + st.2.2.2 = blk.1 ∧ st.2.2.1 + st.2.2.2 = blk.2.1 then
              (st.1, st.2.1, st.2.2.1, st.2.2.2 + blk.2.2)
            else
              ((if st.2.2.2 ≠ 0 then st.1 ++ [st.2] else st.1), blk))
          (acc, cur)).1) ∧
      ∀ x ∈ (if (bs.foldl (fun (st : List (Nat × Nat × Nat) × Nat × Nat × Nat) blk =>
            if st.2.1 + st.2.2.2 = blk.1 ∧ st.2.2.1 + st.2.2.2 = blk.2.1 then
              (st.1, st.2.1, st.2.2.1, st.2.2.2 + blk.2.2)
            else
              ((if st.2.2.2 ≠ 0 then st.1 ++ [st.2] else st.1), blk))
          (acc, cur)).2.2.2 ≠ 0 then
          (bs.foldl (fun (st : List (Nat × Nat × Nat) × Nat × Nat × Nat) blk =>
            if st.2.1 + st.2.2.2 = blk.1 ∧ st.2.2.1 + st.2.2.2 = blk.2.1 then
              (st.1, st.2.1, st.2.2.1, st.2.2.2 + blk.2.2)
            else
              ((if st.2.2.2 ≠ 0 then st.1 ++ [st.2] else st.1), blk))
          (acc, cur)).1 ++ [(bs.foldl (fun (st : List (Nat × Nat × Nat) × Nat × Nat × Nat) blk =>
            if st.2.1 + st.2.2.2 = blk.1 ∧ st.2.2.1 + st.2.2.2 = blk.2.1 then
              (st.1, st.2.1, st.2.2.1, st.2.2.2 + blk.2.2)
            else
              ((if st.2.2.2 ≠ 0 then st.1 ++ [st.2] else st.1), blk))
          (acc, cur)).2]
        else
          (bs.foldl (fun (st : List (Nat × Nat × Nat) × Nat × Nat × Nat) blk =>
            if st.2.1 + st.2.2.2 = blk.1 ∧ st.2.2.1 + st.2.2.2 = blk.2.1 then
              (st.1, st.2.1, st.2.2.1, st.2.2.2 + blk.2.2)
            else
              ((if st.2.2.2 ≠ 0 then st.1 ++ [st.2] else st.1), blk))
          (acc, cur)).1), blockBound la lb x := by
  intro bs
  induction bs with
  | nil =>
    intro acc cur _ _ _ hacc hbefore hbound hcur
    simp only [List.foldl_nil]
    by_cases hk : cur.2.2 ≠ 0
    · rw [if_pos hk]
      constructor
      · rw [List.pairwise_append]
        exact ⟨hacc, by simp, by
          intro x hx y hy
          simp only [List.mem_singleton] at hy
          subst hy
          exact hbefore x hx⟩
      · intro x hx
        rcases List.mem_append.mp hx with hx | hx
        · exact hbound x hx
        · simp only [List.mem_singleton] at hx; subst hx; exact hcur
    · rw [if_neg hk]
      exact ⟨hacc, hbound⟩
  | cons y bs ih =>
    intro acc cur hpw hfut hb hacc hbefore hbound hcur
    simp only [List.foldl_cons]
    by_cases hadj : cur.1 + cur.2.2 = y.1 ∧ cur.2.1 + cur.2.2 = y.2.1
    · rw [if_pos hadj]
      apply ih
      · exact hpw.of_cons
      · intro z hz
        have h1 := List.rel_of_pairwise_cons hpw hz
        unfold blockBefore at h1
        show cur.1 + (cur.2.2 + y.2.2) ≤ z.1 ∧ cur.2.1 + (cur.2.2 + y.2.2) ≤ z.2.1
        omega
      · intro z hz; exact hb z (by simp [hz])
      · exact hacc
      · intro x hx
        have := hbefore x hx
        unfold blockBefore at *
        show x.1 + x.2.2 ≤ cur.1 ∧ x.2.1 + x.2.2 ≤ cur.2.1
        omega
      · exact hbound
      · have := hb y (by simp)
        unfold blockBound at *
        show cur.1 + (cur.2.2 + y.2.2) ≤ la ∧ cur.2.1 + (cur.2.2 + y.2.2) ≤ lb
        omega
    · rw [if_neg hadj]
      have hfy := hfut y (by simp)
      apply ih
      · exact hpw.of_cons
      · intro z hz
        have h1 := List.rel_of_pairwise_cons hpw hz
        unfold blockBefore at h1
        exact h1
      · intro z hz; exact hb z (by simp [hz])
      · by_cases hk : cur.2.2 ≠ 0
        · rw [if_pos hk]
          rw [List.pairwise_append]
          exact ⟨hacc, by simp, by
            intro x hx z hz
            simp only [List.mem_singleton] at hz
            subst hz
            exact hbefore x hx⟩
        · rw [if_neg hk]
          exact hacc
      · intro x hx
        by_cases hk : cur.2.2 ≠ 0
        · rw [if_pos hk] at hx
          rcases List.mem_append.mp hx with hx | hx
          · have := hbefore x hx
            unfold blockBefore at *
            omega
          · simp only [List.mem_singleton] at hx
            subst hx
            unfold blockBefore
            exact hfy
        · rw [if_neg hk] at hx
          have := hbefore x hx
          unfold blockBefore at *
          omega
      · intro x hx
        by_cases hk : cur.2.2 ≠ 0
        · rw [if_pos hk] at hx
          rcases List.mem_append.mp hx with hx | hx
          · exact hbound x hx
          · simp only [List.mem_singleton] at hx; subst hx; exact hcur
        · rw [if_neg hk] at hx
          exact hbound x hx
      · exact hb y (by simp)

theorem matchingBlocks_props (a b : List String) :
    List.Pairwise blockBefore (matchingBlocks a b) ∧
      ∀ m ∈ matchingBlocks a b, blockBound a.length b.length m := by
  obtain ⟨hpw, hbd⟩ := sortedBlocks_props a b
  have hmain := nonAdj_fold a.length b.length (sortedBlocks a b) [] (0, 0, 0)
    hpw (by intro y _; exact ⟨Nat.zero_le _, Nat.zero_le _⟩) hbd
    (by simp) (by simp) (by simp) ⟨Nat.zero_le _, Nat.zero_le _⟩
  have heq : nonAdjacent (sortedBlocks a b) =
      (if ((sortedBlocks a b).foldl (fun (st : List (Nat × Nat × Nat) × Nat × Nat × Nat) blk =>
          if st.2.1 + st.2.2.2 = blk.1 ∧ st.2.2.1 + st.2.2.2 = blk.2.1 then
            (st.1, st.2.1, st.2.2.1, st.2.2.2 + blk.2.2)
          else
            ((if st.2.2.2 ≠ 0 then st.1 ++ [st.2] else st.1), blk))
        ([], 0, 0, 0)).2.2.2 ≠ 0 then
        ((sortedBlocks a b).foldl (fun (st : List (Nat × Nat × Nat) × Nat × Nat × Nat) blk =>
          if st.2.1 + st.2.2.2 = blk.1 ∧ st.2.2.1 + st.2.2.2 = blk.2.1 then
            (st.1, st.2.1, st.2.2.1, st.2.2.2 + blk.2.2)
          else
            ((if st.2.2.2 ≠ 0 then st.1 ++ [st.2] else st.1), blk))
        ([], 0, 0, 0)).1 ++ [((sortedBlocks a b).foldl (fun (st : List (Nat × Nat × Nat) × Nat × Nat × Nat) blk =>
          if st.2.1 + st.2.2.2 = blk.1 ∧ st.2.2.1 + st.2.2.2 = blk.2.1 then
            (st.1, st.2.1, st.2.2.1, st.2.2.2 + blk.2.2)
          else
            ((if st.2.2.2 ≠ 0 then st.1 ++ [st.2] else st.1), blk))
        ([], 0, 0, 0)).2]
      else
        ((sortedBlocks a b).foldl (fun (st : List (Nat × Nat × Nat) × Nat × Nat × Nat) blk =>
          if st.2.1 + st.2.2.2 = blk.1 ∧ st.2.2.1 + st.2.2.2 = blk.2.1 then
            (st.1, st.2.1, st.2.2.1, st.2.2.2 + blk.2.2)
          else
            ((if st.2.2.2 ≠ 0 then st.1 ++ [st.2] else st.1), blk))
        ([], 0, 0, 0)).1) := rfl
  rw [← heq] at hmain
  unfold matchingBlocks
  constructor
  · rw [List.pairwise_append]
    refine ⟨hmain.1, by simp, ?_⟩
    intro x hx y hy
    simp only [List.mem_singleton] at hy
    subst hy
    have := hmain.2 x hx
    unfold blockBound at this
    unfold blockBefore
    exact this
  · intro m hm
    rcases List.mem_append.mp hm with hm | hm
    · exact hmain.2 m hm
    · simp only [List.mem_singleton] at hm
      subst hm
      exact ⟨by simp, by simp⟩

/-! ## Opcodes and the alignment (claim C1) -/

theorem opsSnoc {ans : List (OpTag × Nat × Nat × Nat × Nat)}
    {op : OpTag × Nat × Nat × Nat × Nat} {i j : Nat}
    (hpw : List.Pairwise opBefore ans)
    (hends : ∀ o ∈ ans, o.2.2.1 ≤ i ∧ o.2.2.2.2 ≤ j)
    (hst : i ≤ op.2.1 ∧ j ≤ op.2.2.2.1) :
    List.Pairwise opBefore (ans ++ [op]) := by
  rw [List.pairwise_append]
  refine ⟨hpw, by simp, ?_⟩
  intro x hx y hy
  simp only [List.mem_singleton] at hy
  subst hy
  have := hends x hx
  unfold opBefore
  omega

theorem getOps_fold (la lb : Nat) :
    ∀ (blocks : List (Nat × Nat × Nat)) (i j : Nat)
      (ans : List (OpTag × Nat × Nat × Nat × Nat)),
      List.Pairwise blockBefore blocks →
      (∀ y ∈ blocks, i ≤ y.1 ∧ j ≤ y.2.1 ∧ blockBound la lb y) →
      List.Pairwise opBefore ans →
      (∀ op ∈ ans, op.2.1 ≤ op.2.2.1 ∧ op.2.2.2.1 ≤ op.2.2.2.2 ∧
        op.2.2.1 ≤ i ∧ op.2.2.2.2 ≤ j ∧ op.2.2.1 ≤ la ∧ op.2.2.2.2 ≤ lb) →
      List.Pairwise opBefore
        ((blocks.foldl
          (fun (st : Nat × Nat × List (OpTag × Nat × Nat × Nat × Nat)) blk =>
            let i := st.1
            let j := st.2.1
            let withGap :=
              if i < blk.1 ∧ j < blk.2.1 then st.2.2 ++ [(OpTag.rep, i, blk.1, j, blk.2.1)]
              else if i < blk.1 then st.2.2 ++ [(OpTag.del, i, blk.1, j, blk.2.1)]
              else if j < blk.2.1 then st.2.2 ++ [(OpTag.ins, i, blk.1, j, blk.2.1)]
              else st.2.2
            (blk.1 + blk.2.2, blk.2.1 + blk.2.2,
              if blk.2.2 ≠ 0 then
                withGap ++ [(OpTag.eq, blk.1, blk.1 + blk.2.2, blk.2.1, blk.2.1 + blk.2.2)]
              else withGap))
          (i, j, ans)).2.2) ∧
      ∀ op ∈ ((blocks.foldl
          (fun (st : Nat × Nat × List (OpTag × Nat × Nat × Nat × Nat)) blk =>
            let i := st.1
            let j := st.2.1
            let withGap :=
              if i < blk.1 ∧ j < blk.2.1 then st.2.2 ++ [(OpTag.rep, i, blk.1, j, blk.2.1)]
              else if i < blk.1 then st.2.2 ++ [(OpTag.del, i, blk.1, j, blk.2.1)]
              else if j < blk.2.1 then st.2.2 ++ [(OpTag.ins, i, blk.1, j, blk.2.1)]
              else st.2.2
            (blk.1 + blk.2.2, blk.2.1 + blk.2.2,
              if blk.2.2 ≠ 0 then
                withGap ++ [(OpTag.eq, blk.1, blk.1 + blk.2.2, blk.2.1, blk.2.1 + blk.2.2)]
              else withGap))
          (i, j, ans)).2.2),
        op.2.1 ≤ op.2.2.1 ∧ op.2.2.2.1 ≤ op.2.2.2.2 ∧
          op.2.2.1 ≤ la ∧ op.2.2.2.2 ≤ lb := by
  intro blocks
  induction blocks with
  | nil =>
    intro i j ans _ _ hpw hans
    simp only [List.foldl_nil]
    exact ⟨hpw, fun op hop => by
      have := hans op hop
      exact ⟨this.1, this.2.1, this.2.2.2.2.1, this.2.2.2.2.2⟩⟩
  | cons blk blocks ih =>
    intro i j ans hbpw hbs hpw hans
    simp only [List.foldl_cons]
    have hblk := hbs blk (by simp)
    obtain ⟨hbi, hbj, hbb⟩ := hblk
    unfold blockBound at hbb
    -- the gap-extended opcode list, by cases
    have hkey : ∀ (ansg : List (OpTag × Nat × Nat × Nat × Nat)),
        List.Pairwise opBefore ansg →
        (∀ op ∈ ansg, op.2.1 ≤ op.2.2.1 ∧ op.2.2.2.1 ≤ op.2.2.2.2 ∧
          op.2.2.1 ≤ blk.1 ∧ op.2.2.2.2 ≤ blk.2.1 ∧ op.2.2.1 ≤ la ∧ op.2.2.2.2 ≤ lb) →
        List.Pairwise opBefore
          ((blocks.foldl
            (fun (st : Nat × Nat × List (OpTag × Nat × Nat × Nat × Nat)) blk =>
              let i := st.1
              let j := st.2.1
              let withGap :=
                if i < blk.1 ∧ j < blk.2.1 then st.2.2 ++ [(OpTag.rep, i, blk.1, j, blk.2.1)]
                else if i < blk.1 then st.2.2 ++ [(OpTag.del, i, blk.1, j, blk.2.1)]
                else if j < blk.2.1 then st.2.2 ++ [(OpTag.ins, i, blk.1, j, blk.2.1)]
                else st.2.2
              (blk.1 + blk.2.2, blk.2.1 + blk.2.2,
                if blk.2.2 ≠ 0 then
                  withGap ++ [(OpTag.eq, blk.1, blk.1 + blk.2.2, blk.2.1, blk.2.1 + blk.2.2)]
                else withGap))
            (blk.1 + blk.2.2, blk.2.1 + blk.2.2,
              if blk.2.2 ≠ 0 then
                ansg ++ [(OpTag.eq, blk.1, blk.1 + blk.2.2, blk.2.1, blk.2.1 + blk.2.2)]
              else ansg)).2.2) ∧
        ∀ op ∈ ((blocks.foldl
            (fun (st : Nat × Nat × List (OpTag × Nat × Nat × Nat × Nat)) blk =>
              let i := st.1
              let j := st.2.1
              let withGap :=
                if i < blk.1 ∧ j < blk.2.1 then st.2.2 ++ [(OpTag.rep, i, blk.1, j, blk.2.1)]
                else if i < blk.1 then st.2.2 ++ [(OpTag.del, i, blk.1, j, blk.2.1)]
                else if j < blk.2.1 then st.2.2 ++ [(OpTag.ins, i, blk.1, j, blk.2.1)]
                else st.2.2
              (blk.1 + blk.2.2, blk.2.1 + blk.2.2,
                if blk.2.2 ≠ 0 then
                  withGap ++ [(OpTag.eq, blk.1, blk.1 + blk.2.2, blk.2.1, blk.2.1 + blk.2.2)]
                else withGap))
            (blk.1 + blk.2.2, blk.2.1 + blk.2.2,
              if blk.2.2 ≠ 0 then
                ansg ++ [(OpTag.eq, blk.1, blk.1 + blk.2.2, blk.2.1, blk.2.1 + blk.2.2)]
              else ansg)).2.2),
          op.2.1 ≤ op.2.2.1 ∧ op.2.2.2.1 ≤ op.2.2.2.2 ∧
            op.2.2.1 ≤ la ∧ op.2.2.2.2 ≤ lb := by
      intro ansg hgpw hgprops
      apply ih
      · exact hbpw.of_cons
      · intro z hz
        have h1 := List.rel_of_pairwise_cons hbpw hz
        have h2 := hbs z (by simp [hz])
        unfold blockBefore at h1
        exact ⟨h1.1, h1.2, h2.2.2⟩
      · by_cases hsz : blk.2.2 ≠ 0
        · rw [if_pos hsz]
          apply opsSnoc hgpw
          · intro o ho
            exact ⟨(hgprops o ho).2.2.1, (hgprops o ho).2.2.2.1⟩
          · exact ⟨le_refl _, le_refl _⟩
        · rw [if_neg hsz]
          exact hgpw
      · intro op hop
        by_cases hsz : blk.2.2 ≠ 0
        · rw [if_pos hsz] at hop
          rcases List.mem_append.mp hop with hop | hop
          · have := hgprops op hop
            exact ⟨this.1, this.2.1, by omega, by omega, this.2.2.2.2.1,
              this.2.2.2.2.2⟩
          · simp only [List.mem_singleton] at hop
            subst hop
            refine ⟨?_, ?_, le_refl _, le_refl _, ?_, ?_⟩
            · show blk.1 ≤ blk.1 + blk.2.2
              omega
            · show blk.2.1 ≤ blk.2.1 + blk.2.2
              omega
            · show blk.1 + blk.2.2 ≤ la
              omega
            · show blk.2.1 + blk.2.2 ≤ lb
              omega
        · rw [if_neg hsz] at hop
          have := hgprops op hop
          exact ⟨this.1, this.2.1, by omega, by omega, this.2.2.2.2.1,
            this.2.2.2.2.2⟩
    -- case analysis on the gap opcode
    by_cases h1 : i < blk.1 ∧ j < blk.2.1
    · rw [if_pos h1]
      apply hkey
      · apply opsSnoc hpw
        · intro o ho
          exact ⟨(hans o ho).2.2.1, (hans o ho).2.2.2.1⟩
        · exact ⟨le_refl _, le_refl _⟩
      · intro op hop
        rcases List.mem_append.mp hop with hop | hop
        · have := hans op hop
          exact ⟨this.1, this.2.1, by omega, by omega, this.2.2.2.2.1,
            this.2.2.2.2.2⟩
        · simp only [List.mem_singleton] at hop
          subst hop
          refine ⟨?_, ?_, le_refl _, le_refl _, ?_, ?_⟩
          · show i ≤ blk.1
            omega
          · show j ≤ blk.2.1
            omega
          · show blk.1 ≤ la
            omega
          · show blk.2.1 ≤ lb
            omega
    · rw [if_neg h1]
      by_cases h2 : i < blk.1
      · rw [if_pos h2]
        apply hkey
        · apply opsSnoc hpw
          · intro o ho
            exact ⟨(hans o ho).2.2.1, (hans o ho).2.2.2.1⟩
          · exact ⟨le_refl _, le_refl _⟩
        · intro op hop
          rcases List.mem_append.mp hop with hop | hop
          · have := hans op hop
            exact ⟨this.1, this.2.1, by omega, by omega, this.2.2.2.2.1,
              this.2.2.2.2.2⟩
          · simp only [List.mem_singleton] at hop
            subst hop
            refine ⟨?_, ?_, le_refl _, ?_, ?_, ?_⟩
            · show i ≤ blk.1
              omega
            · show j ≤ blk.2.1
              omega
            · show blk.2.1 ≤ blk.2.1
              exact le_refl _
            · show blk.1 ≤ la
              omega
            · show blk.2.1 ≤ lb
              omega
      · rw [if_neg h2]
        by_cases h3 : j < blk.2.1
        · rw [if_pos h3]
          apply hkey
          · apply opsSnoc hpw
            · intro o ho
              exact ⟨(hans o ho).2.2.1, (hans o ho).2.2.2.1⟩
            · exact ⟨le_refl _, le_refl _⟩
          · intro op hop
            rcases List.mem_append.mp hop with hop | hop
            · have := hans op hop
              exact ⟨this.1, this.2.1, by omega, by omega, this.2.2.2.2.1,
                this.2.2.2.2.2⟩
            · simp only [List.mem_singleton] at hop
              subst hop
              refine ⟨?_, ?_, ?_, le_refl _, ?_, ?_⟩
              · show i ≤ blk.1
                omega
              · show j ≤ blk.2.1
                omega
              · show blk.1 ≤ blk.1
                exact le_refl _
              · show blk.1 ≤ la
                omega
              · show blk.2.1 ≤ lb
                omega
        · rw [if_neg h3]
          apply hkey
          · exact hpw
          · intro op hop
            have := hans op hop
            exact ⟨this.1, this.2.1, by omega, by omega, this.2.2.2.2.1,
              this.2.2.2.2.2⟩

theorem getOpcodes_props (a b : List String) :
    List.Pairwise opBefore (getOpcodes (matchingBlocks a b)) ∧
      ∀ op ∈ getOpcodes (matchingBlocks a b),
        op.2.1 ≤ op.2.2.1 ∧ op.2.2.2.1 ≤ op.2.2.2.2 ∧
          op.2.2.1 ≤ a.length ∧ op.2.2.2.2 ≤ b.length := by
  obtain ⟨hpw, hbd⟩ := matchingBlocks_props a b
  unfold getOpcodes
  exact getOps_fold a.length b.length (matchingBlocks a b) 0 0 [] hpw
    (fun y hy => ⟨Nat.zero_le _, Nat.zero_le _, hbd y hy⟩) (by simp) (by simp)

theorem zip_range'_pairwise :
    ∀ (n : Nat) (s t m : Nat),
      List.Pairwise lt2 ((List.range' s n).zip (List.range' t m)) := by
  intro n
  induction n with
  | zero => intro s t m; simp
  | succ k ih =>
    intro s t m
    cases m with
    | zero => simp
    | succ m' =>
      rw [List.range'_succ, List.range'_succ]
      show List.Pairwise lt2 ((s, t) :: (List.range' (s + 1) k).zip (List.range' (t + 1) m'))
      constructor
      · intro p hp
        have := List.of_mem_zip hp
        have h1 := List.mem_range'_1.mp this.1
        have h2 := List.mem_range'_1.mp this.2
        exact ⟨by omega, by omega⟩
      · exact ih (s + 1) (t + 1) m'

theorem opPairs_mem {op : OpTag × Nat × Nat × Nat × Nat} {p : Nat × Nat}
    (hwf : op.2.1 ≤ op.2.2.1 ∧ op.2.2.2.1 ≤ op.2.2.2.2)
    (hp : p ∈ opPairs op) :
    op.2.1 ≤ p.1 ∧ p.1 < op.2.2.1 ∧ op.2.2.2.1 ≤ p.2 ∧ p.2 < op.2.2.2.2 := by
  unfold opPairs at hp
  have hmem : p.1 ∈ List.range' op.2.1 (op.2.2.1 - op.2.1) ∧
      p.2 ∈ List.range' op.2.2.2.1 (op.2.2.2.2 - op.2.2.2.1) := by
    have := List.of_mem_zip (show (p.1, p.2) ∈ _ from by simpa using hp)
    exact this
  have h1 := List.mem_range'_1.mp hmem.1
  have h2 := List.mem_range'_1.mp hmem.2
  omega

theorem alignPairs_fold :
    ∀ (P : List (Nat × Nat)) (al : List (Nat × Nat)) (used : List Nat),
      List.Pairwise lt2 P →
      used = al.map Prod.fst →
      (∀ p ∈ al, ∀ q ∈ P, lt2 p q) →
      (P.foldl (fun (st2 : List (Nat × Nat) × List Nat) p =>
          if st2.2.contains p.1 then st2 else (st2.1 ++ [p], st2.2 ++ [p.1]))
        (al, used))
        = (al ++ P, used ++ P.map Prod.fst) := by
  intro P
  induction P with
  | nil => intro al used _ _ _; simp
  | cons q P ih =>
    intro al used hpw hused hlt
    simp only [List.foldl_cons]
    have hnot : used.contains q.1 = false := by
      rw [hused]
      have : q.1 ∉ al.map Prod.fst := by
        intro hmem
        obtain ⟨p, hp, hpq⟩ := List.mem_map.mp hmem
        have := (hlt p hp q (by simp)).1
        omega
      simpa using this
    rw [hnot]
    simp only [Bool.false_eq_true, if_false]
    have := ih (al ++ [q]) (used ++ [q.1]) hpw.of_cons
      (by rw [hused]; simp)
      (by
        intro p hp q' hq'
        rcases List.mem_append.mp hp with hp | hp
        · exact hlt p hp q' (by simp [hq'])
        · simp only [List.mem_singleton] at hp
          subst hp
          exact List.rel_of_pairwise_cons hpw hq')
    rw [this]
    simp

theorem buildAlign_fold (la lb : Nat) :
    ∀ (ops : List (OpTag × Nat × Nat × Nat × Nat)) (al : List (Nat × Nat))
      (used : List Nat),
      List.Pairwise opBefore ops →
      (∀ op ∈ ops, op.2.1 ≤ op.2.2.1 ∧ op.2.2.2.1 ≤ op.2.2.2.2 ∧
        op.2.2.1 ≤ la ∧ op.2.2.2.2 ≤ lb) →
      List.Pairwise lt2 al →
      used = al.map Prod.fst →
      (∀ p ∈ al, p.1 < la ∧ p.2 < lb) →
      (∀ p ∈ al, ∀ op ∈ ops, p.1 < op.2.1 ∧ p.2 < op.2.2.2.1) →
      List.Pairwise lt2
        ((ops.foldl
          (fun (st : List (Nat × Nat) × List Nat) op =>
            if op.1 = OpTag.eq ∨ op.1 = OpTag.rep then
              (opPairs op).foldl
                (fun st2 p =>
                  if st2.2.contains p.1 then st2 else (st2.1 ++ [p], st2.2 ++ [p.1]))
                st
            else st)
          (al, used)).1) ∧
      ∀ p ∈ ((ops.foldl
          (fun (st : List (Nat × Nat) × List Nat) op =>
            if op.1 = OpTag.eq ∨ op.1 = OpTag.rep then
              (opPairs op).foldl
                (fun st2 p =>
                  if st2.2.contains p.1 then st2 else (st2.1 ++ [p], st2.2 ++ [p.1]))
                st
            else st)
          (al, used)).1), p.1 < la ∧ p.2 < lb := by
  intro ops
  induction ops with
  | nil =>
    intro al used _ _ hal _ hbd _
    exact ⟨hal, hbd⟩
  | cons op ops ih =>
    intro al used hopw hwf hal hused hbd hfut
    simp only [List.foldl_cons]
    have hopwf := hwf op (by simp)
    by_cases htag : op.1 = OpTag.eq ∨ op.1 = OpTag.rep
    · rw [if_pos htag]
      have hinner := alignPairs_fold (opPairs op) al used
        (by
          show List.Pairwise lt2 ((List.range' op.2.1 (op.2.2.1 - op.2.1)).zip
            (List.range' op.2.2.2.1 (op.2.2.2.2 - op.2.2.2.1)))
          exact zip_range'_pairwise _ _ _ _)
        hused
        (by
          intro p hp q hq
          have hq' := opPairs_mem ⟨hopwf.1, hopwf.2.1⟩ hq
          have hf := hfut p hp op (by simp)
          exact ⟨by omega, by omega⟩)
      rw [hinner]
      apply ih
      · exact hopw.of_cons
      · intro o ho; exact hwf o (by simp [ho])
      · rw [List.pairwise_append]
        refine ⟨hal, ?_, ?_⟩
        · show List.Pairwise lt2 ((List.range' op.2.1 (op.2.2.1 - op.2.1)).zip
            (List.range' op.2.2.2.1 (op.2.2.2.2 - op.2.2.2.1)))
          exact zip_range'_pairwise _ _ _ _
        · intro p hp q hq
          have hq' := opPairs_mem ⟨hopwf.1, hopwf.2.1⟩ hq
          have hf := hfut p hp op (by simp)
          exact ⟨by omega, by omega⟩
      · rw [hused]
        simp
      · intro p hp
        rcases List.mem_append.mp hp with hp | hp
        · exact hbd p hp
        · have := opPairs_mem ⟨hopwf.1, hopwf.2.1⟩ hp
          exact ⟨by omega, by omega⟩
      · intro p hp o ho
        rcases List.mem_append.mp hp with hp | hp
        · exact hfut p hp o (by simp [ho])
        · have hpo := opPairs_mem ⟨hopwf.1, hopwf.2.1⟩ hp
          have hrel := List.rel_of_pairwise_cons hopw ho
          unfold opBefore at hrel
          exact ⟨by omega, by omega⟩
    · rw [if_neg htag]
      apply ih
      · exact hopw.of_cons
      · intro o ho; exact hwf o (by simp [ho])
      · exact hal
      · exact hused
      · exact hbd
      · intro p hp o ho
        exact hfut p hp o (by simp [ho])

theorem alignmentFor_props (tc oc : List String) :
    List.Pairwise lt2 (alignmentFor tc oc) ∧
      ∀ p ∈ alignmentFor tc oc, p.1 < tc.length ∧ p.2 < oc.length := by
  obtain ⟨hpw, hwf⟩ := getOpcodes_props tc oc
  unfold alignmentFor buildAlignment
  exact buildAlign_fold tc.length oc.length (getOpcodes (matchingBlocks tc oc))
    [] [] hpw hwf (by simp) (by simp) (by simp) (by simp)

/-- Alignment monotonicity and injectivity (claim C1): for every pair of
input token sequences, any two pairs of the produced alignment are
strictly increasing in both coordinates in list order (no crossing pairs),
and no recognized index and no authoritative index occurs in two different
pairs. -/
theorem claim_C1_alignment_monotone_injective (tc oc : List String) :
    List.Pairwise lt2 (alignmentFor tc oc) ∧
      List.Pairwise (fun p q : Nat × Nat => p.1 ≠ q.1 ∧ p.2 ≠ q.2)
        (alignmentFor tc oc) := by
  have h := (alignmentFor_props tc oc).1
  refine ⟨h, h.imp ?_⟩
  intro p q hpq
  obtain ⟨h1, h2⟩ := hpq
  exact ⟨by omega, by omega⟩

/-! ## Stage E: the rewriting loop and the per-segment prune (claim C2) -/

theorem rewriteFold_length (aw : List TimedWord) (ow : List String) :
    ∀ (algn : List (Nat × Nat)) (ws : List TimedWord) (cnt : Nat),
      ((algn.foldl
        (fun (st : List TimedWord × Nat) p =>
          if p.1 < aw.length ∧ p.2 < ow.length then
            (st.1.set p.1
              { st.1.getD p.1 default with
                word := (if st.2 = 0 then "" else " ") ++ ow.getD p.2 "" },
             st.2 + 1)
          else st)
        (ws, cnt)).1).length = ws.length := by
  intro algn
  induction algn with
  | nil => intro ws cnt; rfl
  | cons p tl ih =>
    intro ws cnt
    simp only [List.foldl_cons]
    by_cases hc : p.1 < aw.length ∧ p.2 < ow.length
    · rw [if_pos hc, ih, List.length_set]
    · rw [if_neg hc, ih]

theorem rewriteFold_untouched (aw : List TimedWord) (ow : List String) :
    ∀ (algn : List (Nat × Nat)) (ws : List TimedWord) (cnt : Nat) (i : Nat),
      i ∉ algn.map Prod.fst →
      ((algn.foldl
        (fun (st : List TimedWord × Nat) p =>
          if p.1 < aw.length ∧ p.2 < ow.length then
            (st.1.set p.1
              { st.1.getD p.1 default with
                word := (if st.2 = 0 then "" else " ") ++ ow.getD p.2 "" },
             st.2 + 1)
          else st)
        (ws, cnt)).1).getD i default = ws.getD i default := by
  intro algn
  induction algn with
  | nil => intro ws cnt i _; rfl
  | cons p tl ih =>
    intro ws cnt i hi
    simp only [List.map_cons, List.mem_cons, not_or] at hi
    simp only [List.foldl_cons]
    by_cases hc : p.1 < aw.length ∧ p.2 < ow.length
    · rw [if_pos hc, ih _ _ _ hi.2, List.getD_eq_getElem?_getD,
        List.getElem?_set_ne (Ne.symm hi.1), ← List.getD_eq_getElem?_getD]
    · rw [if_neg hc]
      exact ih _ _ _ hi.2

theorem rewriteFold_aligned (aw : List TimedWord) (ow : List String) :
    ∀ (algn : List (Nat × Nat)) (ws : List TimedWord) (cnt : Nat) (k : Nat),
      ws.length = aw.length →
      List.Pairwise lt2 algn →
      (∀ p ∈ algn, p.1 < aw.length ∧ p.2 < ow.length) →
      k < algn.length →
      ((algn.foldl
        (fun (st : List TimedWord × Nat) p =>
          if p.1 < aw.length ∧ p.2 < ow.length then
            (st.1.set p.1
              { st.1.getD p.1 default with
                word := (if st.2 = 0 then "" else " ") ++ ow.getD p.2 "" },
             st.2 + 1)
          else st)
        (ws, cnt)).1).getD (algn.getD k (0, 0)).1 default =
        { ws.getD (algn.getD k (0, 0)).1 default with
          word := (if cnt + k = 0 then "" else " ")
            ++ ow.getD (algn.getD k (0, 0)).2 "" } := by
  intro algn
  induction algn with
  | nil => intro ws cnt k _ _ _ hk; exact absurd hk (by simp)
  | cons p tl ih =>
    intro ws cnt k hlen hpw hb hk
    have hpb := hb p (by simp)
    have htl : ∀ q ∈ tl, lt2 p q := (List.pairwise_cons.mp hpw).1
    simp only [List.foldl_cons]
    rw [if_pos hpb]
    match k with
    | 0 =>
      have hnot : p.1 ∉ tl.map Prod.fst := by
        intro hmem
        obtain ⟨q, hq, hq1⟩ := List.mem_map.mp hmem
        exact absurd (htl q hq).1 (by omega)
      simp only [List.getD_cons_zero]
      rw [rewriteFold_untouched aw ow tl _ _ _ hnot]
      have hi : p.1 < ws.length := by omega
      rw [List.getD_eq_getElem?_getD, List.getElem?_set_self hi]
      simp only [List.getD_cons_zero, Option.getD_some, Nat.add_zero]
    | k' + 1 =>
      have hk' : k' < tl.length := by
        simp only [List.length_cons] at hk; omega
      have hmem : tl.getD k' (0, 0) ∈ tl := by
        have : tl.getD k' (0, 0) = tl[k'] := by
          rw [List.getD_eq_getElem?_getD, List.getElem?_eq_getElem hk']
          rfl
        rw [this]
        exact List.getElem_mem hk'
      have hne : p.1 ≠ (tl.getD k' (0, 0)).1 := by
        have := (htl _ hmem).1
        omega
      rw [List.getD_cons_succ,
        ih _ _ _ (by rw [List.length_set]; exact hlen)
          (List.pairwise_cons.mp hpw).2 (fun q hq => hb q (by simp [hq])) hk']
      have hsame : (ws.set p.1
          { ws.getD p.1 default with
            word := (if cnt = 0 then "" else " ") ++ ow.getD p.2 "" }).getD
            (tl.getD k' (0, 0)).1 default
          = ws.getD (tl.getD k' (0, 0)).1 default := by
        rw [List.getD_eq_getElem?_getD, List.getElem?_set_ne hne,
          ← List.getD_eq_getElem?_getD]
      rw [hsame]
      have hcnt : cnt + 1 + k' = cnt + (k' + 1) := by omega
      rw [hcnt]

theorem rewriteWords_length (aw : List TimedWord) (ow : List String)
    (algn : List (Nat × Nat)) : (rewriteWords aw ow algn).length = aw.length := by
  unfold rewriteWords
  exact rewriteFold_length aw ow algn aw 0

theorem rewriteWords_untouched (aw : List TimedWord) (ow : List String)
    (algn : List (Nat × Nat)) (i : Nat) (hi : i ∉ algn.map Prod.fst) :
    (rewriteWords aw ow algn).getD i default = aw.getD i default := by
  unfold rewriteWords
  exact rewriteFold_untouched aw ow algn aw 0 i hi

theorem rewriteWords_aligned (aw : List TimedWord) (ow : List String)
    (algn : List (Nat × Nat)) (k : Nat)
    (hpw : List.Pairwise lt2 algn)
    (hb : ∀ p ∈ algn, p.1 < aw.length ∧ p.2 < ow.length)
    (hk : k < algn.length) :
    (rewriteWords aw ow algn).getD (algn.getD k (0, 0)).1 default =
      { aw.getD (algn.getD k (0, 0)).1 default with
        word := (if k = 0 then "" else " ")
          ++ ow.getD (algn.getD k (0, 0)).2 "" } := by
  unfold rewriteWords
  have h := rewriteFold_aligned aw ow algn aw 0 k rfl hpw hb hk
  simpa using h

theorem enumFrom_filterMap {α β : Type _} [Inhabited α] (g : Nat → α → Option β) :
    ∀ (l : List α) (s : Nat),
      (List.enumFrom s l).filterMap (fun p => g p.1 p.2)
        = (List.range l.length).filterMap (fun t => g (s + t) (l.getD t default)) := by
  intro l
  induction l with
  | nil => intro s; rfl
  | cons a l ih =>
    intro s
    rw [List.enumFrom_cons, List.length_cons, List.range_succ_eq_map]
    rw [List.filterMap_cons, List.filterMap_cons, List.filterMap_map]
    have htail : (List.range l.length).filterMap
          ((fun t => g (s + t) ((a :: l).getD t default)) ∘ Nat.succ)
        = (List.range l.length).filterMap (fun t => g (s + 1 + t) (l.getD t default)) := by
      apply List.filterMap_congr
      intro t _
      show g (s + (t + 1)) ((a :: l).getD (t + 1) default) = _
      rw [List.getD_cons_succ]
      have : s + (t + 1) = s + 1 + t := by omega
      rw [this]
    rw [htail, ih (s + 1)]
    simp only [Nat.add_zero, List.getD_cons_zero]

theorem filterMap_range_window {β : Type _} (c : Nat → Bool) (f : Nat → β)
    (off len r : Nat) :
    (List.range (off + len + r)).filterMap
        (fun t => if off ≤ t ∧ t < off + len ∧ c t then some (f t) else none)
      = (List.range len).filterMap
          (fun t => if c (off + t) then some (f (off + t)) else none) := by
  rw [List.range_add (off + len) r, List.range_add off len,
    List.filterMap_append, List.filterMap_append, List.filterMap_map,
    List.filterMap_map]
  have h1 : (List.range off).filterMap
      (fun t => if off ≤ t ∧ t < off + len ∧ c t then some (f t) else none) = [] := by
    rw [List.filterMap_eq_nil_iff]
    intro t ht
    rw [List.mem_range] at ht
    rw [if_neg (fun h => absurd h.1 (by omega))]
  have h3 : (List.range r).filterMap
      ((fun t => if off ≤ t ∧ t < off + len ∧ c t then some (f t) else none)
        ∘ (off + len + ·)) = [] := by
    rw [List.filterMap_eq_nil_iff]
    intro t _
    show (if off ≤ off + len + t ∧ off + len + t < off + len ∧ c (off + len + t)
      then some (f (off + len + t)) else none) = none
    rw [if_neg (fun h => absurd h.2.1 (by omega))]
  have h2 : (List.range len).filterMap
      ((fun t => if off ≤ t ∧ t < off + len ∧ c t then some (f t) else none)
        ∘ (off + ·))
      = (List.range len).filterMap
          (fun t => if c (off + t) then some (f (off + t)) else none) := by
    apply List.filterMap_congr
    intro t ht
    rw [List.mem_range] at ht
    show (if off ≤ off + t ∧ off + t < off + len ∧ c (off + t)
      then some (f (off + t)) else none) = _
    by_cases hc : c (off + t)
    · rw [if_pos ⟨by omega, by omega, hc⟩, if_pos hc]
    · rw [if_neg (fun h => hc h.2.2), if_neg hc]
  rw [h1, h2, h3]
  simp

theorem segmentOffset_cons_succ (s : List TimedWord) (ss : List (List TimedWord))
    (σ : Nat) :
    segmentOffset (s :: ss) (σ + 1) = s.length + segmentOffset ss σ := by
  unfold segmentOffset
  rw [List.take_succ_cons, List.map_cons, List.sum_cons]

theorem flatten_getD (segs : List (List TimedWord)) :
    ∀ σ t, σ < segs.length → t < (segs.getD σ []).length →
      segs.flatten.getD (segmentOffset segs σ + t) default
        = (segs.getD σ []).getD t default := by
  induction segs with
  | nil => intro σ t hσ _; exact absurd hσ (by simp)
  | cons s ss ih =>
    intro σ t hσ ht
    match σ with
    | 0 =>
      simp only [List.getD_cons_zero] at ht ⊢
      have hoff : segmentOffset (s :: ss) 0 = 0 := rfl
      rw [hoff, Nat.zero_add, List.flatten_cons, List.getD_eq_getElem?_getD,
        List.getElem?_append_left (by omega), ← List.getD_eq_getElem?_getD]
    | σ' + 1 =>
      simp only [List.getD_cons_succ] at ht ⊢
      rw [segmentOffset_cons_succ, List.flatten_cons, List.getD_eq_getElem?_getD,
        Nat.add_assoc, List.getElem?_append_right (by omega)]
      have : s.length + (segmentOffset ss σ' + t) - s.length
          = segmentOffset ss σ' + t := by omega
      rw [this, ← List.getD_eq_getElem?_getD]
      exact ih σ' t (by simp at hσ; omega) ht

theorem segmentOffset_window_le (segs : List (List TimedWord)) :
    ∀ σ, σ < segs.length →
      segmentOffset segs σ + (segs.getD σ []).length ≤ segs.flatten.length := by
  induction segs with
  | nil => intro σ hσ; exact absurd hσ (by simp)
  | cons s ss ih =>
    intro σ hσ
    match σ with
    | 0 =>
      show segmentOffset (s :: ss) 0 + s.length ≤ _
      have hoff : segmentOffset (s :: ss) 0 = 0 := rfl
      rw [hoff, List.flatten_cons, List.length_append]
      omega
    | σ' + 1 =>
      simp only [List.getD_cons_succ]
      rw [segmentOffset_cons_succ, List.flatten_cons, List.length_append]
      have := ih σ' (by simp at hσ; omega)
      omega

theorem alignSegment_eq (segs : List (List TimedWord)) (text : String)
    (σ : Nat) (hσ : σ < segs.length) :
    (alignWithOriginalText segs text).getD σ []
      = (List.range (segs.getD σ []).length).filterMap (fun t =>
          if ((alignedPairsOf segs text).map Prod.fst).contains
              (segmentOffset segs σ + t)
          then some ((rewrittenAll segs text).getD (segmentOffset segs σ + t) default)
          else none) := by
  have hwin := segmentOffset_window_le segs σ hσ
  have hlenA : (rewrittenAll segs text).length = segs.flatten.length :=
    rewriteWords_length _ _ _
  have hdef : alignWithOriginalText segs text
      = (List.range segs.length).map (fun σ =>
          (rewrittenAll segs text).enum.filterMap (fun p =>
            if segmentOffset segs σ ≤ p.1
                ∧ p.1 < segmentOffset segs σ + (segs.getD σ []).length
                ∧ ((alignedPairsOf segs text).map Prod.fst).contains p.1
            then some p.2 else none)) := rfl
  rw [hdef, List.getD_eq_getElem?_getD, List.getElem?_map, List.getElem?_range hσ,
    Option.map_some', Option.getD_some]
  refine Eq.trans (enumFrom_filterMap (fun i w =>
    if segmentOffset segs σ ≤ i ∧ i < segmentOffset segs σ + (segs.getD σ []).length
        ∧ ((alignedPairsOf segs text).map Prod.fst).contains i
    then some w else none) (rewrittenAll segs text) 0) ?_
  have hz : (fun t => if segmentOffset segs σ ≤ 0 + t
        ∧ 0 + t < segmentOffset segs σ + (segs.getD σ []).length
        ∧ ((alignedPairsOf segs text).map Prod.fst).contains (0 + t)
      then some ((rewrittenAll segs text).getD t default) else none)
      = (fun t => if segmentOffset segs σ ≤ t
        ∧ t < segmentOffset segs σ + (segs.getD σ []).length
        ∧ ((alignedPairsOf segs text).map Prod.fst).contains t
      then some ((rewrittenAll segs text).getD t default) else none) := by
    funext t
    rw [Nat.zero_add]
  rw [hz]
  have hsplit : (rewrittenAll segs text).length
      = segmentOffset segs σ + (segs.getD σ []).length
        + ((rewrittenAll segs text).length
            - (segmentOffset segs σ + (segs.getD σ []).length)) := by
    omega
  rw [hsplit, filterMap_range_window
    (fun i => ((alignedPairsOf segs text).map Prod.fst).contains i)
    (fun i => (rewrittenAll segs text).getD i default)]

/-- Transcript rewriter contract (claim C2): for every transcript and
authoritative text, (i) the `k`-th aligned pair overwrites the recognized
word's text with the corresponding authoritative token (carrying the
documented single-space separator for every applied pair after the first)
while its `start` and `end` times are exactly those of the original
recognized word; (ii) the output has one word list per input segment;
(iii) each output segment consists exactly of the rewritten words at the
aligned global indices of that segment's own index window, in original
relative order — so unaligned words are removed and every surviving word
stays in the segment it originally belonged to; (iv) words at unaligned
indices are left entirely unchanged by the rewriting loop (they equal the
original segment word). -/
theorem claim_C2_rewriter_contract (segs : List (List TimedWord)) (text : String) :
    (∀ k, k < (alignedPairsOf segs text).length →
      ((rewrittenAll segs text).getD
          ((alignedPairsOf segs text).getD k (0, 0)).1 default).word
          = (if k = 0 then "" else " ")
              ++ (originalWordsOf text).getD
                  ((alignedPairsOf segs text).getD k (0, 0)).2 "" ∧
      ((rewrittenAll segs text).getD
          ((alignedPairsOf segs text).getD k (0, 0)).1 default).start
          = (segs.flatten.getD
              ((alignedPairsOf segs text).getD k (0, 0)).1 default).start ∧
      ((rewrittenAll segs text).getD
          ((alignedPairsOf segs text).getD k (0, 0)).1 default).stop
          = (segs.flatten.getD
              ((alignedPairsOf segs text).getD k (0, 0)).1 default).stop) ∧
    (alignWithOriginalText segs text).length = segs.length ∧
    (∀ σ, σ < segs.length →
      (alignWithOriginalText segs text).getD σ []
        = (List.range (segs.getD σ []).length).filterMap (fun t =>
            if ((alignedPairsOf segs text).map Prod.fst).contains
                (segmentOffset segs σ + t)
            then some ((rewrittenAll segs text).getD
                (segmentOffset segs σ + t) default)
            else none)) ∧
    (∀ σ t, σ < segs.length → t < (segs.getD σ []).length →
      (segmentOffset segs σ + t) ∉ (alignedPairsOf segs text).map Prod.fst →
      (rewrittenAll segs text).getD (segmentOffset segs σ + t) default
        = (segs.getD σ []).getD t default) := by
  have hprops := alignmentFor_props
    (segs.flatten.map (fun w => cleanToken w.word))
    ((originalWordsOf text).map cleanToken)
  have hpw : List.Pairwise lt2 (alignedPairsOf segs text) := hprops.1
  have hb : ∀ p ∈ alignedPairsOf segs text,
      p.1 < segs.flatten.length ∧ p.2 < (originalWordsOf text).length := by
    intro p hp
    have := hprops.2 p hp
    rw [List.length_map, List.length_map] at this
    exact this
  refine ⟨?_, ?_, ?_, ?_⟩
  · intro k hk
    have hh : (rewrittenAll segs text).getD
        ((alignedPairsOf segs text).getD k (0, 0)).1 default
        = { segs.flatten.getD
              ((alignedPairsOf segs text).getD k (0, 0)).1 default with
            word := (if k = 0 then "" else " ")
              ++ (originalWordsOf text).getD
                  ((alignedPairsOf segs text).getD k (0, 0)).2 "" } :=
      rewriteWords_aligned segs.flatten (originalWordsOf text)
        (alignedPairsOf segs text) k hpw hb hk
    rw [hh]
    exact ⟨rfl, rfl, rfl⟩
  · have hdef : alignWithOriginalText segs text
        = (List.range segs.length).map (fun σ =>
            (rewrittenAll segs text).enum.filterMap (fun p =>
              if segmentOffset segs σ ≤ p.1
                  ∧ p.1 < segmentOffset segs σ + (segs.getD σ []).length
                  ∧ ((alignedPairsOf segs text).map Prod.fst).contains p.1
              then some p.2 else none)) := rfl
    rw [hdef, List.length_map, List.length_range]
  · intro σ hσ
    exact alignSegment_eq segs text σ hσ
  · intro σ t hσ ht hnot
    have h1 : (rewrittenAll segs text).getD (segmentOffset segs σ + t) default
        = segs.flatten.getD (segmentOffset segs σ + t) default :=
      rewriteWords_untouched segs.flatten (originalWordsOf text)
        (alignedPairsOf segs text) _ hnot
    rw [h1]
    exact flatten_getD segs σ t hσ ht

/-- Concrete instance of the rewriter contract: in the transcript
`[["Hello,"], ["uh", "world"]]` aligned against `"hello world"`, the second
aligned pair exists and rewrites the matched word with a space-prefixed
authoritative token while preserving its times. -/
theorem claim_C2_rewriter_contract_witness :
    1 < (alignedPairsOf [[⟨"Hello,", 0, 1⟩], [⟨"uh", 1, 2⟩, ⟨"world", 2, 3⟩]]
        "hello world").length ∧
    (((rewrittenAll [[⟨"Hello,", 0, 1⟩], [⟨"uh", 1, 2⟩, ⟨"world", 2, 3⟩]]
          "hello world").getD
        ((alignedPairsOf [[⟨"Hello,", 0, 1⟩], [⟨"uh", 1, 2⟩, ⟨"world", 2, 3⟩]]
            "hello world").getD 1 (0, 0)).1 default).word
        = (if 1 = 0 then "" else " ")
            ++ (originalWordsOf "hello world").getD
                ((alignedPairsOf [[⟨"Hello,", 0, 1⟩], [⟨"uh", 1, 2⟩, ⟨"world", 2, 3⟩]]
                    "hello world").getD 1 (0, 0)).2 "" ∧
      ((rewrittenAll [[⟨"Hello,", 0, 1⟩], [⟨"uh", 1, 2⟩, ⟨"world", 2, 3⟩]]
          "hello world").getD
        ((alignedPairsOf [[⟨"Hello,", 0, 1⟩], [⟨"uh", 1, 2⟩, ⟨"world", 2, 3⟩]]
            "hello world").getD 1 (0, 0)).1 default).start
        = (([[⟨"Hello,", 0, 1⟩], [⟨"uh", 1, 2⟩, ⟨"world", 2, 3⟩]] :
              List (List TimedWord)).flatten.getD
            ((alignedPairsOf [[⟨"Hello,", 0, 1⟩], [⟨"uh", 1, 2⟩, ⟨"world", 2, 3⟩]]
                "hello world").getD 1 (0, 0)).1 default).start ∧
      ((rewrittenAll [[⟨"Hello,", 0, 1⟩], [⟨"uh", 1, 2⟩, ⟨"world", 2, 3⟩]]
          "hello world").getD
        ((alignedPairsOf [[⟨"Hello,", 0, 1⟩], [⟨"uh", 1, 2⟩, ⟨"world", 2, 3⟩]]
            "hello world").getD 1 (0, 0)).1 default).stop
        = (([[⟨"Hello,", 0, 1⟩], [⟨"uh", 1, 2⟩, ⟨"world", 2, 3⟩]] :
              List (List TimedWord)).flatten.getD
            ((alignedPairsOf [[⟨"Hello,", 0, 1⟩], [⟨"uh", 1, 2⟩, ⟨"world", 2, 3⟩]]
                "hello world").getD 1 (0, 0)).1 default).stop) :=
  ⟨by decide,
   (claim_C2_rewriter_contract
     [[⟨"Hello,", 0, 1⟩], [⟨"uh", 1, 2⟩, ⟨"world", 2, 3⟩]] "hello world").1
     1 (by decide)⟩

/-! ## Stage F: the equal-sequences (diagonal) case of the matcher
(claim C3) -/

theorem mem_takeWhile_sorted {bhi : Nat} :
    ∀ (l : List Nat), List.Pairwise (· < ·) l → ∀ x,
      (x ∈ l.takeWhile (fun j => decide (j < bhi)) ↔ x ∈ l ∧ x < bhi) := by
  intro l
  induction l with
  | nil => intro _ x; simp
  | cons j rest ih =>
    intro hp x
    by_cases hj : j < bhi
    · rw [List.takeWhile_cons_of_pos (by simpa using hj)]
      simp only [List.mem_cons]
      rw [ih hp.of_cons x]
      constructor
      · rintro (rfl | ⟨hx, hxb⟩)
        · exact ⟨Or.inl rfl, hj⟩
        · exact ⟨Or.inr hx, hxb⟩
      · rintro ⟨rfl | hx, hxb⟩
        · exact Or.inl rfl
        · exact Or.inr ⟨hx, hxb⟩
    · rw [List.takeWhile_cons_of_neg (by simpa using hj)]
      simp only [List.not_mem_nil, false_iff, not_and, List.mem_cons]
      rintro (rfl | hx)
      · omega
      · have := List.rel_of_pairwise_cons hp hx
        omega

theorem mem_jsWindow {blo bhi : Nat} :
    ∀ (l : List Nat), List.Pairwise (· < ·) l → ∀ x,
      (x ∈ (l.dropWhile (fun j => decide (j < blo))).takeWhile
          (fun j => decide (j < bhi))
        ↔ x ∈ l ∧ blo ≤ x ∧ x < bhi) := by
  intro l
  induction l with
  | nil => intro _ x; simp
  | cons j rest ih =>
    intro hp x
    by_cases hj : j < blo
    · rw [List.dropWhile_cons_of_pos (by simpa using hj)]
      rw [ih hp.of_cons x]
      simp only [List.mem_cons]
      constructor
      · rintro ⟨hx, h1, h2⟩; exact ⟨Or.inr hx, h1, h2⟩
      · rintro ⟨rfl | hx, h1, h2⟩
        · omega
        · exact ⟨hx, h1, h2⟩
    · rw [List.dropWhile_cons_of_neg (by simpa using hj)]
      rw [mem_takeWhile_sorted _ hp x]
      simp only [List.mem_cons]
      constructor
      · rintro ⟨rfl | hx, hxb⟩
        · exact ⟨Or.inl rfl, by omega, hxb⟩
        · have := List.rel_of_pairwise_cons hp hx
          exact ⟨Or.inr hx, by omega, hxb⟩
      · rintro ⟨hx, _, hxb⟩
        exact ⟨hx, hxb⟩

theorem mem_posList (b : List String) (x : String) (j : Nat) :
    j ∈ posList b x ↔ j < b.length ∧ b.getD j "" = x := by
  unfold posList
  rw [List.mem_filter, List.mem_range]
  simp

theorem b2jGet_value {b : List String} {x : String} {j : Nat}
    (h : j ∈ b2jGet b x) : j < b.length ∧ b.getD j "" = x := by
  unfold b2jGet at h
  by_cases hpop : isPopular b x = true
  · rw [if_pos hpop] at h; simp at h
  · rw [if_neg hpop] at h
    exact (mem_posList b x j).mp h

theorem self_mem_b2jGet {b : List String} {i : Nat} (hi : i < b.length)
    (hne : b2jGet b (b.getD i "") ≠ []) :
    i ∈ b2jGet b (b.getD i "") := by
  unfold b2jGet at hne ⊢
  by_cases hpop : isPopular b (b.getD i "") = true
  · rw [if_pos hpop] at hne; exact absurd rfl hne
  · rw [if_neg hpop]
    exact (mem_posList b _ i).mpr ⟨hi, rfl⟩

theorem keptRun_of_not_kept {b : List String} {blo bhi j : Nat}
    (h : ¬ keptPos b blo bhi j) : keptRun b blo bhi j = 0 := by
  match j with
  | 0 => unfold keptRun; rw [if_neg h]
  | j + 1 => unfold keptRun; rw [if_neg h]

theorem keptRun_succ_of_kept {b : List String} {blo bhi j : Nat}
    (h : keptPos b blo bhi (j + 1)) :
    keptRun b blo bhi (j + 1) = keptRun b blo bhi j + 1 := by
  show (if keptPos b blo bhi (j + 1) then keptRun b blo bhi j + 1 else 0) = _
  rw [if_pos h]

theorem keptRun_zero_of_kept {b : List String} {blo bhi : Nat}
    (h : keptPos b blo bhi 0) : keptRun b blo bhi 0 = 1 := by
  unfold keptRun; rw [if_pos h]

theorem keptRun_lt_blo {b : List String} {blo bhi j : Nat} (h : j < blo) :
    keptRun b blo bhi j = 0 :=
  keptRun_of_not_kept (fun hk => absurd hk.1 (by omega))

theorem keptRun_pos_of_kept {b : List String} {blo bhi j : Nat}
    (h : keptPos b blo bhi j) : 1 ≤ keptRun b blo bhi j := by
  match j with
  | 0 => rw [keptRun_zero_of_kept h]
  | j + 1 => rw [keptRun_succ_of_kept h]; omega

theorem keptRun_eq_succ_pred {b : List String} {blo bhi j : Nat}
    (h0 : 0 < j) (h : keptPos b blo bhi j) :
    keptRun b blo bhi j = keptRun b blo bhi (j - 1) + 1 := by
  match j, h0 with
  | j + 1, _ => exact keptRun_succ_of_kept h

theorem flmInner_diag (a : List String) (lo hi i : Nat) (J : Nat → Nat)
    (hki : keptPos a lo hi i)
    (HJ1 : ∀ j, J j ≤ keptRun a lo hi j)
    (HJ4 : ∀ j, J j ≤ (if lo < i then keptRun a lo hi (i - 1) else 0))
    (HJ2 : lo < i → J (i - 1) = keptRun a lo hi (i - 1)) :
    ∀ (js : List Nat) (st : (Nat → Nat) × Nat × Nat × Nat),
      List.Pairwise (· < ·) js →
      (∀ j ∈ js, keptPos a lo hi j) →
      st.2.1 = st.2.2.1 →
      (∀ r, lo ≤ r → r < i → keptRun a lo hi r ≤ st.2.2.2) →
      (i ∈ js ∨ keptRun a lo hi i ≤ st.2.2.2) →
      (∀ j, st.1 j ≤ keptRun a lo hi j) →
      (∀ j, st.1 j ≤ keptRun a lo hi i) →
      (i ∈ js ∨ st.1 i = keptRun a lo hi i) →
      (flmInner J i st js).2.1 = (flmInner J i st js).2.2.1 ∧
      (∀ r, lo ≤ r → r < i → keptRun a lo hi r ≤ (flmInner J i st js).2.2.2) ∧
      keptRun a lo hi i ≤ (flmInner J i st js).2.2.2 ∧
      (∀ j, (flmInner J i st js).1 j ≤ keptRun a lo hi j) ∧
      (∀ j, (flmInner J i st js).1 j ≤ keptRun a lo hi i) ∧
      (flmInner J i st js).1 i = keptRun a lo hi i := by
  intro js
  induction js with
  | nil =>
    intro st _ _ hdiag hHC hph hF1 hF4 hF2
    exact ⟨hdiag, hHC, hph.resolve_left (by simp), hF1, hF4,
      hF2.resolve_left (by simp)⟩
  | cons j js' ih =>
    intro st hp hmem hdiag hHC hph hF1 hF4 hF2
    have hkj : keptPos a lo hi j := hmem j (by simp)
    have hRj : (if j = 0 then 0 else J (j - 1)) + 1 ≤ keptRun a lo hi j := by
      match j with
      | 0 => rw [keptRun_zero_of_kept hkj]; simp
      | j' + 1 =>
        have := HJ1 j'
        rw [keptRun_succ_of_kept hkj]
        simpa using this
    have hRi0 : 1 ≤ keptRun a lo hi i := keptRun_pos_of_kept hki
    have hkRi : (if j = 0 then 0 else J (j - 1)) + 1 ≤ keptRun a lo hi i := by
      by_cases hloi : lo < i
      · have h1 : (if j = 0 then 0 else J (j - 1)) ≤ keptRun a lo hi (i - 1) := by
          by_cases hj0 : j = 0
          · rw [if_pos hj0]; omega
          · rw [if_neg hj0]
            have := HJ4 (j - 1)
            rwa [if_pos hloi] at this
        rw [keptRun_eq_succ_pred (by omega) hki]
        omega
      · have h1 : (if j = 0 then 0 else J (j - 1)) = 0 := by
          by_cases hj0 : j = 0
          · rw [if_pos hj0]
          · rw [if_neg hj0]
            have := HJ4 (j - 1)
            rw [if_neg hloi] at this
            omega
        omega
    have hkeqRi : j = i → (if j = 0 then 0 else J (j - 1)) + 1 = keptRun a lo hi i := by
      rintro rfl
      by_cases hj0 : j = 0
      · rw [if_pos hj0, hj0]
        rw [hj0] at hki
        rw [keptRun_zero_of_kept hki]
      · rw [if_neg hj0]
        by_cases hloi : lo < j
        · rw [HJ2 hloi, keptRun_eq_succ_pred (by omega) hki]
        · have h1 : J (j - 1) = 0 := by
            have := HJ4 (j - 1)
            rw [if_neg hloi] at this
            omega
          rw [h1, keptRun_eq_succ_pred (by omega) hki,
            @keptRun_lt_blo a lo hi (j - 1) (show j - 1 < lo by omega)]
    simp only [flmInner]
    rcases Nat.lt_trichotomy j i with hji | hji | hji
    · have hnoup : ¬ (st.2.2.2 < (if j = 0 then 0 else J (j - 1)) + 1) := by
        have h1 : keptRun a lo hi j ≤ st.2.2.2 := hHC j hkj.1 hji
        omega
      rw [if_neg hnoup]
      apply ih
      · exact hp.of_cons
      · exact fun x hx => hmem x (by simp [hx])
      · exact hdiag
      · exact hHC
      · rcases hph with hin | hle
        · rcases List.mem_cons.mp hin with h | h
          · omega
          · exact Or.inl h
        · exact Or.inr hle
      · intro j'
        by_cases hj' : j' = j
        · show (if j' = j then _ else _) ≤ _
          rw [if_pos hj', hj']
          exact hRj
        · show (if j' = j then _ else _) ≤ _
          rw [if_neg hj']
          exact hF1 j'
      · intro j'
        by_cases hj' : j' = j
        · show (if j' = j then _ else _) ≤ _
          rw [if_pos hj']
          exact hkRi
        · show (if j' = j then _ else _) ≤ _
          rw [if_neg hj']
          exact hF4 j'
      · rcases hF2 with hin | heq
        · rcases List.mem_cons.mp hin with h | h
          · omega
          · exact Or.inl h
        · refine Or.inr ?_
          show (if i = j then _ else _) = _
          rw [if_neg (by omega)]
          exact heq
    · subst hji
      have hkeq := hkeqRi rfl
      by_cases hup : st.2.2.2 < (if j = 0 then 0 else J (j - 1)) + 1
      · rw [if_pos hup]
        apply ih
        · exact hp.of_cons
        · exact fun x hx => hmem x (by simp [hx])
        · exact rfl
        · intro r hr1 hr2
          have := hHC r hr1 hr2
          show keptRun a lo hi r ≤ (if j = 0 then 0 else J (j - 1)) + 1
          omega
        · refine Or.inr ?_
          show keptRun a lo hi j ≤ (if j = 0 then 0 else J (j - 1)) + 1
          omega
        · intro j'
          by_cases hj' : j' = j
          · show (if j' = j then _ else _) ≤ _
            rw [if_pos hj', hj']
            exact hRj
          · show (if j' = j then _ else _) ≤ _
            rw [if_neg hj']
            exact hF1 j'
        · intro j'
          by_cases hj' : j' = j
          · show (if j' = j then _ else _) ≤ _
            rw [if_pos hj']
            exact hkRi
          · show (if j' = j then _ else _) ≤ _
            rw [if_neg hj']
            exact hF4 j'
        · refine Or.inr ?_
          show (if j = j then _ else _) = _
          rw [if_pos rfl]
          exact hkeq
      · rw [if_neg hup]
        apply ih
        · exact hp.of_cons
        · exact fun x hx => hmem x (by simp [hx])
        · exact hdiag
        · exact hHC
        · refine Or.inr ?_
          show keptRun a lo hi j ≤ st.2.2.2
          omega
        · intro j'
          by_cases hj' : j' = j
          · show (if j' = j then _ else _) ≤ _
            rw [if_pos hj', hj']
            exact hRj
          · show (if j' = j then _ else _) ≤ _
            rw [if_neg hj']
            exact hF1 j'
        · intro j'
          by_cases hj' : j' = j
          · show (if j' = j then _ else _) ≤ _
            rw [if_pos hj']
            exact hkRi
          · show (if j' = j then _ else _) ≤ _
            rw [if_neg hj']
            exact hF4 j'
        · refine Or.inr ?_
          show (if j = j then _ else _) = _
          rw [if_pos rfl]
          exact hkeq
    · have hphR : keptRun a lo hi i ≤ st.2.2.2 := by
        rcases hph with hin | hle
        · rcases List.mem_cons.mp hin with h | h
          · omega
          · have := List.rel_of_pairwise_cons hp h
            omega
        · exact hle
      have hnoup : ¬ (st.2.2.2 < (if j = 0 then 0 else J (j - 1)) + 1) := by
        omega
      rw [if_neg hnoup]
      apply ih
      · exact hp.of_cons
      · exact fun x hx => hmem x (by simp [hx])
      · exact hdiag
      · exact hHC
      · exact Or.inr hphR
      · intro j'
        by_cases hj' : j' = j
        · show (if j' = j then _ else _) ≤ _
          rw [if_pos hj', hj']
          exact hRj
        · show (if j' = j then _ else _) ≤ _
          rw [if_neg hj']
          exact hF1 j'
      · intro j'
        by_cases hj' : j' = j
        · show (if j' = j then _ else _) ≤ _
          rw [if_pos hj']
          exact hkRi
        · show (if j' = j then _ else _) ≤ _
          rw [if_neg hj']
          exact hF4 j'
      · have heq : st.1 i = keptRun a lo hi i := by
          rcases hF2 with hin | heq
          · rcases List.mem_cons.mp hin with h | h
            · omega
            · have := List.rel_of_pairwise_cons hp h
              omega
          · exact heq
        refine Or.inr ?_
        show (if i = j then _ else _) = _
        rw [if_neg (by omega)]
        exact heq

theorem flmScan_rows_diag (a : List String) (lo hi : Nat) (hhi : hi ≤ a.length) :
    ∀ (cnt start : Nat) (st : (Nat → Nat) × Nat × Nat × Nat),
      lo ≤ start → start + cnt ≤ hi →
      st.2.1 = st.2.2.1 →
      (∀ r, lo ≤ r → r < start → keptRun a lo hi r ≤ st.2.2.2) →
      (∀ j, st.1 j ≤ keptRun a lo hi j) →
      (∀ j, st.1 j ≤ (if lo < start then keptRun a lo hi (start - 1) else 0)) →
      (lo < start → st.1 (start - 1) = keptRun a lo hi (start - 1)) →
      ∀ res, res = (List.range' start cnt).foldl
          (fun st i =>
            let js := ((b2jGet a (a.getD i "")).dropWhile
              (fun j => decide (j < lo))).takeWhile (fun j => decide (j < hi))
            flmInner st.1 i ((fun _ => 0), st.2.1, st.2.2.1, st.2.2.2) js)
          st →
        res.2.1 = res.2.2.1 ∧
        (∀ r, lo ≤ r → r < start + cnt → keptRun a lo hi r ≤ res.2.2.2) ∧
        (∀ j, res.1 j ≤ keptRun a lo hi j) ∧
        (∀ j, res.1 j ≤ (if lo < start + cnt then keptRun a lo hi (start + cnt - 1) else 0)) ∧
        (lo < start + cnt → res.1 (start + cnt - 1) = keptRun a lo hi (start + cnt - 1)) := by
  intro cnt
  induction cnt with
  | zero =>
    intro start st hs1 hs2 hdiag hHC hF1 hF4 hF2 res hres
    subst hres
    exact ⟨hdiag, fun r h1 h2 => hHC r h1 (by omega), hF1, hF4, hF2⟩
  | succ n ih =>
    intro start st hs1 hs2 hdiag hHC hF1 hF4 hF2 res hres
    rw [List.range'_succ, List.foldl_cons] at hres
    set js := ((b2jGet a (a.getD start "")).dropWhile
      (fun j => decide (j < lo))).takeWhile (fun j => decide (j < hi)) with hjs
    have hjs_mem : ∀ x, x ∈ js ↔
        x ∈ b2jGet a (a.getD start "") ∧ lo ≤ x ∧ x < hi := by
      intro x
      exact mem_jsWindow _ (b2jGet_sorted a (a.getD start "")) x
    have hjs_sorted : List.Pairwise (· < ·) js := by
      exact List.Pairwise.sublist
        ((List.takeWhile_sublist _).trans (List.dropWhile_sublist _))
        (b2jGet_sorted a (a.getD start ""))
    have hjs_kept : ∀ x ∈ js, keptPos a lo hi x := by
      intro x hx
      obtain ⟨hb, h1, h2⟩ := (hjs_mem x).mp hx
      obtain ⟨hxlen, hxval⟩ := b2jGet_value hb
      refine ⟨h1, h2, ?_⟩
      rw [hxval]
      exact hb
    have hstep : ∀ stp, stp = flmInner st.1 start
          ((fun _ => 0), st.2.1, st.2.2.1, st.2.2.2) js →
        stp.2.1 = stp.2.2.1 ∧
        (∀ r, lo ≤ r → r < start + 1 → keptRun a lo hi r ≤ stp.2.2.2) ∧
        (∀ j, stp.1 j ≤ keptRun a lo hi j) ∧
        (∀ j, stp.1 j ≤ (if lo < start + 1 then keptRun a lo hi start else 0)) ∧
        (lo < start + 1 → stp.1 start = keptRun a lo hi start) := by
      intro stp hstp
      by_cases hkept : keptPos a lo hi start
      · have hin : start ∈ js := (hjs_mem start).mpr ⟨hkept.2.2, hkept.1, hkept.2.1⟩
        have hmain := flmInner_diag a lo hi start st.1 hkept hF1 hF4 hF2 js
          ((fun _ => 0), st.2.1, st.2.2.1, st.2.2.2) hjs_sorted hjs_kept
          hdiag hHC (Or.inl hin) (fun j => Nat.zero_le _) (fun j => Nat.zero_le _)
          (Or.inl hin)
        rw [← hstp] at hmain
        obtain ⟨m1, m2, m3, m4, m5, m6⟩ := hmain
        refine ⟨m1, ?_, m4, ?_, fun _ => m6⟩
        · intro r h1 h2
          by_cases hr : r < start
          · exact m2 r h1 hr
          · have : r = start := by omega
            rw [this]
            exact m3
        · intro j
          rw [if_pos (by omega)]
          exact m5 j
      · have hjs_nil : js = [] := by
          rw [List.eq_nil_iff_forall_not_mem]
          intro x hx
          have hb := ((hjs_mem x).mp hx).1
          have hne : b2jGet a (a.getD start "") ≠ [] := by
            intro hemp
            rw [hemp] at hb
            exact absurd hb (List.not_mem_nil x)
          have hself := self_mem_b2jGet (show start < a.length by omega) hne
          exact hkept ⟨hs1, by omega, hself⟩
        rw [hjs_nil] at hstp
        have hstp' : stp = ((fun _ => 0), st.2.1, st.2.2.1, st.2.2.2) := hstp
        rw [hstp']
        have hR0 : keptRun a lo hi start = 0 := keptRun_of_not_kept hkept
        refine ⟨hdiag, ?_, fun j => Nat.zero_le _, fun j => Nat.zero_le _, fun _ => ?_⟩
        · intro r h1 h2
          by_cases hr : r < start
          · exact hHC r h1 hr
          · have : r = start := by omega
            rw [this, hR0]
            exact Nat.zero_le _
        · show (0 : Nat) = keptRun a lo hi start
          rw [hR0]
    obtain ⟨p1, p2, p3, p4, p5⟩ := hstep _ rfl
    have hres' : res = (List.range' (start + 1) n).foldl
        (fun st i =>
          let js := ((b2jGet a (a.getD i "")).dropWhile
            (fun j => decide (j < lo))).takeWhile (fun j => decide (j < hi))
          flmInner st.1 i ((fun _ => 0), st.2.1, st.2.2.1, st.2.2.2) js)
        (flmInner st.1 start ((fun _ => 0), st.2.1, st.2.2.1, st.2.2.2) js) := hres
    have p4' : ∀ j, (flmInner st.1 start
        ((fun _ => 0), st.2.1, st.2.2.1, st.2.2.2) js).1 j
        ≤ (if lo < start + 1 then keptRun a lo hi (start + 1 - 1) else 0) := by
      simpa using p4
    have p5' : lo < start + 1 → (flmInner st.1 start
        ((fun _ => 0), st.2.1, st.2.2.1, st.2.2.2) js).1 (start + 1 - 1)
        = keptRun a lo hi (start + 1 - 1) := by
      simpa using p5
    have hmain := ih (start + 1)
      (flmInner st.1 start ((fun _ => 0), st.2.1, st.2.2.1, st.2.2.2) js)
      (by omega) (by omega) p1 p2 p3 p4' p5' res hres'
    have harith : start + 1 + n = start + (n + 1) := by omega
    rw [harith] at hmain
    exact hmain

theorem flmScan_diag (a : List String) (lo hi : Nat) (hlo : lo ≤ hi)
    (hhi : hi ≤ a.length) :
    (flmScan a a lo hi lo hi).2.1 = (flmScan a a lo hi lo hi).2.2.1 := by
  unfold flmScan
  have h := flmScan_rows_diag a lo hi hhi (hi - lo) lo ((fun _ => 0), lo, lo, 0)
    (Nat.le_refl lo) (by omega) rfl
    (fun r h1 h2 => absurd (Nat.lt_of_le_of_lt h1 h2) (Nat.lt_irrefl lo))
    (fun j => Nat.zero_le _)
    (fun j => by rw [if_neg (Nat.lt_irrefl lo)])
    (fun h => absurd h (Nat.lt_irrefl lo))
    _ rfl
  exact h.1

theorem extBack_diag (a : List String) (lo : Nat) :
    ∀ (fuel : Nat) (st : Nat × Nat × Nat), st.1 = st.2.1 →
      (extBack a a lo lo fuel st).1 = (extBack a a lo lo fuel st).2.1 := by
  intro fuel
  induction fuel with
  | zero => intro st h; exact h
  | succ n ih =>
    intro st h
    simp only [extBack]
    by_cases hc : lo < st.1 ∧ lo < st.2.1 ∧
        a.getD (st.1 - 1) "" = a.getD (st.2.1 - 1) ""
    · rw [if_pos hc]
      exact ih _ (by show st.1 - 1 = st.2.1 - 1; omega)
    · rw [if_neg hc]
      exact h

theorem extFwd_diag (a : List String) (hi : Nat) :
    ∀ (fuel : Nat) (st : Nat × Nat × Nat), st.1 = st.2.1 →
      (extFwd a a hi hi fuel st).1 = (extFwd a a hi hi fuel st).2.1 := by
  intro fuel
  induction fuel with
  | zero => intro st h; exact h
  | succ n ih =>
    intro st h
    simp only [extFwd]
    by_cases hc : st.1 + st.2.2 < hi ∧ st.2.1 + st.2.2 < hi ∧
        a.getD (st.1 + st.2.2) "" = a.getD (st.2.1 + st.2.2) ""
    · rw [if_pos hc]
      exact ih _ h
    · rw [if_neg hc]
      exact h

theorem findLongestMatch_diag (a : List String) (lo hi : Nat) (hlo : lo ≤ hi)
    (hhi : hi ≤ a.length) :
    (findLongestMatch a a lo hi lo hi).1 = (findLongestMatch a a lo hi lo hi).2.1 := by
  unfold findLongestMatch
  apply extFwd_diag
  apply extBack_diag
  exact flmScan_diag a lo hi hlo hhi

theorem gmbLoop_diag (a : List String) :
    ∀ (fuel : Nat) (queue : List (Nat × Nat × Nat × Nat))
      (acc : List (Nat × Nat × Nat)),
      (∀ r ∈ queue, r.1 = r.2.2.1 ∧ r.2.1 = r.2.2.2 ∧ r.1 ≤ r.2.1 ∧
        r.2.1 ≤ a.length) →
      (∀ m ∈ acc, m.1 = m.2.1) →
      ∀ m ∈ gmbLoop a a fuel queue acc, m.1 = m.2.1 := by
  intro fuel
  induction fuel with
  | zero => intro queue acc _ hacc; exact hacc
  | succ n ih =>
    intro queue acc hq hacc
    match queue with
    | [] => exact hacc
    | r :: rest =>
      obtain ⟨hd1, hd2, hwf1, hwf2⟩ := hq r (by simp)
      set m := findLongestMatch a a r.1 r.2.1 r.2.2.1 r.2.2.2 with hmdef
      have hmdiag : m.1 = m.2.1 := by
        rw [hmdef, ← hd1, ← hd2]
        exact findLongestMatch_diag a r.1 r.2.1 hwf1 hwf2
      have hminv := findLongestMatch_inv a a r.1 r.2.1 r.2.2.1 r.2.2.2 hwf1
        (by omega)
      rw [← hmdef] at hminv
      obtain ⟨hm1, hm2, hm3, hm4, hm5⟩ := hminv
      show ∀ x ∈ gmbLoop a a (n + 1) (r :: rest) acc, x.1 = x.2.1
      simp only [gmbLoop]
      by_cases hz : m.2.2 = 0
      · rw [if_pos hz]
        exact ih rest acc (fun q hq2 => hq q (by simp [hq2])) hacc
      · rw [if_neg hz]
        apply ih
        · intro q hq2
          rcases List.mem_append.mp hq2 with hq3 | hq3
          · rcases List.mem_append.mp hq3 with hq4 | hq4
            · by_cases hcond : m.1 + m.2.2 < r.2.1 ∧ m.2.1 + m.2.2 < r.2.2.2
              · rw [if_pos hcond] at hq4
                simp only [List.mem_singleton] at hq4
                subst hq4
                refine ⟨?_, ?_, ?_, ?_⟩
                · show m.1 + m.2.2 = m.2.1 + m.2.2
                  omega
                · show r.2.1 = r.2.2.2
                  exact hd2
                · show m.1 + m.2.2 ≤ r.2.1
                  omega
                · show r.2.1 ≤ a.length
                  exact hwf2
              · rw [if_neg hcond] at hq4
                exact absurd hq4 (List.not_mem_nil q)
            · by_cases hcond : r.1 < m.1 ∧ r.2.2.1 < m.2.1
              · rw [if_pos hcond] at hq4
                simp only [List.mem_singleton] at hq4
                subst hq4
                refine ⟨?_, ?_, ?_, ?_⟩
                · show r.1 = r.2.2.1
                  exact hd1
                · show m.1 = m.2.1
                  exact hmdiag
                · show r.1 ≤ m.1
                  exact hm1
                · show m.1 ≤ a.length
                  omega
              · rw [if_neg hcond] at hq4
                exact absurd hq4 (List.not_mem_nil q)
          · exact hq q (by simp [hq3])
        · intro x hx
          rcases List.mem_append.mp hx with hx2 | hx2
          · exact hacc x hx2
          · simp only [List.mem_singleton] at hx2
            subst hx2
            exact hmdiag

theorem matchingBlocksRaw_diag (a : List String) :
    ∀ m ∈ matchingBlocksRaw a a, m.1 = m.2.1 := by
  unfold matchingBlocksRaw
  apply gmbLoop_diag
  · intro r hr
    simp only [List.mem_singleton] at hr
    subst hr
    exact ⟨rfl, rfl, Nat.zero_le _, Nat.le_refl _⟩
  · intro m hm
    exact absurd hm (List.not_mem_nil m)

theorem matchingBlocks_diag (a : List String) :
    ∀ m ∈ matchingBlocks a a, m.1 = m.2.1 := by
  have hsorted : ∀ m ∈ sortedBlocks a a, m.1 = m.2.1 := by
    intro m hm
    exact matchingBlocksRaw_diag a m
      ((List.perm_insertionSort blockLe (matchingBlocksRaw a a)).subset hm)
  have haux : ∀ (bs : List (Nat × Nat × Nat))
      (st : List (Nat × Nat × Nat) × Nat × Nat × Nat),
      (∀ m ∈ bs, m.1 = m.2.1) →
      (∀ m ∈ st.1, m.1 = m.2.1) → st.2.1 = st.2.2.1 →
      ∀ res, res = bs.foldl
        (fun (st : List (Nat × Nat × Nat) × Nat × Nat × Nat) blk =>
          if st.2.1 + st.2.2.2 = blk.1 ∧ st.2.2.1 + st.2.2.2 = blk.2.1 then
            (st.1, st.2.1, st.2.2.1, st.2.2.2 + blk.2.2)
          else
            ((if st.2.2.2 ≠ 0 then st.1 ++ [st.2] else st.1), blk)) st →
      (∀ m ∈ res.1, m.1 = m.2.1) ∧ res.2.1 = res.2.2.1 := by
    intro bs
    induction bs with
    | nil =>
      intro st _ hacc hcur res hres
      subst hres
      exact ⟨hacc, hcur⟩
    | cons blk bs ih =>
      intro st hbs hacc hcur res hres
      rw [List.foldl_cons] at hres
      by_cases hc : st.2.1 + st.2.2.2 = blk.1 ∧ st.2.2.1 + st.2.2.2 = blk.2.1
      · rw [if_pos hc] at hres
        exact ih (st.1, st.2.1, st.2.2.1, st.2.2.2 + blk.2.2)
          (fun m hm => hbs m (by simp [hm])) hacc hcur res hres
      · rw [if_neg hc] at hres
        apply ih ((if st.2.2.2 ≠ 0 then st.1 ++ [st.2] else st.1), blk)
          (fun m hm => hbs m (by simp [hm])) _ _ res hres
        · intro m hm
          by_cases hz : st.2.2.2 ≠ 0
          · rw [if_pos hz] at hm
            rcases List.mem_append.mp hm with hm2 | hm2
            · exact hacc m hm2
            · simp only [List.mem_singleton] at hm2
              subst hm2
              exact hcur
          · rw [if_neg hz] at hm
            exact hacc m hm
        · exact hbs blk (by simp)
  intro m hm
  unfold matchingBlocks at hm
  rcases List.mem_append.mp hm with hm1 | hm1
  · have hres := haux (sortedBlocks a a) ([], 0, 0, 0) hsorted
      (fun x hx => absurd hx (List.not_mem_nil x)) rfl _ rfl
    have hNA : nonAdjacent (sortedBlocks a a)
        = (if ((sortedBlocks a a).foldl
            (fun (st : List (Nat × Nat × Nat) × Nat × Nat × Nat) blk =>
              if st.2.1 + st.2.2.2 = blk.1 ∧ st.2.2.1 + st.2.2.2 = blk.2.1 then
                (st.1, st.2.1, st.2.2.1, st.2.2.2 + blk.2.2)
              else
                ((if st.2.2.2 ≠ 0 then st.1 ++ [st.2] else st.1), blk))
            ([], 0, 0, 0)).2.2.2 ≠ 0
          then ((sortedBlocks a a).foldl
            (fun (st : List (Nat × Nat × Nat) × Nat × Nat × Nat) blk =>
              if st.2.1 + st.2.2.2 = blk.1 ∧ st.2.2.1 + st.2.2.2 = blk.2.1 then
                (st.1, st.2.1, st.2.2.1, st.2.2.2 + blk.2.2)
              else
                ((if st.2.2.2 ≠ 0 then st.1 ++ [st.2] else st.1), blk))
            ([], 0, 0, 0)).1 ++ [((sortedBlocks a a).foldl
            (fun (st : List (Nat × Nat × Nat) × Nat × Nat × Nat) blk =>
              if st.2.1 + st.2.2.2 = blk.1 ∧ st.2.2.1 + st.2.2.2 = blk.2.1 then
                (st.1, st.2.1, st.2.2.1, st.2.2.2 + blk.2.2)
              else
                ((if st.2.2.2 ≠ 0 then st.1 ++ [st.2] else st.1), blk))
            ([], 0, 0, 0)).2]
          else ((sortedBlocks a a).foldl
            (fun (st : List (Nat × Nat × Nat) × Nat × Nat × Nat) blk =>
              if st.2.1 + st.2.2.2 = blk.1 ∧ st.2.2.1 + st.2.2.2 = blk.2.1 then
                (st.1, st.2.1, st.2.2.1, st.2.2.2 + blk.2.2)
              else
                ((if st.2.2.2 ≠ 0 then st.1 ++ [st.2] else st.1), blk))
            ([], 0, 0, 0)).1) := rfl
    rw [hNA] at hm1
    by_cases hz : ((sortedBlocks a a).foldl
        (fun (st : List (Nat × Nat × Nat) × Nat × Nat × Nat) blk =>
          if st.2.1 + st.2.2.2 = blk.1 ∧ st.2.2.1 + st.2.2.2 = blk.2.1 then
            (st.1, st.2.1, st.2.2.1, st.2.2.2 + blk.2.2)
          else
            ((if st.2.2.2 ≠ 0 then st.1 ++ [st.2] else st.1), blk))
        ([], 0, 0, 0)).2.2.2 ≠ 0
    · rw [if_pos hz] at hm1
      rcases List.mem_append.mp hm1 with hm2 | hm2
      · exact hres.1 m hm2
      · simp only [List.mem_singleton] at hm2
        subst hm2
        exact hres.2
    · rw [if_neg hz] at hm1
      exact hres.1 m hm1
  · simp only [List.mem_singleton] at hm1
    subst hm1
    rfl

theorem zip_self_eq_map {α : Type _} : ∀ (l : List α),
    l.zip l = l.map (fun x => (x, x)) := by
  intro l
  induction l with
  | nil => rfl
  | cons x l ih => rw [List.zip_cons_cons, List.map_cons, ih]

theorem map_dup_range_append (i m : Nat) :
    (List.range i).map (fun t : Nat => (t, t))
      ++ (List.range' i m).map (fun t : Nat => (t, t))
      = (List.range (i + m)).map (fun t : Nat => (t, t)) := by
  rw [List.range'_eq_map_range, List.range_add, List.map_append, List.map_map]

theorem range_append_range' (i m : Nat) :
    List.range i ++ List.range' i m = List.range (i + m) := by
  rw [List.range'_eq_map_range, List.range_add]

theorem getOps_diag :
    ∀ (blocks : List (Nat × Nat × Nat)) (i : Nat)
      (acc : List (OpTag × Nat × Nat × Nat × Nat)),
      (∀ blk ∈ blocks, blk.1 = blk.2.1) →
      (∀ blk ∈ blocks, i ≤ blk.1) →
      List.Pairwise blockBefore blocks →
      ∀ res, res = blocks.foldl
        (fun (st : Nat × Nat × List (OpTag × Nat × Nat × Nat × Nat)) blk =>
          let i := st.1
          let j := st.2.1
          let withGap :=
            if i < blk.1 ∧ j < blk.2.1 then st.2.2 ++ [(OpTag.rep, i, blk.1, j, blk.2.1)]
            else if i < blk.1 then st.2.2 ++ [(OpTag.del, i, blk.1, j, blk.2.1)]
            else if j < blk.2.1 then st.2.2 ++ [(OpTag.ins, i, blk.1, j, blk.2.1)]
            else st.2.2
          (blk.1 + blk.2.2, blk.2.1 + blk.2.2,
            if blk.2.2 ≠ 0 then
              withGap ++ [(OpTag.eq, blk.1, blk.1 + blk.2.2, blk.2.1, blk.2.1 + blk.2.2)]
            else withGap))
        (i, i, acc) →
      res.2.2 = acc ++ diagOps i blocks := by
  intro blocks
  induction blocks with
  | nil =>
    intro i acc _ _ _ res hres
    subst hres
    show acc = acc ++ diagOps i []
    rw [show diagOps i [] = [] from rfl, List.append_nil]
  | cons blk bs ih =>
    obtain ⟨b1, bj, k⟩ := blk
    intro i acc hdiag hle hpw res hres
    have hd : b1 = bj := hdiag (b1, bj, k) (by simp)
    subst hd
    have hle1 : i ≤ b1 := hle (b1, b1, k) (by simp)
    rw [List.foldl_cons] at hres
    have hres2 : res = bs.foldl
        (fun (st : Nat × Nat × List (OpTag × Nat × Nat × Nat × Nat)) blk =>
          let i := st.1
          let j := st.2.1
          let withGap :=
            if i < blk.1 ∧ j < blk.2.1 then st.2.2 ++ [(OpTag.rep, i, blk.1, j, blk.2.1)]
            else if i < blk.1 then st.2.2 ++ [(OpTag.del, i, blk.1, j, blk.2.1)]
            else if j < blk.2.1 then st.2.2 ++ [(OpTag.ins, i, blk.1, j, blk.2.1)]
            else st.2.2
          (blk.1 + blk.2.2, blk.2.1 + blk.2.2,
            if blk.2.2 ≠ 0 then
              withGap ++ [(OpTag.eq, blk.1, blk.1 + blk.2.2, blk.2.1, blk.2.1 + blk.2.2)]
            else withGap))
        (b1 + k, b1 + k,
          if k ≠ 0 then
            (if i < b1 ∧ i < b1 then acc ++ [(OpTag.rep, i, b1, i, b1)]
             else if i < b1 then acc ++ [(OpTag.del, i, b1, i, b1)]
             else if i < b1 then acc ++ [(OpTag.ins, i, b1, i, b1)]
             else acc) ++ [(OpTag.eq, b1, b1 + k, b1, b1 + k)]
          else
            (if i < b1 ∧ i < b1 then acc ++ [(OpTag.rep, i, b1, i, b1)]
             else if i < b1 then acc ++ [(OpTag.del, i, b1, i, b1)]
             else if i < b1 then acc ++ [(OpTag.ins, i, b1, i, b1)]
             else acc)) := hres
    have hWG : (if i < b1 ∧ i < b1 then acc ++ [(OpTag.rep, i, b1, i, b1)]
        else if i < b1 then acc ++ [(OpTag.del, i, b1, i, b1)]
        else if i < b1 then acc ++ [(OpTag.ins, i, b1, i, b1)]
        else acc)
        = acc ++ (if i < b1 then [(OpTag.rep, i, b1, i, b1)] else []) := by
      by_cases hlt : i < b1
      · rw [if_pos ⟨hlt, hlt⟩, if_pos hlt]
      · rw [if_neg (fun h => hlt h.1), if_neg hlt, if_neg hlt, if_neg hlt,
          List.append_nil]
    rw [hWG] at hres2
    have hACC : (if k ≠ 0 then
          (acc ++ (if i < b1 then [(OpTag.rep, i, b1, i, b1)] else []))
            ++ [(OpTag.eq, b1, b1 + k, b1, b1 + k)]
        else acc ++ (if i < b1 then [(OpTag.rep, i, b1, i, b1)] else []))
        = acc ++ ((if i < b1 then [(OpTag.rep, i, b1, i, b1)] else [])
            ++ (if k ≠ 0 then [(OpTag.eq, b1, b1 + k, b1, b1 + k)] else [])) := by
      by_cases hk : k ≠ 0
      · rw [if_pos hk, if_pos hk, List.append_assoc]
      · rw [if_neg hk, if_neg hk, List.append_nil]
    rw [hACC] at hres2
    have hbs_le : ∀ blk' ∈ bs, b1 + k ≤ blk'.1 := by
      intro blk' hblk'
      have := (List.pairwise_cons.mp hpw).1 blk' hblk'
      have h1 := this.1
      show b1 + k ≤ blk'.1
      exact h1
    have hmain := ih (b1 + k)
      (acc ++ ((if i < b1 then [(OpTag.rep, i, b1, i, b1)] else [])
        ++ (if k ≠ 0 then [(OpTag.eq, b1, b1 + k, b1, b1 + k)] else [])))
      (fun blk' hblk' => hdiag blk' (by simp [hblk']))
      hbs_le (List.pairwise_cons.mp hpw).2 res hres2
    rw [hmain]
    show _ = acc ++ (((if i < b1 then [(OpTag.rep, i, b1, i, b1)] else [])
      ++ (if k ≠ 0 then [(OpTag.eq, b1, b1 + k, b1, b1 + k)] else []))
      ++ diagOps (b1 + k) bs)
    rw [List.append_assoc]

theorem alignStep_diag (x y : Nat) (hxy : x ≤ y) (tag : OpTag)
    (htag : tag = OpTag.eq ∨ tag = OpTag.rep)
    (al : List (Nat × Nat)) (used : List Nat)
    (hal : al = (List.range x).map (fun t : Nat => (t, t)))
    (hused : used = List.range x) :
    (fun (st : List (Nat × Nat) × List Nat) op =>
      if op.1 = OpTag.eq ∨ op.1 = OpTag.rep then
        (opPairs op).foldl
          (fun st2 p =>
            if st2.2.contains p.1 then st2 else (st2.1 ++ [p], st2.2 ++ [p.1]))
          st
      else st) (al, used) (tag, x, y, x, y)
      = ((List.range y).map (fun t : Nat => (t, t)), List.range y) := by
  show (if tag = OpTag.eq ∨ tag = OpTag.rep then
      (opPairs (tag, x, y, x, y)).foldl
        (fun st2 p =>
          if st2.2.contains p.1 then st2 else (st2.1 ++ [p], st2.2 ++ [p.1]))
        (al, used)
    else (al, used)) = _
  rw [if_pos htag]
  have hP : opPairs (tag, x, y, x, y)
      = (List.range' x (y - x)).map (fun t : Nat => (t, t)) := by
    show (List.range' x (y - x)).zip (List.range' x (y - x)) = _
    exact zip_self_eq_map _
  have hinner := alignPairs_fold (opPairs (tag, x, y, x, y)) al used
    (by
      show List.Pairwise lt2 ((List.range' x (y - x)).zip (List.range' x (y - x)))
      exact zip_range'_pairwise _ _ _ _)
    (by
      rw [hal, hused, List.map_map]
      rw [show ((Prod.fst ∘ fun t : Nat => (t, t)) : Nat → Nat)
        = (fun t : Nat => t) from rfl]
      rw [List.map_id'])
    (by
      intro p hp q hq
      rw [hal] at hp
      obtain ⟨t, ht, rfl⟩ := List.mem_map.mp hp
      rw [List.mem_range] at ht
      have hq' := @opPairs_mem (tag, x, y, x, y) q ⟨hxy, hxy⟩ hq
      have hq2 : x ≤ q.1 ∧ q.1 < y ∧ x ≤ q.2 ∧ q.2 < y := hq'
      exact ⟨show t < q.1 by omega, show t < q.2 by omega⟩)
  rw [hinner, hP, hal, hused]
  have h1 : (List.range x).map (fun t : Nat => (t, t))
      ++ (List.range' x (y - x)).map (fun t : Nat => (t, t))
      = (List.range y).map (fun t : Nat => (t, t)) := by
    rw [map_dup_range_append, Nat.add_sub_cancel' hxy]
  have h2 : List.range x
      ++ ((List.range' x (y - x)).map (fun t : Nat => (t, t))).map Prod.fst
      = List.range y := by
    rw [List.map_map]
    rw [show ((Prod.fst ∘ fun t : Nat => (t, t)) : Nat → Nat)
      = (fun t : Nat => t) from rfl]
    rw [List.map_id', range_append_range', Nat.add_sub_cancel' hxy]
  rw [h1, h2]

theorem buildAlign_diag :
    ∀ (blocks : List (Nat × Nat × Nat)) (i : Nat),
      (∀ blk ∈ blocks, i ≤ blk.1) →
      List.Pairwise blockBefore blocks →
      ∀ (al : List (Nat × Nat)) (used : List Nat),
        al = (List.range i).map (fun t : Nat => (t, t)) →
        used = List.range i →
        ∀ res, res = (diagOps i blocks).foldl
          (fun (st : List (Nat × Nat) × List Nat) op =>
            if op.1 = OpTag.eq ∨ op.1 = OpTag.rep then
              (opPairs op).foldl
                (fun st2 p =>
                  if st2.2.contains p.1 then st2 else (st2.1 ++ [p], st2.2 ++ [p.1]))
                st
            else st)
          (al, used) →
        res = ((List.range (diagEnd i blocks)).map (fun t : Nat => (t, t)),
          List.range (diagEnd i blocks)) := by
  intro blocks
  induction blocks with
  | nil =>
    intro i _ _ al used hal hused res hres
    subst hres
    rw [show diagOps i [] = [] from rfl, List.foldl_nil,
      show diagEnd i [] = i from rfl, hal, hused]
  | cons blk bs ih =>
    intro i hle hpw al used hal hused res hres
    have hle1 : i ≤ blk.1 := hle blk (by simp)
    rw [show diagOps i (blk :: bs)
        = ((if i < blk.1 then [(OpTag.rep, i, blk.1, i, blk.1)] else [])
          ++ (if blk.2.2 ≠ 0 then
              [(OpTag.eq, blk.1, blk.1 + blk.2.2, blk.1, blk.1 + blk.2.2)] else []))
          ++ diagOps (blk.1 + blk.2.2) bs from rfl,
      List.foldl_append, List.foldl_append] at hres
    have hgapState : ((if i < blk.1 then [(OpTag.rep, i, blk.1, i, blk.1)] else []).foldl
        (fun (st : List (Nat × Nat) × List Nat) op =>
          if op.1 = OpTag.eq ∨ op.1 = OpTag.rep then
            (opPairs op).foldl
              (fun st2 p =>
                if st2.2.contains p.1 then st2 else (st2.1 ++ [p], st2.2 ++ [p.1]))
              st
          else st)
        (al, used))
        = ((List.range blk.1).map (fun t : Nat => (t, t)), List.range blk.1) := by
      by_cases hgap : i < blk.1
      · rw [if_pos hgap, List.foldl_cons, List.foldl_nil]
        exact alignStep_diag i blk.1 (by omega) OpTag.rep (Or.inr rfl) al used hal hused
      · have hieq : i = blk.1 := by omega
        rw [if_neg hgap, List.foldl_nil, hal, hused, hieq]
    rw [hgapState] at hres
    have heqState : ((if blk.2.2 ≠ 0 then
          [(OpTag.eq, blk.1, blk.1 + blk.2.2, blk.1, blk.1 + blk.2.2)] else []).foldl
        (fun (st : List (Nat × Nat) × List Nat) op =>
          if op.1 = OpTag.eq ∨ op.1 = OpTag.rep then
            (opPairs op).foldl
              (fun st2 p =>
                if st2.2.contains p.1 then st2 else (st2.1 ++ [p], st2.2 ++ [p.1]))
              st
          else st)
        ((List.range blk.1).map (fun t : Nat => (t, t)), List.range blk.1))
        = ((List.range (blk.1 + blk.2.2)).map (fun t : Nat => (t, t)),
          List.range (blk.1 + blk.2.2)) := by
      by_cases hk : blk.2.2 ≠ 0
      · rw [if_pos hk, List.foldl_cons, List.foldl_nil]
        exact alignStep_diag blk.1 (blk.1 + blk.2.2) (by omega) OpTag.eq
          (Or.inl rfl) _ _ rfl rfl
      · have hz : blk.2.2 = 0 := by omega
        rw [if_neg hk, List.foldl_nil, hz, Nat.add_zero]
    rw [heqState] at hres
    rw [show diagEnd i (blk :: bs) = diagEnd (blk.1 + blk.2.2) bs from rfl]
    apply ih (blk.1 + blk.2.2)
      (fun blk' hblk' => by
        have := (List.pairwise_cons.mp hpw).1 blk' hblk'
        exact this.1)
      (List.pairwise_cons.mp hpw).2 _ _ rfl rfl res hres

theorem diagEnd_sentinel :
    ∀ (bs : List (Nat × Nat × Nat)) (i n m : Nat),
      diagEnd i (bs ++ [(n, m, 0)]) = n := by
  intro bs
  induction bs with
  | nil => intro i n m; rfl
  | cons blk bs ih =>
    intro i n m
    rw [List.cons_append]
    exact ih (blk.1 + blk.2.2) n m

/-- On equal token sequences the Sequence Aligner aligns every position to
itself: the alignment is the full diagonal. -/
theorem alignmentFor_self (a : List String) :
    alignmentFor a a = (List.range a.length).map (fun t : Nat => (t, t)) := by
  obtain ⟨hpw, hbd⟩ := matchingBlocks_props a a
  have hdiag := matchingBlocks_diag a
  have hle : ∀ blk ∈ matchingBlocks a a, 0 ≤ blk.1 := fun _ _ => Nat.zero_le _
  have hops : getOpcodes (matchingBlocks a a) = diagOps 0 (matchingBlocks a a) := by
    have h := getOps_diag (matchingBlocks a a) 0 [] hdiag hle hpw _ rfl
    unfold getOpcodes
    rw [h, List.nil_append]
  have hend : diagEnd 0 (matchingBlocks a a) = a.length := by
    unfold matchingBlocks
    exact diagEnd_sentinel _ _ _ _
  have hA := buildAlign_diag (matchingBlocks a a) 0 hle hpw [] []
    (by rw [List.range_zero]; rfl) (by rw [List.range_zero]) _ rfl
  unfold alignmentFor buildAlignment
  rw [hops, hA, hend]

/-- Rewrite idempotence on exact match (claim C3): if the cleaned
(punctuation-stripped, lower-cased) recognized word sequence equals the
equally cleaned authoritative token sequence, then the alignment is the
full diagonal — every recognized word is aligned, to the token at its own
index — the two sequences have the same length, and every rewritten word
carries the authoritative token at its index (with the documented
single-space separator for every pair after the first) while its original
start/end times are untouched. -/
theorem claim_C3_exact_match (segs : List (List TimedWord)) (text : String)
    (hnorm : segs.flatten.map (fun w => cleanToken w.word)
      = (originalWordsOf text).map cleanToken) :
    alignedPairsOf segs text
      = (List.range segs.flatten.length).map (fun t : Nat => (t, t)) ∧
    segs.flatten.length = (originalWordsOf text).length ∧
    (∀ k, k < segs.flatten.length →
      ((rewrittenAll segs text).getD k default).word
          = (if k = 0 then "" else " ") ++ (originalWordsOf text).getD k "" ∧
      ((rewrittenAll segs text).getD k default).start
          = (segs.flatten.getD k default).start ∧
      ((rewrittenAll segs text).getD k default).stop
          = (segs.flatten.getD k default).stop) := by
  have hlen : segs.flatten.length = (originalWordsOf text).length := by
    have := congrArg List.length hnorm
    rwa [List.length_map, List.length_map] at this
  have h1 : alignedPairsOf segs text
      = (List.range segs.flatten.length).map (fun t : Nat => (t, t)) := by
    unfold alignedPairsOf
    rw [← hnorm, alignmentFor_self, List.length_map]
  refine ⟨h1, hlen, ?_⟩
  have hprops := alignmentFor_props
    (segs.flatten.map (fun w => cleanToken w.word))
    ((originalWordsOf text).map cleanToken)
  have hpw : List.Pairwise lt2 (alignedPairsOf segs text) := hprops.1
  have hb : ∀ p ∈ alignedPairsOf segs text,
      p.1 < segs.flatten.length ∧ p.2 < (originalWordsOf text).length := by
    intro p hp
    have := hprops.2 p hp
    rw [List.length_map, List.length_map] at this
    exact this
  intro k hk
  have hklen : k < (alignedPairsOf segs text).length := by
    rw [h1, List.length_map, List.length_range]
    exact hk
  have hgetD : (alignedPairsOf segs text).getD k (0, 0) = (k, k) := by
    rw [h1, List.getD_eq_getElem?_getD, List.getElem?_map, List.getElem?_range hk]
    rfl
  have hh := rewriteWords_aligned segs.flatten (originalWordsOf text)
    (alignedPairsOf segs text) k hpw hb hklen
  rw [hgetD] at hh
  have hh2 : (rewrittenAll segs text).getD k default
      = { segs.flatten.getD k default with
          word := (if k = 0 then "" else " ")
            ++ (originalWordsOf text).getD k "" } := hh
  rw [hh2]
  exact ⟨rfl, rfl, rfl⟩

/-- Concrete instance of rewrite idempotence: the transcript
`[["Hello,", "WORLD"]]` against `"hello world!"` normalizes to the same
sequence; the alignment is the full diagonal and the second word is
rewritten to the space-prefixed second token with its times untouched. -/
theorem claim_C3_exact_match_witness :
    alignedPairsOf [[⟨"Hello,", 0, 1⟩, ⟨"WORLD", 1, 2⟩]] "hello world!"
      = (List.range ([[⟨"Hello,", 0, 1⟩, ⟨"WORLD", 1, 2⟩]] :
          List (List TimedWord)).flatten.length).map (fun t : Nat => (t, t)) ∧
    (((rewrittenAll [[⟨"Hello,", 0, 1⟩, ⟨"WORLD", 1, 2⟩]] "hello world!").getD
        1 default).word
        = (if 1 = 0 then "" else " ")
            ++ (originalWordsOf "hello world!").getD 1 "" ∧
      ((rewrittenAll [[⟨"Hello,", 0, 1⟩, ⟨"WORLD", 1, 2⟩]] "hello world!").getD
        1 default).start
        = (([[⟨"Hello,", 0, 1⟩, ⟨"WORLD", 1, 2⟩]] :
            List (List TimedWord)).flatten.getD 1 default).start ∧
      ((rewrittenAll [[⟨"Hello,", 0, 1⟩, ⟨"WORLD", 1, 2⟩]] "hello world!").getD
        1 default).stop
        = (([[⟨"Hello,", 0, 1⟩, ⟨"WORLD", 1, 2⟩]] :
            List (List TimedWord)).flatten.getD 1 default).stop) :=
  ⟨(claim_C3_exact_match [[⟨"Hello,", 0, 1⟩, ⟨"WORLD", 1, 2⟩]] "hello world!"
      (by decide)).1,
   (claim_C3_exact_match [[⟨"Hello,", 0, 1⟩, ⟨"WORLD", 1, 2⟩]] "hello world!"
      (by decide)).2.2 1 (by decide)⟩

/-! ## Stage H: the URL preprocessing (claim C10) -/

theorem subScan_nil : ∀ (fuel : Nat) (prev : Option Char),
    subScan fuel prev [] = [] := by
  intro fuel prev
  cases fuel with
  | zero => rfl
  | succ f => rfl

theorem subScan_nomatch_seg :
    ∀ (pre : List Char) (prev : Option Char) (rest : List Char) (fuel : Nat),
      pre.length ≤ fuel →
      (∀ k, k < pre.length → matchUrlAt (pre.drop k ++ rest) = none) →
      subScan fuel prev (pre ++ rest)
        = pre ++ subScan (fuel - pre.length) (prevAfter prev pre) rest := by
  intro pre
  induction pre with
  | nil =>
    intro prev rest fuel _ _
    rw [List.nil_append, List.nil_append]
    rfl
  | cons c pre' ih =>
    intro prev rest fuel hfuel hnm
    match fuel, hfuel with
    | f + 1, hf =>
      rw [List.cons_append]
      show (match (if boundaryBefore prev then matchUrlAt (c :: (pre' ++ rest))
          else none) with
        | some l =>
          urlReplace ((c :: (pre' ++ rest)).take l) ++
            subScan f (((c :: (pre' ++ rest)).take l).getLast?)
              ((c :: (pre' ++ rest)).drop l)
        | none => c :: subScan f (some c) (pre' ++ rest)) = _
      have hnone : (if boundaryBefore prev then
          matchUrlAt (c :: (pre' ++ rest)) else none) = none := by
        by_cases hbd : boundaryBefore prev
        · rw [if_pos hbd]
          have h0 := hnm 0 (by simp)
          rwa [List.drop_zero, List.cons_append] at h0
        · rw [if_neg hbd]
      rw [hnone]
      rw [ih (some c) rest f (by simp only [List.length_cons] at hf; omega)
        (fun k hk => by
          have := hnm (k + 1) (by simpa using hk)
          rwa [List.drop_succ_cons] at this)]
      show c :: (pre' ++ _) = (c :: pre') ++ (subScan (f + 1 - (pre'.length + 1)) _ rest)
      rw [List.cons_append]
      have harith : f - pre'.length = f + 1 - (pre'.length + 1) := by omega
      rw [harith]
      rfl

theorem urlReplace_length_ge : ∀ (u : List Char),
    u.length ≤ (urlReplace u).length := by
  intro u
  induction u with
  | nil => exact Nat.le_refl 0
  | cons c u' ih =>
    show (c :: u').length ≤ ((if c = '.' then ['.', ' '] else [c]) ++ urlReplace u').length
    rw [List.length_append, List.length_cons]
    by_cases hc : c = '.'
    · rw [if_pos hc]
      show u'.length + 1 ≤ 2 + (urlReplace u').length
      omega
    · rw [if_neg hc]
      show u'.length + 1 ≤ 1 + (urlReplace u').length
      omega

theorem urlReplace_length_gt : ∀ (u : List Char), '.' ∈ u →
    u.length < (urlReplace u).length := by
  intro u
  induction u with
  | nil => intro h; exact absurd h (List.not_mem_nil _)
  | cons c u' ih =>
    intro hmem
    show (c :: u').length < ((if c = '.' then ['.', ' '] else [c]) ++ urlReplace u').length
    rw [List.length_append, List.length_cons]
    by_cases hc : c = '.'
    · rw [if_pos hc]
      have := urlReplace_length_ge u'
      show u'.length + 1 < 2 + (urlReplace u').length
      omega
    · rw [if_neg hc]
      have hmem' : '.' ∈ u' := by
        rcases List.mem_cons.mp hmem with h | h
        · exact absurd h.symm hc
        · exact h
      have := ih hmem'
      show u'.length + 1 < 1 + (urlReplace u').length
      omega

/-- URL preprocessing before tokenization (claim C10): if the
authoritative text decomposes as `pre ++ u ++ post` where `u` is a token
matching the URL pattern at a word boundary (`matchUrlAt` consumes exactly
`u`) and neither `pre` nor `post` contains a match of its own, then the
copy handed to tokenization replaces `u` by `u` with every `.` turned into
`. `; the token sequence used for alignment is the whitespace
tokenization of that rewritten copy; and whenever `u` contains a dot the
preprocessed copy differs from the original text (the URL is broken into
separate dot-terminated fragments, as the witness shows on
`confess.coraxi.com`). -/
theorem claim_C10_url_preprocessing (pre u post : List Char)
    (hne : u ≠ [])
    (hb : boundaryBefore (prevAfter none pre) = true)
    (hm : matchUrlAt (u ++ post) = some u.length)
    (hpre : ∀ k, k < pre.length → matchUrlAt (pre.drop k ++ (u ++ post)) = none)
    (hpost : ∀ k, k < post.length → matchUrlAt (post.drop k) = none) :
    preprocessTextForWrapping (String.mk (pre ++ u ++ post))
      = String.mk (pre ++ urlReplace u ++ post) ∧
    originalWordsOf (String.mk (pre ++ u ++ post))
      = pySplit (String.mk (pre ++ urlReplace u ++ post)) ∧
    ('.' ∈ u → preprocessTextForWrapping (String.mk (pre ++ u ++ post))
      ≠ String.mk (pre ++ u ++ post)) := by
  have hlen : (pre ++ u ++ post).length = pre.length + (u.length + post.length) := by
    rw [List.append_assoc, List.length_append, List.length_append]
  have hmain : preprocessTextForWrapping (String.mk (pre ++ u ++ post))
      = String.mk (pre ++ urlReplace u ++ post) := by
    unfold preprocessTextForWrapping
    show String.mk (subScan (pre ++ u ++ post).length none
      (String.mk (pre ++ u ++ post)).data) = _
    have hdata : (String.mk (pre ++ u ++ post)).data = pre ++ (u ++ post) := by
      rw [List.append_assoc]
    rw [hdata]
    have hdatalen : (pre ++ u ++ post).length = pre.length + (u.length + post.length) :=
      hlen
    rw [hdatalen]
    rw [subScan_nomatch_seg pre none (u ++ post) _ (by omega) hpre]
    have harith : pre.length + (u.length + post.length) - pre.length
        = u.length + post.length := by omega
    rw [harith]
    match u, hne with
    | c :: u', _ =>
      have hstep : subScan ((c :: u').length + post.length) (prevAfter none pre)
          ((c :: u') ++ post)
          = urlReplace (c :: u') ++ post := by
        rw [List.cons_append]
        have hfuel : (c :: u').length + post.length = (u'.length + post.length) + 1 := by
          rw [List.length_cons]
          omega
        rw [hfuel]
        show (match (if boundaryBefore (prevAfter none pre) then
            matchUrlAt (c :: (u' ++ post)) else none) with
          | some l =>
            urlReplace ((c :: (u' ++ post)).take l) ++
              subScan (u'.length + post.length)
                (((c :: (u' ++ post)).take l).getLast?)
                ((c :: (u' ++ post)).drop l)
          | none => c :: subScan (u'.length + post.length) (some c) (u' ++ post)) = _

        rw [if_pos hb]
        rw [show (c :: (u' ++ post)) = (c :: u') ++ post
          from (List.cons_append c u' post).symm]
        rw [hm]
        show urlReplace (((c :: u') ++ post).take (c :: u').length) ++
            subScan (u'.length + post.length)
              ((((c :: u') ++ post).take (c :: u').length).getLast?)
              (((c :: u') ++ post).drop (c :: u').length)
          = urlReplace (c :: u') ++ post
        rw [List.take_left' rfl, List.drop_left' rfl]
        congr 1
        have hpost' : ∀ k, k < post.length →
            matchUrlAt (post.drop k ++ ([] : List Char)) = none := by
          intro k hk
          rw [List.append_nil]
          exact hpost k hk
        have := subScan_nomatch_seg post ((c :: u').getLast?) []
          (u'.length + post.length) (by rw [List.length_cons] at *; omega) hpost'
        rw [List.append_nil] at this
        rw [this, subScan_nil, List.append_nil]
      rw [hstep]
      rw [show pre ++ urlReplace (c :: u') ++ post
        = pre ++ (urlReplace (c :: u') ++ post) from List.append_assoc _ _ _]
  refine ⟨hmain, ?_, ?_⟩
  · unfold originalWordsOf
    rw [hmain]
  · intro hdot heq
    have hdata : pre ++ urlReplace u ++ post = pre ++ u ++ post := by
      have := congrArg String.data (hmain.symm.trans heq)
      exact this
    have h1 := congrArg List.length hdata
    rw [List.append_assoc, List.append_assoc, List.length_append,
      List.length_append, List.length_append, List.length_append] at h1
    have := urlReplace_length_gt u hdot
    omega

/-- Concrete instance of the URL preprocessing: in
`"Visit confess.coraxi.com now"` the URL token is rewritten with `. `
at each dot, and the alignment token sequence contains the
dot-terminated fragments `confess.`, `coraxi.`, `com`. -/
theorem claim_C10_url_preprocessing_witness :
    preprocessTextForWrapping (String.mk ("Visit ".data
        ++ "confess.coraxi.com".data ++ " now".data))
      = String.mk ("Visit ".data ++ urlReplace "confess.coraxi.com".data
        ++ " now".data) ∧
    originalWordsOf (String.mk ("Visit ".data
        ++ "confess.coraxi.com".data ++ " now".data))
      = ["Visit", "confess.", "coraxi.", "com", "now"] ∧
    preprocessTextForWrapping (String.mk ("Visit ".data
        ++ "confess.coraxi.com".data ++ " now".data))
      ≠ String.mk ("Visit ".data ++ "confess.coraxi.com".data ++ " now".data) :=
  ⟨(claim_C10_url_preprocessing "Visit ".data "confess.coraxi.com".data
      " now".data (by decide) (by decide) (by decide) (by decide) (by decide)).1,
   by decide,
   (claim_C10_url_preprocessing "Visit ".data "confess.coraxi.com".data
      " now".data (by decide) (by decide) (by decide) (by decide) (by decide)).2.2
      (by decide)⟩

end WhisperTikTok
